import Mathlib

/-!
The libbitcoin class template `resubscriber<Args...>`.

A shallow embedding of `include/bitcoin/bitcoin/impl/utility/resubscriber.ipp`.

The object's data members are the record `resubscriber`.  A run of the program
is a `Config`: the object, the state of the handlers' closures (`world`), the
work handed to the ordered dispatcher, and a ghost `trace` that records, in
program order, every statement the member functions execute (lock operations,
writes to the members, handler calls and returns).  Each trace entry carries
the nesting depth of handler bodies at which it happened, so the statements a
member function executes itself can be told apart from those executed by calls
a handler makes from inside its body.

Handlers are `std::function<bool(Args...)>` values.  A handler is named by a
number; what its body does is given by a `Script`: it may update its closure
state, call back into the notifier any number of times, and finally returns a
boolean.  Because a body may call `invoke` or `subscribe` again, running a
handler takes a fuel argument bounding the nesting of handler bodies.

Two things the source file uses are declared elsewhere.  The type
`unique_lock` comes from `utility/thread.hpp`: the statements
`unique_lock(invoke_mutex_);` and `unique_lock(subscribe_mutex_);` are
recorded as such, and what they do to the mutexes is a parameter (`guarded`)
of the functions that follow the mutexes along a trace.  The ordered
dispatcher comes from `utility/dispatcher.hpp`: its queue is the field
`dispatch_` and its behaviour (`dispatch_run`) is taken from the spec.
-/

namespace libbitcoin

/-- A subscriber: the name of a `std::function<bool(Args...)>` value. -/
abbrev handler := Nat

/-- The two mutex members of the class. -/
inductive Mutex where
  | subscribe_mutex_
  | invoke_mutex_
  deriving DecidableEq, Repr

/-- The public member functions, as calls with their arguments. -/
inductive Call (Args : Type) where
  | start
  | stop
  | subscribe (h : handler) (stopped_args : Args)
  | invoke (args : Args)
  | relay (args : Args)
  deriving DecidableEq, Repr

/-- The body of a handler, from a given closure state: either it returns `b`
leaving the closure state `w`, or it sets the closure state to `w`, calls the
notifier, and goes on from the closure state found after that call. -/
inductive Script (Args W : Type) where
  | ret (b : Bool) (w : W)
  | call (w : W) (c : Call Args) (k : W → Script Args W)

/-- The body returns at once, without calling the notifier. -/
def Script.isRet {Args W : Type} : Script Args W → Bool
  | .ret _ _ => true
  | .call _ _ _ => false

/-- The call is `start()`. -/
def Call.is_start {Args : Type} : Call Args → Bool
  | .start => true
  | _ => false

/-- The call is `stop()`. -/
def Call.is_stop {Args : Type} : Call Args → Bool
  | .stop => true
  | _ => false

/-- The call is `subscribe(h, x)`. -/
def Call.is_subscribe {Args : Type} : Call Args → Bool
  | .subscribe _ _ => true
  | _ => false

/-- The call is `invoke(args)`. -/
def Call.is_invoke {Args : Type} : Call Args → Bool
  | .invoke _ => true
  | _ => false

/-- Every call the body makes to the notifier satisfies `p`. -/
inductive Script.Calls {Args W : Type} (p : Call Args → Prop) : Script Args W → Prop where
  | ret (b : Bool) (w : W) : Script.Calls p (.ret b w)
  | call (w : W) (cl : Call Args) (k : W → Script Args W) (hcl : p cl)
      (hk : ∀ v, Script.Calls p (k v)) : Script.Calls p (.call w cl k)

/-- The statements of the member functions that the trace records. -/
inductive Event (Args : Type) where
  /-- The call `subscribe_mutex_.lock_upgrade()` -/
  | lock_upgrade
  /-- The call `subscribe_mutex_.unlock_upgrade()` -/
  | unlock_upgrade
  /-- The call `subscribe_mutex_.unlock_upgrade_and_lock()` -/
  | unlock_upgrade_and_lock
  /-- The call `subscribe_mutex_.unlock()` -/
  | unlock
  /-- The call `subscribe_mutex_.lock()` -/
  | lock
  /-- The statement `unique_lock(m);` -/
  | unique_lock (m : Mutex)
  /-- The assignment `stopped_ = b` -/
  | set_stopped (b : Bool)
  /-- The call `subscriptions_.emplace_back(h)` -/
  | emplace_back (h : handler)
  /-- The call `std::swap(subscriptions, subscriptions_)`, the local list empty -/
  | swap
  /-- A handler is called: `handler(args...)` -/
  | call (h : handler) (args : Args)
  /-- The call of the handler returned `b` -/
  | ret (h : handler) (b : Bool)
  /-- The call `dispatch_.ordered(&do_invoke, shared_from_this(), args...)` -/
  | ordered (args : Args)
  deriving DecidableEq, Repr

/-- The data members `stopped_` and `subscriptions_`. -/
structure resubscriber where
  stopped_ : Bool
  subscriptions_ : List handler
  deriving DecidableEq, Repr

/-- A point in a run of the program. -/
structure Config (Args W : Type) where
  /-- The object -/
  self : resubscriber
  /-- The `do_invoke` units handed to the ordered dispatcher, oldest first -/
  dispatch_ : List Args
  /-- The state of the handlers' closures -/
  world : W
  /-- How many handler bodies are being executed -/
  depth : Nat
  /-- The statements executed so far, each with the depth it ran at -/
  trace : List (Nat × Event Args)
  deriving DecidableEq, Repr

section ops
variable {Args W : Type}

/-- Record a statement in the trace. -/
def Config.log (c : Config Args W) (e : Event Args) : Config Args W :=
  { c with trace := c.trace ++ [(c.depth, e)] }

/-- The statement `stopped_ = b;` -/
def Config.set_stopped (c : Config Args W) (b : Bool) : Config Args W :=
  { c.log (.set_stopped b) with self := { c.self with stopped_ := b } }

/-- The statement `subscriptions_.emplace_back(h);` -/
def Config.emplace_back (c : Config Args W) (h : handler) : Config Args W :=
  { c.log (.emplace_back h) with
    self := { c.self with subscriptions_ := c.self.subscriptions_ ++ [h] } }

/-- The statements `list subscriptions; std::swap(subscriptions, subscriptions_);` : the
member list becomes empty (the local list is what the member list was). -/
def Config.swap (c : Config Args W) : Config Args W :=
  { c.log .swap with self := { c.self with subscriptions_ := [] } }

/-- The constructor: `stopped_(true)`, the list default-constructed. -/
def construct (w : W) : Config Args W :=
  { self := { stopped_ := true, subscriptions_ := [] }
    dispatch_ := []
    world := w
    depth := 0
    trace := [] }

/-- The condition the destructor asserts: `subscriptions_.empty()`. -/
def destructor_assertion (c : Config Args W) : Bool :=
  c.self.subscriptions_.isEmpty

/-- The member function `resubscriber::start()` -/
def start (c : Config Args W) : Config Args W :=
  let c1 := c.log .lock_upgrade
  if c1.self.stopped_ then
    (((c1.log .unlock_upgrade_and_lock).set_stopped false).log .unlock)
  else
    c1.log .unlock_upgrade

/-- The member function `resubscriber::stop()` -/
def stop (c : Config Args W) : Config Args W :=
  let c1 := c.log .lock_upgrade
  if !c1.self.stopped_ then
    (((c1.log .unlock_upgrade_and_lock).set_stopped true).log .unlock)
  else
    c1.log .unlock_upgrade

/-- The member function `resubscriber::subscribe(handler, stopped_args...)`; `inv` runs a call of
a handler. -/
def subscribe (inv : handler → Args → Config Args W → Option (Bool × Config Args W))
    (h : handler) (stopped_args : Args) (c : Config Args W) : Option (Config Args W) :=
  let c1 := c.log .lock_upgrade
  if !c1.self.stopped_ then
    some (((c1.log .unlock_upgrade_and_lock).emplace_back h).log .unlock)
  else
    match inv h stopped_args (c1.log .unlock_upgrade) with
    | none => none
    | some (_, c2) => some c2

/-- The loop of `do_invoke` over the local list `subscriptions`. -/
def do_invoke_loop (inv : handler → Args → Config Args W → Option (Bool × Config Args W))
    (args : Args) : List handler → Config Args W → Option (Config Args W)
  | [], c => some c
  | h :: rest, c =>
    match inv h args c with
    | none => none
    | some (true, c1) =>
      do_invoke_loop inv args rest ((c1.log (.unique_lock .subscribe_mutex_)).emplace_back h)
    | some (false, c1) => do_invoke_loop inv args rest c1

/-- The member function `resubscriber::do_invoke(args...)` -/
def do_invoke (inv : handler → Args → Config Args W → Option (Bool × Config Args W))
    (args : Args) (c : Config Args W) : Option (Config Args W) :=
  let c1 := c.log .lock
  let subscriptions := c1.self.subscriptions_
  do_invoke_loop inv args subscriptions (c1.swap.log .unlock)

/-- The member function `resubscriber::invoke(args...)` -/
def invoke (inv : handler → Args → Config Args W → Option (Bool × Config Args W))
    (args : Args) (c : Config Args W) : Option (Config Args W) :=
  do_invoke inv args (c.log (.unique_lock .invoke_mutex_))

/-- Modelled from the spec: `dispatcher::ordered` is not in the source file;
the spec says it accepts a unit of work for later, ordered, one-at-a-time
execution and returns immediately.  `resubscriber::relay(args...)` hands it
`do_invoke(args...)`. -/
def relay (args : Args) (c : Config Args W) : Config Args W :=
  { c.log (.ordered args) with dispatch_ := c.dispatch_ ++ [args] }

/-- A call of a member function. -/
def exec (inv : handler → Args → Config Args W → Option (Bool × Config Args W)) :
    Call Args → Config Args W → Option (Config Args W)
  | .start, c => some (start c)
  | .stop, c => some (stop c)
  | .subscribe h x, c => subscribe inv h x c
  | .invoke a, c => invoke inv a c
  | .relay a, c => some (relay a c)

/-- Run the body of a handler; `call` performs the calls it makes. -/
def run_script (call : Call Args → Config Args W → Option (Config Args W)) :
    Script Args W → Config Args W → Option (Bool × Config Args W)
  | .ret b w, c => some (b, { c with world := w })
  | .call w cl k, c =>
    match call cl { c with world := w } with
    | none => none
    | some c1 => run_script call (k c1.world) c1

/-- The call `handler(args...)` of handler `h`, whose body is `code h args`:
the call is recorded, the body runs one level deeper, the return is recorded.
With no fuel left the call does not return. -/
def call_handler (code : handler → Args → W → Script Args W) :
    Nat → handler → Args → Config Args W → Option (Bool × Config Args W)
  | 0, _, _, _ => none
  | fuel + 1, h, args, c =>
    match run_script (exec (call_handler code fuel)) (code h args c.world)
        { c.log (.call h args) with depth := c.depth + 1 } with
    | none => none
    | some (b, c1) => some (b, Config.log { c1 with depth := c.depth } (.ret h b))

/-- A sequence of calls made one after the other by the owner. -/
def run (code : handler → Args → W → Script Args W) (fuel : Nat) :
    List (Call Args) → Config Args W → Option (Config Args W)
  | [], c => some c
  | cl :: rest, c =>
    match exec (call_handler code fuel) cl c with
    | none => none
    | some c1 => run code fuel rest c1

/-- The handler and payload of a recorded handler call. -/
def Event.as_call : Event Args → Option (handler × Args)
  | .call h a => some (h, a)
  | _ => none

/-- The handler and returned boolean of a recorded handler return. -/
def Event.as_ret : Event Args → Option (handler × Bool)
  | .ret h b => some (h, b)
  | _ => none

/-- The handler calls recorded in a piece of trace, at any depth, in order. -/
def calls (t : List (Nat × Event Args)) : List (handler × Args) :=
  t.filterMap (fun e => e.2.as_call)

/-- The handler returns recorded in a piece of trace, at any depth, in order. -/
def rets (t : List (Nat × Event Args)) : List (handler × Bool) :=
  t.filterMap (fun e => e.2.as_ret)

/-- The statements of a piece of trace that ran at depth `d`. -/
def own (d : Nat) (t : List (Nat × Event Args)) : List (Nat × Event Args) :=
  t.filter (fun e => e.1 == d)

/-- The part of the trace of `c1` recorded after `c`. -/
def since (c c1 : Config Args W) : List (Nat × Event Args) :=
  c1.trace.drop c.trace.length

/-- The handler of a recorded `emplace_back`. -/
def Event.as_emplace_back : Event Args → Option handler
  | .emplace_back h => some h
  | _ => none

/-- The handlers appended to `subscriptions_` in a piece of trace, at any
depth, in order. -/
def registered (t : List (Nat × Event Args)) : List handler :=
  t.filterMap (fun e => e.2.as_emplace_back)

/-- What the running thread holds of `subscribe_mutex_`. -/
inductive Held where
  | free
  | upgrade
  | exclusive
  deriving DecidableEq, Repr

/-- The effect of one statement on what the running thread holds of
`subscribe_mutex_`; `none` when the thread would wait for itself (the mutex is
not recursive) or releases what it does not hold.

What the statement `unique_lock(subscribe_mutex_);` does depends on the
declaration of `unique_lock` in `utility/thread.hpp`, which is not part of the
source file.  With `unique_lock` a class type the statement declares a local,
default-constructed guard named `subscribe_mutex_` and performs no operation on
the member mutex: `guarded = false`.  Read as a guard on the member that lives
to the end of the enclosing block, it takes the mutex exclusively, which needs
it free, and releases it after the `emplace_back` that follows, before any
other recorded statement: `guarded = true`. -/
def Held.step (guarded : Bool) : Held → Event Args → Option Held
  | .free, .lock_upgrade => some .upgrade
  | _, .lock_upgrade => none
  | .upgrade, .unlock_upgrade => some .free
  | _, .unlock_upgrade => none
  | .upgrade, .unlock_upgrade_and_lock => some .exclusive
  | _, .unlock_upgrade_and_lock => none
  | .exclusive, .unlock => some .free
  | _, .unlock => none
  | .free, .lock => some .exclusive
  | _, .lock => none
  | .free, .unique_lock .subscribe_mutex_ => some .free
  | s, .unique_lock .subscribe_mutex_ => if guarded then none else some s
  | s, _ => some s

/-- Follow `subscribe_mutex_` along a piece of trace of one thread. -/
def replay (guarded : Bool) : Held → List (Nat × Event Args) → Option Held
  | s, [] => some s
  | s, e :: t =>
    match s.step guarded e.2 with
    | none => none
    | some s1 => replay guarded s1 t

/-- From `c` to `c1` the trace only grew, by statements at depth `d` or deeper,
and the depth is back to what it was. -/
def Extends (d : Nat) (c c1 : Config Args W) : Prop :=
  c1.depth = c.depth ∧ ∃ t, c1.trace = c.trace ++ t ∧ ∀ e ∈ t, d ≤ e.1

/-- A way of running handler calls records each call as: the call, then
statements one level deeper or more, then the return. -/
def Bracketed (inv : handler → Args → Config Args W → Option (Bool × Config Args W)) : Prop :=
  ∀ h a c b c1, inv h a c = some (b, c1) →
    c1.depth = c.depth ∧
    ∃ t, c1.trace = c.trace ++ ((c.depth, Event.call h a) :: (t ++ [(c.depth, Event.ret h b)])) ∧
      ∀ e ∈ t, c.depth + 1 ≤ e.1

/-- The statement names a mutex: a call of a member function of
`subscribe_mutex_`, or the statement `unique_lock(m);`. -/
def Event.is_lock_op : Event Args → Bool
  | .lock_upgrade => true
  | .unlock_upgrade => true
  | .unlock_upgrade_and_lock => true
  | .unlock => true
  | .lock => true
  | .unique_lock _ => true
  | _ => false

/-- The statements of a piece of trace that name a mutex, in order. -/
def lock_ops (t : List (Nat × Event Args)) : List (Nat × Event Args) :=
  t.filter (fun e => e.2.is_lock_op)

/-- The same point of a run with the flag `stopped_` set to `f` (nothing is
recorded: this is not a statement of the program). -/
def Config.with_stopped (c : Config Args W) (f : Bool) : Config Args W :=
  { c with self := { c.self with stopped_ := f } }

/-- What the running thread holds of `invoke_mutex_` at each
`std::swap(subscriptions, subscriptions_)` recorded in a piece of trace.  The
only statement of the file that names `invoke_mutex_` is
`unique_lock(invoke_mutex_);` in `invoke`.  With `unique_lock` a class type it
declares a local, default-constructed guard named `invoke_mutex_` and performs
no operation on the member mutex: `guarded = false`.  Read as a guard on the
member that lives to the end of `invoke`, it takes the mutex exclusively
(`guarded = true`); a thread that already holds it waits for itself, and
nothing more is recorded.  The end of `invoke` is not a recorded statement:
with `guarded = true` the function is meant for the trace of one outermost
call of `invoke`. -/
def invoke_mutex_at_swaps (guarded : Bool) : Held → List (Nat × Event Args) → List Held
  | _, [] => []
  | s, (_, .unique_lock .invoke_mutex_) :: t =>
    if guarded then
      (if s = .free then invoke_mutex_at_swaps guarded .exclusive t else [])
    else invoke_mutex_at_swaps guarded s t
  | s, (_, .swap) :: t => s :: invoke_mutex_at_swaps guarded s t
  | s, _ :: t => invoke_mutex_at_swaps guarded s t

/-- What the running thread holds of `subscribe_mutex_` at each write of
`subscriptions_` (`emplace_back`, `swap`) recorded in a piece of trace, with
the write.  The block `{ unique_lock(subscribe_mutex_);
subscriptions_.emplace_back(handler); }` of `do_invoke` is taken as a whole:
with `guarded = false` the first statement performs no operation on the member
mutex and the append happens with what the thread held before; with
`guarded = true` the guard takes the mutex exclusively for the append and
releases it at the closing brace. -/
def held_at_writes (guarded : Bool) :
    Held → List (Nat × Event Args) → List (Event Args × Held)
  | _, [] => []
  | s, (_, .unique_lock .subscribe_mutex_) :: (_, .emplace_back h) :: t =>
    if guarded then
      (if s = .free then (.emplace_back h, .exclusive) :: held_at_writes guarded s t else [])
    else (.emplace_back h, s) :: held_at_writes guarded s t
  | s, (_, .emplace_back h) :: t => (.emplace_back h, s) :: held_at_writes guarded s t
  | s, (_, .swap) :: t => (.swap, s) :: held_at_writes guarded s t
  | s, e :: t =>
    match s.step guarded e.2 with
    | none => []
    | some s1 => held_at_writes guarded s1 t

/-- What the running thread holds of `subscribe_mutex_` at each handler call
recorded in a piece of trace, at any depth, in order; the list ends where the
thread would wait for itself. -/
def held_at_calls (guarded : Bool) : Held → List (Nat × Event Args) → List Held
  | _, [] => []
  | s, e :: t =>
    match s.step guarded e.2 with
    | none => []
    | some s1 =>
      (if e.2.as_call.isSome then [s] else []) ++ held_at_calls guarded s1 t

/-- A piece of trace along which the running thread, not holding
`subscribe_mutex_` at its start, never waits for itself, makes every handler
call without holding the mutex, and ends not holding it. -/
def Unheld (guarded : Bool) (t : List (Nat × Event Args)) : Prop :=
  replay guarded .free t = some .free ∧ ∀ s ∈ held_at_calls guarded .free t, s = .free

/-- A way of running handler calls never calls a handler with
`subscribe_mutex_` held, provided it is not held at the call. -/
def UnheldCalls (inv : handler → Args → Config Args W → Option (Bool × Config Args W)) : Prop :=
  ∀ h a c b c1, inv h a c = some (b, c1) →
    ∃ t, c1.trace = c.trace ++ t ∧ ∀ guarded, Unheld guarded t

/-- From `c` to `c1` the trace grew by a piece that is `Unheld` under both
readings of `unique_lock(subscribe_mutex_);`. -/
def Calm (c c1 : Config Args W) : Prop :=
  ∃ t, c1.trace = c.trace ++ t ∧ ∀ guarded, Unheld guarded t

/-- The handlers appended by `subscribe` in a piece of trace, at any depth, in
order: in `subscribe` the statement `subscriptions_.emplace_back(handler)`
follows `subscribe_mutex_.unlock_upgrade_and_lock()`, which nothing else
does. -/
def subscribed : List (Nat × Event Args) → List handler
  | [] => []
  | (_, .unlock_upgrade_and_lock) :: (_, .emplace_back h) :: t => h :: subscribed t
  | _ :: t => subscribed t

/-- No call the body makes to the notifier is `start`. -/
inductive Script.NeverStarts : Script Args W → Prop where
  | ret (b : Bool) (w : W) : Script.NeverStarts (.ret b w)
  | call (w : W) (cl : Call Args) (k : W → Script Args W) (hcl : cl ≠ .start)
      (hk : ∀ v, Script.NeverStarts (k v)) : Script.NeverStarts (.call w cl k)

/-- Whatever the calls it makes, the body returns `false`. -/
inductive Script.ReturnsFalse : Script Args W → Prop where
  | ret (w : W) : Script.ReturnsFalse (.ret false w)
  | call (w : W) (cl : Call Args) (k : W → Script Args W)
      (hk : ∀ v, Script.ReturnsFalse (k v)) : Script.ReturnsFalse (.call w cl k)

/-- Modelled from the spec: the ordered dispatcher (`dispatcher::ordered`, not
in the source file) runs the units handed to it in submission order, one at a
time.  Here it runs up to `units` of the pending units: each time the oldest
pending `do_invoke(args...)` is taken off the queue and run to completion. -/
def dispatch_run (inv : handler → Args → Config Args W → Option (Bool × Config Args W)) :
    Nat → Config Args W → Option (Config Args W)
  | 0, c => some c
  | units + 1, c =>
    match c.dispatch_ with
    | [] => some c
    | a :: rest =>
      match do_invoke inv a { c with dispatch_ := rest } with
      | none => none
      | some c1 => dispatch_run inv units c1

/-- From `c` to `c1` the trace only grew, and the list grew by exactly the
handlers whose `emplace_back` was recorded on the way: nothing was taken off
it. -/
def Grows (c c1 : Config Args W) : Prop :=
  ∃ t, c1.trace = c.trace ++ t ∧
    c1.self.subscriptions_ = c.self.subscriptions_ ++ registered t

/-- A piece of trace in which `subscribe` appended no handler, and which does
not end in the middle of an append by `subscribe`. -/
def Unsubscribed (t : List (Nat × Event Args)) : Prop :=
  subscribed t = [] ∧ ∀ e ∈ t.getLast?, e.2 ≠ .unlock_upgrade_and_lock

/-- From `c` to `c1` the trace grew by a piece in which `subscribe` appended
no handler, and the list lost entries at most: it is a sub-sequence of what it
was. -/
def Keeps (c c1 : Config Args W) : Prop :=
  ∃ t, c1.trace = c.trace ++ t ∧ Unsubscribed t ∧
    c1.self.subscriptions_.Sublist c.self.subscriptions_

/-- From `c` to `c1` the trace grew by a piece that does not end in the middle
of an append by `subscribe`, and if `subscribe` appended no handler in that
piece the list lost entries at most: it is a sub-sequence of what it was. -/
def Orders (c c1 : Config Args W) : Prop :=
  ∃ t, c1.trace = c.trace ++ t ∧ (∀ e ∈ t.getLast?, e.2 ≠ .unlock_upgrade_and_lock) ∧
    (subscribed t = [] → c1.self.subscriptions_.Sublist c.self.subscriptions_)

/-- A statement that a round of `do_invoke` executes itself after its swap:
the unlock, a handler call or return, and the two statements of the
re-append. -/
def Event.in_round : Event Args → Bool
  | .unlock => true
  | .call _ _ => true
  | .ret _ _ => true
  | .unique_lock .subscribe_mutex_ => true
  | .emplace_back _ => true
  | _ => false

/-- The delivery rounds in flight along a piece of trace of one thread; `begun`
holds the depths at which the rounds in flight began.  A round begins at its
`swap`.  When a statement is recorded at depth `d`, the rounds begun deeper
than `d` are over (control is back at depth `d`), and the round begun at depth
`d` is over unless the statement is one of its own (`Event.in_round`); the
rounds begun at a smaller depth are waiting for a handler call to return.  The
result lists, for each `swap` of the trace, how many rounds are in flight once
that round has begun. -/
def rounds_in_flight : List Nat → List (Nat × Event Args) → List Nat
  | _, [] => []
  | begun, (d, e) :: t =>
    let running := begun.filter (fun r => r < d || (r == d && e.in_round))
    match e with
    | .swap => (running.length + 1) :: rounds_in_flight (d :: running) t
    | _ => rounds_in_flight running t

end ops

section samples

/-- Sample handlers without closure state, none calling the notifier: handler
1 asks to be removed, every other handler asks to stay. -/
def drop_first : handler → Nat → Unit → Script Nat Unit :=
  fun h _ w => .ret (h != 1) w

/-- Sample handlers: each counts its calls in the closure state and asks to
stay; none calls the notifier. -/
def counting : handler → Nat → Nat → Script Nat Nat :=
  fun _ _ w => .ret true (w + 1)

/-- Sample handlers taking a string: each asks to be removed; none calls the
notifier. -/
def closing : handler → String → Unit → Script String Unit :=
  fun _ _ w => .ret false w

/-- Sample handlers: handler 1 calls `subscribe(3, 0)` from inside its body
and then asks to stay; every other handler just asks to stay. -/
def resubscribing : handler → Nat → Unit → Script Nat Unit :=
  fun h _ w =>
    if h = 1 then .call w (.subscribe 3 0) (fun v => .ret true v) else .ret true w

/-- Sample handlers: handler 1 calls `start()` from inside its body. -/
def restarting : handler → Nat → Unit → Script Nat Unit :=
  fun h _ w =>
    if h = 1 then .call w .start (fun v => .ret true v) else .ret true w

/-- A started notifier with subscribers 1 and 2, in that order. -/
def started12 : Config Nat Unit :=
  { self := { stopped_ := false, subscriptions_ := [1, 2] }
    dispatch_ := []
    world := ()
    depth := 0
    trace := [] }

/-- Sample handlers: handler 2 calls `invoke(7)` from inside its body and
then asks to stay; handler 1 asks to stay, every other handler asks to be
removed; only handler 2 calls the notifier. -/
def reinvoking : handler → Nat → Unit → Script Nat Unit :=
  fun h _ w =>
    if h = 2 then .call w (.invoke 7) (fun v => .ret true v) else .ret (h == 1) w

/-- Sample handlers: handler 1 calls `subscribe(3, 0)` from inside its body;
every handler asks to be removed. -/
def leaving : handler → Nat → Unit → Script Nat Unit :=
  fun h _ w =>
    if h = 1 then .call w (.subscribe 3 0) (fun v => .ret false v) else .ret false w

/-- A started notifier with subscribers 1, 2 and 3, in that order. -/
def started123 : Config Nat Unit :=
  { self := { stopped_ := false, subscriptions_ := [1, 2, 3] }
    dispatch_ := []
    world := ()
    depth := 0
    trace := [] }

/-- A started notifier of string events with subscribers 1 and 2. -/
def started12s : Config String Unit :=
  { self := { stopped_ := false, subscriptions_ := [1, 2] }
    dispatch_ := []
    world := ()
    depth := 0
    trace := [] }

/-- Sample handlers: called with 5, handler 1 calls `subscribe(3, 0)` and
handler 2 calls `invoke(7)` from inside their bodies; handler 3 asks to be
removed, every other handler asks to stay. -/
def mixed : handler → Nat → Unit → Script Nat Unit :=
  fun h a w =>
    if h = 1 ∧ a = 5 then .call w (.subscribe 3 0) (fun v => .ret true v)
    else if h = 2 ∧ a = 5 then .call w (.invoke 7) (fun v => .ret true v)
    else .ret (h != 3) w

/-- Sample handlers: handler 1 calls `stop()` from inside its body. -/
def halting : handler → Nat → Unit → Script Nat Unit :=
  fun h _ w =>
    if h = 1 then .call w .stop (fun v => .ret true v) else .ret true w

end samples

section lifecycle
variable {Args W : Type}

theorem since_eq (c c1 : Config Args W) (t : List (Nat × Event Args))
    (h : c1.trace = c.trace ++ t) : since c c1 = t := by
  simp [since, h]

theorem start_self (c : Config Args W) :
    (start c).self = { stopped_ := false, subscriptions_ := c.self.subscriptions_ } := by
  cases hs : c.self.stopped_ <;>
    simp [start, Config.log, Config.set_stopped, hs]
  rw [← hs]

theorem stop_self (c : Config Args W) :
    (stop c).self = { stopped_ := true, subscriptions_ := c.self.subscriptions_ } := by
  cases hs : c.self.stopped_ <;>
    simp [stop, Config.log, Config.set_stopped, hs]
  rw [← hs]

theorem start_trace (c : Config Args W) :
    (start c).trace = c.trace ++
      (if c.self.stopped_ then
        [(c.depth, .lock_upgrade), (c.depth, .unlock_upgrade_and_lock),
         (c.depth, .set_stopped false), (c.depth, .unlock)]
       else [(c.depth, .lock_upgrade), (c.depth, .unlock_upgrade)]) := by
  cases hs : c.self.stopped_ <;>
    simp [start, Config.log, Config.set_stopped, hs]

theorem stop_trace (c : Config Args W) :
    (stop c).trace = c.trace ++
      (if c.self.stopped_ then [(c.depth, .lock_upgrade), (c.depth, .unlock_upgrade)]
       else
        [(c.depth, .lock_upgrade), (c.depth, .unlock_upgrade_and_lock),
         (c.depth, .set_stopped true), (c.depth, .unlock)]) := by
  cases hs : c.self.stopped_ <;>
    simp [stop, Config.log, Config.set_stopped, hs]

theorem calls_append (t1 t2 : List (Nat × Event Args)) :
    calls (t1 ++ t2) = calls t1 ++ calls t2 := by
  simp [calls]

theorem rets_append (t1 t2 : List (Nat × Event Args)) :
    rets (t1 ++ t2) = rets t1 ++ rets t2 := by
  simp [rets]

theorem subscribe_started
    (inv : handler → Args → Config Args W → Option (Bool × Config Args W))
    (h : handler) (x : Args) (c : Config Args W) (hs : c.self.stopped_ = false) :
    subscribe inv h x c = some
      { c with
        self := { stopped_ := false, subscriptions_ := c.self.subscriptions_ ++ [h] }
        trace := c.trace ++ [(c.depth, .lock_upgrade), (c.depth, .unlock_upgrade_and_lock),
          (c.depth, .emplace_back h), (c.depth, .unlock)] } := by
  simp [subscribe, Config.log, Config.emplace_back, hs]

end lifecycle

section plain
variable {Args W : Type}

theorem Script.isRet_elim (s : Script Args W) (h : s.isRet = true) :
    ∃ b w, s = .ret b w := by
  cases s with
  | ret b w => exact ⟨b, w, rfl⟩
  | call w c k => simp [Script.isRet] at h

theorem call_handler_ret (code : handler → Args → W → Script Args W) (n : Nat) (h : handler)
    (args : Args) (c : Config Args W) (b : Bool) (w : W)
    (hs : code h args c.world = .ret b w) :
    call_handler code (n + 1) h args c =
      some (b, { c with
        world := w
        trace := c.trace ++ [(c.depth, .call h args), (c.depth, .ret h b)] }) := by
  simp [call_handler, hs, run_script, Config.log]

theorem do_invoke_loop_plain (code : handler → Args → W → Script Args W) (n : Nat)
    (args : Args) (l : List handler)
    (hl : ∀ h ∈ l, ∀ w, (code h args w).isRet = true) (c : Config Args W) :
    ∃ c1 t, do_invoke_loop (call_handler code (n + 1)) args l c = some c1 ∧
      c1.trace = c.trace ++ t ∧
      c1.self.stopped_ = c.self.stopped_ ∧ c1.depth = c.depth ∧
      c1.dispatch_ = c.dispatch_ ∧
      calls t = l.map (fun h => (h, args)) ∧
      (rets t).map Prod.fst = l ∧
      c1.self.subscriptions_ =
        c.self.subscriptions_ ++ ((rets t).filter (fun r => r.2)).map Prod.fst ∧
      ∀ r ∈ rets t, ∃ w w1, code r.1 args w = .ret r.2 w1 := by
  induction l generalizing c with
  | nil => exact ⟨c, [], by simp [do_invoke_loop, calls, rets]⟩
  | cons h rest ih =>
    obtain ⟨b, w, hs⟩ := Script.isRet_elim _ (hl h (by simp) c.world)
    have hrest : ∀ g ∈ rest, ∀ w, (code g args w).isRet = true :=
      fun g hg w => hl g (by simp [hg]) w
    cases b with
    | true =>
      obtain ⟨c1, t, h1, h2, h3, h4, h5, h6, h7, h8, h9⟩ := ih hrest
        (Config.emplace_back (Config.log { c with
          world := w
          trace := c.trace ++ [(c.depth, .call h args), (c.depth, .ret h true)] }
          (.unique_lock .subscribe_mutex_)) h)
      refine ⟨c1, [(c.depth, .call h args), (c.depth, .ret h true),
        (c.depth, .unique_lock .subscribe_mutex_), (c.depth, .emplace_back h)] ++ t, ?_⟩
      simp only [do_invoke_loop, call_handler_ret code n h args c true w hs]
      refine ⟨h1, ?_, ?_, ?_, ?_, ?_, ?_, ?_, ?_⟩
      · simp [h2, Config.emplace_back, Config.log]
      · simpa [Config.emplace_back, Config.log] using h3
      · simpa [Config.emplace_back, Config.log] using h4
      · simpa [Config.emplace_back, Config.log] using h5
      · simp [calls, Event.as_call] at h6 ⊢
        exact h6
      · simp [rets, Event.as_ret] at h7 ⊢
        exact h7
      · simp [rets, Event.as_ret, Config.emplace_back, Config.log] at h8 ⊢
        exact h8
      · intro r hr
        rw [rets_append] at hr
        rcases List.mem_append.mp hr with hr | hr
        · simp [rets, Event.as_ret] at hr
          subst hr
          exact ⟨c.world, w, hs⟩
        · exact h9 r hr
    | false =>
      obtain ⟨c1, t, h1, h2, h3, h4, h5, h6, h7, h8, h9⟩ := ih hrest
        { c with
          world := w
          trace := c.trace ++ [(c.depth, .call h args), (c.depth, .ret h false)] }
      refine ⟨c1, [(c.depth, .call h args), (c.depth, .ret h false)] ++ t, ?_⟩
      simp only [do_invoke_loop, call_handler_ret code n h args c false w hs]
      refine ⟨h1, ?_, h3, h4, h5, ?_, ?_, ?_, ?_⟩
      · simp [h2]
      · simp [calls, Event.as_call] at h6 ⊢
        exact h6
      · simp [rets, Event.as_ret] at h7 ⊢
        exact h7
      · simp [rets, Event.as_ret] at h8 ⊢
        exact h8
      · intro r hr
        rw [rets_append] at hr
        rcases List.mem_append.mp hr with hr | hr
        · simp [rets, Event.as_ret] at hr
          subst hr
          exact ⟨c.world, w, hs⟩
        · exact h9 r hr

theorem do_invoke_plain (code : handler → Args → W → Script Args W) (n : Nat)
    (args : Args) (c : Config Args W)
    (hl : ∀ h ∈ c.self.subscriptions_, ∀ w, (code h args w).isRet = true) :
    ∃ c1 t, do_invoke (call_handler code (n + 1)) args c = some c1 ∧
      c1.trace = c.trace ++ t ∧
      c1.self.stopped_ = c.self.stopped_ ∧ c1.depth = c.depth ∧
      c1.dispatch_ = c.dispatch_ ∧
      calls t = c.self.subscriptions_.map (fun h => (h, args)) ∧
      (rets t).map Prod.fst = c.self.subscriptions_ ∧
      c1.self.subscriptions_ = ((rets t).filter (fun r => r.2)).map Prod.fst ∧
      ∀ r ∈ rets t, ∃ w w1, code r.1 args w = .ret r.2 w1 := by
  obtain ⟨c1, t, h1, h2, h3, h4, h5, h6, h7, h8, h9⟩ :=
    do_invoke_loop_plain code n args c.self.subscriptions_ hl ((c.log .lock).swap.log .unlock)
  refine ⟨c1, [(c.depth, .lock), (c.depth, .swap), (c.depth, .unlock)] ++ t,
    ?_, ?_, h3, h4, h5, ?_, ?_, ?_, ?_⟩
  · simp only [do_invoke]
    exact h1
  · simp only [Config.log, Config.swap] at h2
    simp [h2]
  · rw [calls_append, h6]
    simp [calls, Event.as_call]
  · rw [rets_append]
    simpa [rets, Event.as_ret] using h7
  · rw [rets_append, h8]
    simp [rets, Event.as_ret, Config.swap, Config.log]
  · intro r hr
    rw [rets_append] at hr
    rcases List.mem_append.mp hr with hr | hr
    · simp [rets, Event.as_ret] at hr
    · exact h9 r hr

theorem invoke_plain (code : handler → Args → W → Script Args W) (n : Nat)
    (args : Args) (c : Config Args W)
    (hl : ∀ h ∈ c.self.subscriptions_, ∀ w, (code h args w).isRet = true) :
    ∃ c1 t, invoke (call_handler code (n + 1)) args c = some c1 ∧
      c1.trace = c.trace ++ t ∧
      c1.self.stopped_ = c.self.stopped_ ∧ c1.depth = c.depth ∧
      c1.dispatch_ = c.dispatch_ ∧
      calls t = c.self.subscriptions_.map (fun h => (h, args)) ∧
      (rets t).map Prod.fst = c.self.subscriptions_ ∧
      c1.self.subscriptions_ = ((rets t).filter (fun r => r.2)).map Prod.fst ∧
      ∀ r ∈ rets t, ∃ w w1, code r.1 args w = .ret r.2 w1 := by
  obtain ⟨c1, t, h1, h2, h3, h4, h5, h6, h7, h8, h9⟩ :=
    do_invoke_plain code n args (c.log (.unique_lock .invoke_mutex_)) hl
  refine ⟨c1, [(c.depth, .unique_lock .invoke_mutex_)] ++ t, ?_, ?_, h3, h4, h5, ?_, ?_, ?_, ?_⟩
  · simp only [invoke]
    exact h1
  · simp only [Config.log] at h2
    simp [h2]
  · rw [calls_append]
    simpa [calls, Event.as_call] using h6
  · rw [rets_append]
    simpa [rets, Event.as_ret] using h7
  · rw [rets_append]
    simpa [rets, Event.as_ret] using h8
  · intro r hr
    rw [rets_append] at hr
    rcases List.mem_append.mp hr with hr | hr
    · simp [rets, Event.as_ret] at hr
    · exact h9 r hr

theorem subscribe_stopped_ret (code : handler → Args → W → Script Args W) (n : Nat)
    (h : handler) (x : Args) (c : Config Args W) (b : Bool) (w : W)
    (hs : c.self.stopped_ = true) (hret : code h x c.world = .ret b w) :
    subscribe (call_handler code (n + 1)) h x c = some
      { c with
        world := w
        trace := c.trace ++ [(c.depth, .lock_upgrade), (c.depth, .unlock_upgrade),
          (c.depth, .call h x), (c.depth, .ret h b)] } := by
  have hs1 : (c.log Event.lock_upgrade).self.stopped_ = true := hs
  have hret1 : code h x ((c.log Event.lock_upgrade).log Event.unlock_upgrade).world =
      .ret b w := hret
  simp only [subscribe, hs1, Bool.not_true, Bool.false_eq_true, if_false,
    call_handler_ret code n h x _ b w hret1]
  simp [Config.log]

theorem rets_of_const (code : handler → Args → W → Script Args W) (args : Args)
    (f : handler → Bool) (l : List handler) (rs : List (handler × Bool))
    (hmap : rs.map Prod.fst = l)
    (h9 : ∀ r ∈ rs, ∃ w w1, code r.1 args w = .ret r.2 w1)
    (hf : ∀ h ∈ l, ∀ w, ∃ w1, code h args w = .ret (f h) w1) :
    rs = l.map (fun h => (h, f h)) := by
  subst hmap
  rw [List.map_map]
  conv_lhs => rw [← List.map_id rs]
  apply List.map_congr_left
  intro r hr
  obtain ⟨w, w1, hw⟩ := h9 r hr
  obtain ⟨w2, hw2⟩ := hf r.1 (List.mem_map_of_mem Prod.fst hr) w
  rw [hw] at hw2
  injection hw2 with hb _
  simp only [id, Function.comp]
  rw [← hb]

theorem filter_const (f : handler → Bool) (l : List handler) :
    ((l.map (fun h => (h, f h))).filter (fun r => r.2)).map Prod.fst = l.filter f := by
  induction l with
  | nil => rfl
  | cons h t ih =>
    cases hf : f h <;> simp [List.filter_cons, hf] <;> simpa using ih

theorem invoke_const (code : handler → Args → W → Script Args W) (n : Nat)
    (args : Args) (f : handler → Bool) (c : Config Args W)
    (hf : ∀ h ∈ c.self.subscriptions_, ∀ w, ∃ w1, code h args w = .ret (f h) w1) :
    ∃ c1 t, invoke (call_handler code (n + 1)) args c = some c1 ∧
      c1.trace = c.trace ++ t ∧
      c1.self.stopped_ = c.self.stopped_ ∧ c1.depth = c.depth ∧
      calls t = c.self.subscriptions_.map (fun h => (h, args)) ∧
      rets t = c.self.subscriptions_.map (fun h => (h, f h)) ∧
      c1.self.subscriptions_ = c.self.subscriptions_.filter f := by
  have hl : ∀ h ∈ c.self.subscriptions_, ∀ w, (code h args w).isRet = true := by
    intro h hh w
    obtain ⟨w1, hw⟩ := hf h hh w
    rw [hw]
    rfl
  obtain ⟨c1, t, h1, h2, h3, h4, -, h6, h7, h8, h9⟩ := invoke_plain code n args c hl
  have hr := rets_of_const code args f _ _ h7 h9 hf
  refine ⟨c1, t, h1, h2, h3, h4, h6, hr, ?_⟩
  rw [h8, hr, filter_const]

theorem run_start_subscribe_two (code : handler → Args → W → Script Args W) (fuel : Nat)
    (h1 h2 : handler) (x1 x2 : Args) (w : W) (rest : List (Call Args)) :
    run code fuel (.start :: .subscribe h1 x1 :: .subscribe h2 x2 :: rest) (construct w) =
      run code fuel rest
        { self := { stopped_ := false, subscriptions_ := [h1, h2] }
          dispatch_ := []
          world := w
          depth := 0
          trace := [(0, .lock_upgrade), (0, .unlock_upgrade_and_lock),
            (0, .set_stopped false), (0, .unlock),
            (0, .lock_upgrade), (0, .unlock_upgrade_and_lock),
            (0, .emplace_back h1), (0, .unlock),
            (0, .lock_upgrade), (0, .unlock_upgrade_and_lock),
            (0, .emplace_back h2), (0, .unlock)] } := by
  have hstart : start (construct w : Config Args W) =
      { self := { stopped_ := false, subscriptions_ := [] }
        dispatch_ := []
        world := w
        depth := 0
        trace := [(0, .lock_upgrade), (0, .unlock_upgrade_and_lock),
          (0, .set_stopped false), (0, .unlock)] } := by
    simp [start, construct, Config.log, Config.set_stopped]
  simp only [run, exec, hstart]
  rw [subscribe_started _ h1 x1 _ rfl]
  simp only
  rw [subscribe_started _ h2 x2 _ rfl]
  simp

theorem exec_stopped_plain (code : handler → Args → W → Script Args W)
    (hplain : ∀ h a w, (code h a w).isRet = true) (n : Nat)
    (c : Config Args W) (cl : Call Args) (hs : c.self.stopped_ = true) (hcl : cl ≠ .start) :
    ∃ c1, exec (call_handler code (n + 1)) cl c = some c1 ∧
      c1.self.stopped_ = true ∧
      c1.self.subscriptions_.Sublist c.self.subscriptions_ := by
  cases cl with
  | start => exact absurd rfl hcl
  | stop =>
    refine ⟨stop c, rfl, by rw [stop_self], ?_⟩
    rw [stop_self]
  | subscribe h x =>
    obtain ⟨b, w, hret⟩ := Script.isRet_elim _ (hplain h x c.world)
    exact ⟨_, subscribe_stopped_ret code n h x c b w hs hret, hs, List.Sublist.refl _⟩
  | invoke a =>
    obtain ⟨c1, t, h1, -, h3, -, -, -, h7, h8, -⟩ :=
      invoke_plain code n a c (fun h _ w => hplain h a w)
    refine ⟨c1, h1, h3.trans hs, ?_⟩
    rw [h8]
    conv_rhs => rw [← h7]
    exact (List.filter_sublist _).map _
  | relay a => exact ⟨relay a c, rfl, hs, List.Sublist.refl _⟩

theorem run_without_start (code : handler → Args → W → Script Args W)
    (hplain : ∀ h a w, (code h a w).isRet = true) (n : Nat) (ops : List (Call Args)) :
    ∀ c : Config Args W, Call.start ∉ ops → c.self.stopped_ = true →
      c.self.subscriptions_ = [] →
      ∃ c1, run code (n + 1) ops c = some c1 ∧ c1.self.stopped_ = true ∧
        c1.self.subscriptions_ = [] := by
  induction ops with
  | nil => exact fun c _ hs hl => ⟨c, rfl, hs, hl⟩
  | cons cl rest ih =>
    intro c hno hs hl
    have hcl : cl ≠ .start := fun h => hno (by simp [h])
    obtain ⟨c1, h1, h2, h3⟩ := exec_stopped_plain code hplain n c cl hs hcl
    rw [hl] at h3
    obtain ⟨c2, g1, g2, g3⟩ := ih c1 (fun h => hno (by simp [h])) h2 (List.sublist_nil.mp h3)
    exact ⟨c2, by simp only [run, h1]; exact g1, g2, g3⟩

theorem do_invoke_loop_with_stopped (code : handler → Args → W → Script Args W) (n : Nat)
    (args : Args) (f : Bool) (l : List handler)
    (hl : ∀ h ∈ l, ∀ w, (code h args w).isRet = true) (c : Config Args W) :
    do_invoke_loop (call_handler code (n + 1)) args l (c.with_stopped f) =
      (do_invoke_loop (call_handler code (n + 1)) args l c).map
        (fun c1 => c1.with_stopped f) := by
  induction l generalizing c with
  | nil => rfl
  | cons h rest ih =>
    obtain ⟨b, w, hs⟩ := Script.isRet_elim _ (hl h (by simp) c.world)
    have hrest : ∀ g ∈ rest, ∀ w, (code g args w).isRet = true :=
      fun g hg w => hl g (by simp [hg]) w
    have hs1 : code h args (c.with_stopped f).world = .ret b w := hs
    cases b with
    | true =>
      simp only [do_invoke_loop, call_handler_ret code n h args c true w hs,
        call_handler_ret code n h args (c.with_stopped f) true w hs1]
      exact ih hrest
        (Config.emplace_back (Config.log { c with
          world := w
          trace := c.trace ++ [(c.depth, .call h args), (c.depth, .ret h true)] }
          (.unique_lock .subscribe_mutex_)) h)
    | false =>
      simp only [do_invoke_loop, call_handler_ret code n h args c false w hs,
        call_handler_ret code n h args (c.with_stopped f) false w hs1]
      exact ih hrest
        { c with
          world := w
          trace := c.trace ++ [(c.depth, .call h args), (c.depth, .ret h false)] }

theorem invoke_with_stopped (code : handler → Args → W → Script Args W) (n : Nat)
    (args : Args) (f : Bool) (c : Config Args W)
    (hl : ∀ h ∈ c.self.subscriptions_, ∀ w, (code h args w).isRet = true) :
    invoke (call_handler code (n + 1)) args (c.with_stopped f) =
      (invoke (call_handler code (n + 1)) args c).map (fun c1 => c1.with_stopped f) := by
  simp only [invoke, do_invoke]
  exact do_invoke_loop_with_stopped code n args f c.self.subscriptions_ hl
    (((c.log (.unique_lock .invoke_mutex_)).log .lock).swap.log .unlock)

end plain

section nesting
variable {Args W : Type}

theorem Extends.refl (d : Nat) (c : Config Args W) : Extends d c c :=
  ⟨rfl, [], by simp, by simp⟩

theorem Extends.trans {d : Nat} {c c1 c2 : Config Args W}
    (h1 : Extends d c c1) (h2 : Extends d c1 c2) : Extends d c c2 := by
  obtain ⟨hd1, t1, ht1, hb1⟩ := h1
  obtain ⟨hd2, t2, ht2, hb2⟩ := h2
  refine ⟨hd2.trans hd1, t1 ++ t2, by simp [ht2, ht1], ?_⟩
  intro e he
  rcases List.mem_append.mp he with h | h
  · exact hb1 e h
  · exact hb2 e h

theorem Extends.log (c : Config Args W) (e : Event Args) : Extends c.depth c (c.log e) :=
  ⟨rfl, [(c.depth, e)], rfl, by simp⟩

theorem Extends.of_bracketed {inv : handler → Args → Config Args W → Option (Bool × Config Args W)}
    (hinv : Bracketed inv) {h : handler} {a : Args} {c c1 : Config Args W} {b : Bool}
    (hr : inv h a c = some (b, c1)) : Extends c.depth c c1 := by
  obtain ⟨hd, t, ht, hb⟩ := hinv h a c b c1 hr
  refine ⟨hd, (c.depth, Event.call h a) :: (t ++ [(c.depth, Event.ret h b)]), ht, ?_⟩
  intro e he
  simp only [List.mem_cons, List.mem_append, List.mem_singleton,
    List.not_mem_nil, or_false] at he
  rcases he with rfl | he | rfl
  · exact Nat.le_refl _
  · exact Nat.le_of_succ_le (hb e he)
  · exact Nat.le_refl _

theorem Extends.emplace_back (c : Config Args W) (h : handler) :
    Extends c.depth c (c.emplace_back h) :=
  ⟨rfl, [(c.depth, .emplace_back h)], rfl, by simp⟩

theorem Extends.swap (c : Config Args W) : Extends c.depth c c.swap :=
  ⟨rfl, [(c.depth, .swap)], rfl, by simp⟩

theorem start_extends (c : Config Args W) : Extends c.depth c (start c) := by
  refine ⟨?_, _, start_trace c, ?_⟩
  · cases hs : c.self.stopped_ <;> simp [start, Config.log, Config.set_stopped, hs]
  · cases hs : c.self.stopped_ <;> simp

theorem stop_extends (c : Config Args W) : Extends c.depth c (stop c) := by
  refine ⟨?_, _, stop_trace c, ?_⟩
  · cases hs : c.self.stopped_ <;> simp [stop, Config.log, Config.set_stopped, hs]
  · cases hs : c.self.stopped_ <;> simp

theorem relay_extends (a : Args) (c : Config Args W) : Extends c.depth c (relay a c) :=
  ⟨rfl, [(c.depth, .ordered a)], rfl, by simp⟩

theorem do_invoke_loop_extends
    {inv : handler → Args → Config Args W → Option (Bool × Config Args W)}
    (hinv : Bracketed inv) (args : Args) (l : List handler) :
    ∀ c c1 : Config Args W, do_invoke_loop inv args l c = some c1 → Extends c.depth c c1 := by
  induction l with
  | nil =>
    intro c c1 h
    simp only [do_invoke_loop, Option.some.injEq] at h
    subst h
    exact Extends.refl _ _
  | cons h rest ih =>
    intro c c1 hr
    simp only [do_invoke_loop] at hr
    cases hi : inv h args c with
    | none => simp [hi] at hr
    | some r =>
      obtain ⟨b, c2⟩ := r
      have e1 : Extends c.depth c c2 := Extends.of_bracketed hinv hi
      have hd : c2.depth = c.depth := e1.1
      cases b with
      | true =>
        simp only [hi] at hr
        have e2 : Extends c2.depth c2 (c2.log (.unique_lock .subscribe_mutex_)) :=
          Extends.log _ _
        have e3 : Extends c2.depth (c2.log (.unique_lock .subscribe_mutex_))
            ((c2.log (.unique_lock .subscribe_mutex_)).emplace_back h) :=
          Extends.emplace_back _ _
        have e4 : Extends c2.depth ((c2.log (.unique_lock .subscribe_mutex_)).emplace_back h) c1 :=
          ih _ _ hr
        rw [hd] at e2 e3 e4
        exact e1.trans (e2.trans (e3.trans e4))
      | false =>
        simp only [hi] at hr
        have e4 : Extends c2.depth c2 c1 := ih _ _ hr
        rw [hd] at e4
        exact e1.trans e4

theorem do_invoke_extends
    {inv : handler → Args → Config Args W → Option (Bool × Config Args W)}
    (hinv : Bracketed inv) (args : Args) (c c1 : Config Args W)
    (hr : do_invoke inv args c = some c1) : Extends c.depth c c1 := by
  have e1 : Extends c.depth c (c.log .lock) := Extends.log _ _
  have e2 : Extends c.depth (c.log .lock) (c.log .lock).swap := Extends.swap _
  have e3 : Extends c.depth (c.log .lock).swap ((c.log .lock).swap.log .unlock) :=
    Extends.log _ _
  have e4 : Extends c.depth ((c.log .lock).swap.log .unlock) c1 :=
    do_invoke_loop_extends hinv args _ _ _ hr
  exact e1.trans (e2.trans (e3.trans e4))

theorem exec_extends
    {inv : handler → Args → Config Args W → Option (Bool × Config Args W)}
    (hinv : Bracketed inv) (cl : Call Args) (c c1 : Config Args W)
    (hr : exec inv cl c = some c1) : Extends c.depth c c1 := by
  cases cl with
  | start =>
    simp only [exec, Option.some.injEq] at hr
    subst hr
    exact start_extends c
  | stop =>
    simp only [exec, Option.some.injEq] at hr
    subst hr
    exact stop_extends c
  | subscribe h x =>
    simp only [exec, subscribe] at hr
    have e1 : Extends c.depth c (c.log .lock_upgrade) := Extends.log _ _
    cases hs : c.self.stopped_ with
    | false =>
      have hs1 : (c.log Event.lock_upgrade).self.stopped_ = false := hs
      simp only [hs1, Bool.not_false, if_true, Option.some.injEq] at hr
      subst hr
      have e2 : Extends c.depth (c.log .lock_upgrade)
          ((c.log .lock_upgrade).log .unlock_upgrade_and_lock) := Extends.log _ _
      have e3 : Extends c.depth ((c.log .lock_upgrade).log .unlock_upgrade_and_lock)
          (((c.log .lock_upgrade).log .unlock_upgrade_and_lock).emplace_back h) :=
        Extends.emplace_back _ _
      have e4 : Extends c.depth
          (((c.log .lock_upgrade).log .unlock_upgrade_and_lock).emplace_back h)
          ((((c.log .lock_upgrade).log .unlock_upgrade_and_lock).emplace_back h).log .unlock) :=
        Extends.log _ _
      exact e1.trans (e2.trans (e3.trans e4))
    | true =>
      have hs1 : (c.log Event.lock_upgrade).self.stopped_ = true := hs
      simp only [hs1, Bool.not_true, Bool.false_eq_true, if_false] at hr
      have e2 : Extends c.depth (c.log .lock_upgrade)
          ((c.log .lock_upgrade).log .unlock_upgrade) := Extends.log _ _
      cases hi : inv h x ((c.log .lock_upgrade).log .unlock_upgrade) with
      | none => simp [hi] at hr
      | some r =>
        obtain ⟨b, c2⟩ := r
        simp only [hi, Option.some.injEq] at hr
        subst hr
        have e3 : Extends c.depth ((c.log .lock_upgrade).log .unlock_upgrade) c2 :=
          Extends.of_bracketed hinv hi
        exact e1.trans (e2.trans e3)
  | invoke a =>
    simp only [exec, invoke] at hr
    have e1 : Extends c.depth c (c.log (.unique_lock .invoke_mutex_)) := Extends.log _ _
    have e2 : Extends c.depth (c.log (.unique_lock .invoke_mutex_)) c1 :=
      do_invoke_extends hinv a _ _ hr
    exact e1.trans e2
  | relay a =>
    simp only [exec, Option.some.injEq] at hr
    subst hr
    exact relay_extends a c

theorem run_script_extends
    {call : Call Args → Config Args W → Option (Config Args W)}
    (hcall : ∀ cl c c1, call cl c = some c1 → Extends c.depth c c1)
    (s : Script Args W) :
    ∀ (c : Config Args W) (b : Bool) (c1 : Config Args W),
      run_script call s c = some (b, c1) → Extends c.depth c c1 := by
  induction s with
  | ret b w =>
    intro c b1 c1 h
    simp only [run_script, Option.some.injEq, Prod.mk.injEq] at h
    obtain ⟨-, rfl⟩ := h
    exact ⟨rfl, [], by simp, by simp⟩
  | call w cl k ih =>
    intro c b c1 h
    simp only [run_script] at h
    cases hc : call cl { c with world := w } with
    | none => simp [hc] at h
    | some c2 =>
      simp only [hc] at h
      have e1 : Extends c.depth c c2 := hcall cl { c with world := w } c2 hc
      have e2 : Extends c2.depth c2 c1 := ih c2.world c2 b c1 h
      rw [e1.1] at e2
      exact e1.trans e2

theorem call_handler_bracketed (code : handler → Args → W → Script Args W) :
    ∀ fuel, Bracketed (call_handler code fuel)
  | 0 => by
    intro h a c b c1 hr
    simp [call_handler] at hr
  | fuel + 1 => by
    intro h a c b c1 hr
    simp only [call_handler] at hr
    cases hrun : run_script (exec (call_handler code fuel)) (code h a c.world)
        { c.log (.call h a) with depth := c.depth + 1 } with
    | none => simp [hrun] at hr
    | some r =>
      obtain ⟨b2, c2⟩ := r
      simp only [hrun, Option.some.injEq, Prod.mk.injEq] at hr
      obtain ⟨rfl, rfl⟩ := hr
      have e : Extends (c.depth + 1) { c.log (.call h a) with depth := c.depth + 1 } c2 :=
        run_script_extends (exec_extends (call_handler_bracketed code fuel)) _ _ _ _ hrun
      obtain ⟨-, t, ht, hb⟩ := e
      refine ⟨rfl, t, ?_, hb⟩
      simp only [Config.log] at ht ⊢
      simp [ht]

theorem own_deeper (d : Nat) (t : List (Nat × Event Args)) (hb : ∀ e ∈ t, d + 1 ≤ e.1) :
    own d t = [] := by
  simp only [own, List.filter_eq_nil_iff]
  intro e he
  have := hb e he
  simp only [beq_iff_eq]
  omega

theorem own_append (d : Nat) (t1 t2 : List (Nat × Event Args)) :
    own d (t1 ++ t2) = own d t1 ++ own d t2 := by
  simp [own]

theorem do_invoke_loop_own
    {inv : handler → Args → Config Args W → Option (Bool × Config Args W)}
    (hinv : Bracketed inv) (args : Args) (l : List handler) :
    ∀ c c1 : Config Args W, do_invoke_loop inv args l c = some c1 →
      ∃ t, c1.trace = c.trace ++ t ∧
        calls (own c.depth t) = l.map (fun h => (h, args)) ∧
        (rets (own c.depth t)).map Prod.fst = l := by
  induction l with
  | nil =>
    intro c c1 h
    simp only [do_invoke_loop, Option.some.injEq] at h
    subst h
    exact ⟨[], by simp, by simp [own, calls], by simp [own, rets]⟩
  | cons h rest ih =>
    intro c c1 hr
    simp only [do_invoke_loop] at hr
    cases hi : inv h args c with
    | none => simp [hi] at hr
    | some r =>
      obtain ⟨b, c2⟩ := r
      obtain ⟨hd, t, ht, hb⟩ := hinv h args c b c2 hi
      have hown : own c.depth t = [] := own_deeper _ _ hb
      cases b with
      | true =>
        simp only [hi] at hr
        obtain ⟨t2, ht2, hc2, hr2⟩ := ih _ _ hr
        have hd2 : ((c2.log (.unique_lock .subscribe_mutex_)).emplace_back h).depth = c.depth := hd
        rw [hd2] at hc2 hr2
        refine ⟨(c.depth, Event.call h args) :: (t ++ [(c.depth, Event.ret h true)]) ++
          ([(c.depth, .unique_lock .subscribe_mutex_), (c.depth, .emplace_back h)] ++ t2), ?_, ?_, ?_⟩
        · simp [ht2, ht, hd, Config.emplace_back, Config.log]
        · rw [own_append, calls_append, own_append, calls_append, hc2]
          rw [show (c.depth, Event.call h args) :: (t ++ [(c.depth, Event.ret h true)]) =
            [(c.depth, Event.call h args)] ++ (t ++ [(c.depth, Event.ret h true)]) from rfl]
          rw [own_append, own_append, hown]
          simp [own, calls, Event.as_call]
        · rw [own_append, rets_append, own_append, rets_append]
          rw [show (c.depth, Event.call h args) :: (t ++ [(c.depth, Event.ret h true)]) =
            [(c.depth, Event.call h args)] ++ (t ++ [(c.depth, Event.ret h true)]) from rfl]
          rw [own_append, own_append, hown]
          simp [own, rets, Event.as_ret] at hr2 ⊢
          exact hr2
      | false =>
        simp only [hi] at hr
        obtain ⟨t2, ht2, hc2, hr2⟩ := ih _ _ hr
        rw [hd] at hc2 hr2
        refine ⟨(c.depth, Event.call h args) :: (t ++ [(c.depth, Event.ret h false)]) ++ t2,
          ?_, ?_, ?_⟩
        · simp [ht2, ht]
        · rw [own_append, calls_append, hc2]
          rw [show (c.depth, Event.call h args) :: (t ++ [(c.depth, Event.ret h false)]) =
            [(c.depth, Event.call h args)] ++ (t ++ [(c.depth, Event.ret h false)]) from rfl]
          rw [own_append, own_append, hown]
          simp [own, calls, Event.as_call]
        · rw [own_append, rets_append]
          rw [show (c.depth, Event.call h args) :: (t ++ [(c.depth, Event.ret h false)]) =
            [(c.depth, Event.call h args)] ++ (t ++ [(c.depth, Event.ret h false)]) from rfl]
          rw [own_append, own_append, hown]
          simp [own, rets, Event.as_ret] at hr2 ⊢
          exact hr2

theorem invoke_own
    {inv : handler → Args → Config Args W → Option (Bool × Config Args W)}
    (hinv : Bracketed inv) (args : Args) (c c1 : Config Args W)
    (hr : invoke inv args c = some c1) :
    ∃ t, c1.trace = c.trace ++ t ∧
      calls (own c.depth t) = c.self.subscriptions_.map (fun h => (h, args)) ∧
      (rets (own c.depth t)).map Prod.fst = c.self.subscriptions_ := by
  simp only [invoke, do_invoke] at hr
  obtain ⟨t, ht, hc, hrt⟩ := do_invoke_loop_own hinv args _ _ _ hr
  refine ⟨[(c.depth, .unique_lock .invoke_mutex_), (c.depth, .lock), (c.depth, .swap),
    (c.depth, .unlock)] ++ t, ?_, ?_, ?_⟩
  · simp only [Config.log, Config.swap] at ht
    simp [ht]
  · rw [own_append, calls_append]
    simpa [own, calls, Event.as_call, Config.log, Config.swap] using hc
  · rw [own_append, rets_append]
    simpa [own, rets, Event.as_ret, Config.log, Config.swap] using hrt

theorem subscribe_stopped_own (code : handler → Args → W → Script Args W) (h : handler)
    (x : Args) (c : Config Args W) (hs : c.self.stopped_ = true) (fuel : Nat)
    (c1 : Config Args W) (hr : subscribe (call_handler code fuel) h x c = some c1) :
    ∃ b, own c.depth (since c c1) =
      [(c.depth, .lock_upgrade), (c.depth, .unlock_upgrade),
       (c.depth, .call h x), (c.depth, .ret h b)] := by
  have hs1 : (c.log Event.lock_upgrade).self.stopped_ = true := hs
  simp only [subscribe, hs1, Bool.not_true, Bool.false_eq_true, if_false] at hr
  cases hi : call_handler code fuel h x ((c.log .lock_upgrade).log .unlock_upgrade) with
  | none => simp [hi] at hr
  | some r =>
    obtain ⟨b, c2⟩ := r
    simp only [hi, Option.some.injEq] at hr
    subst hr
    obtain ⟨-, t, ht, hb⟩ := call_handler_bracketed code fuel h x _ b c2 hi
    have hd : ((c.log Event.lock_upgrade).log Event.unlock_upgrade).depth = c.depth := rfl
    rw [hd] at ht hb
    have hown : own c.depth t = [] := own_deeper _ _ hb
    have htr : c2.trace = c.trace ++ ([(c.depth, Event.lock_upgrade),
        (c.depth, Event.unlock_upgrade), (c.depth, Event.call h x)] ++
        (t ++ [(c.depth, Event.ret h b)])) := by
      simp only [Config.log] at ht
      simp [ht]
    refine ⟨b, ?_⟩
    rw [since_eq c c2 _ htr, own_append, own_append, hown]
    simp [own]

end nesting

section reentrant_subscribe
variable {Args W : Type}

theorem registered_append (t1 t2 : List (Nat × Event Args)) :
    registered (t1 ++ t2) = registered t1 ++ registered t2 := by
  simp [registered]

theorem replay_append (guarded : Bool) (s s1 : Held) (t1 t2 : List (Nat × Event Args))
    (h1 : replay guarded s t1 = some s1) :
    replay guarded s (t1 ++ t2) = replay guarded s1 t2 := by
  induction t1 generalizing s with
  | nil =>
    simp only [replay, Option.some.injEq] at h1
    simp [h1]
  | cons e t ih =>
    simp only [replay, List.cons_append] at h1 ⊢
    cases hs : s.step guarded e.2 with
    | none => simp [hs] at h1
    | some s2 =>
      simp only [hs] at h1 ⊢
      exact ih s2 h1

theorem mem_registered (t : List (Nat × Event Args)) (d : Nat) (h : handler)
    (hm : (d, Event.emplace_back h) ∈ t) : h ∈ registered t := by
  simp only [registered, List.mem_filterMap]
  exact ⟨(d, Event.emplace_back h), hm, rfl⟩

theorem exec_registers
    (inv : handler → Args → Config Args W → Option (Bool × Config Args W))
    (cl : Call Args) (hcl : cl.is_invoke = false ∧ cl.is_stop = false)
    (c : Config Args W) (hc : c.self.stopped_ = false) :
    ∃ c1 t, exec inv cl c = some c1 ∧
      c1.trace = c.trace ++ t ∧ c1.depth = c.depth ∧ c1.self.stopped_ = false ∧
      c1.world = c.world ∧
      c1.self.subscriptions_ = c.self.subscriptions_ ++ registered t ∧
      calls t = [] ∧ rets t = [] ∧ ∀ guarded, replay guarded .free t = some .free := by
  cases cl with
  | start =>
    refine ⟨start c, [(c.depth, .lock_upgrade), (c.depth, .unlock_upgrade)], rfl, ?_, ?_, ?_,
      ?_, ?_, ?_, ?_, ?_⟩
    · simp [start, Config.log, hc]
    · simp [start, Config.log, hc]
    · simp [start, Config.log, hc]
    · simp [start, Config.log, hc]
    · simp [start, Config.log, hc, registered, Event.as_emplace_back]
    · simp [calls, Event.as_call]
    · simp [rets, Event.as_ret]
    · intro g
      simp [replay, Held.step]
  | stop => simp [Call.is_stop] at hcl
  | subscribe h x =>
    refine ⟨_, [(c.depth, .lock_upgrade), (c.depth, .unlock_upgrade_and_lock),
      (c.depth, .emplace_back h), (c.depth, .unlock)], subscribe_started inv h x c hc,
      rfl, rfl, rfl, rfl, ?_, ?_, ?_, ?_⟩
    · simp [registered, Event.as_emplace_back]
    · simp [calls, Event.as_call]
    · simp [rets, Event.as_ret]
    · intro g
      simp [replay, Held.step]
  | invoke a => simp [Call.is_invoke] at hcl
  | relay a =>
    refine ⟨relay a c, [(c.depth, .ordered a)], rfl, rfl, rfl, hc, rfl, ?_, ?_, ?_, ?_⟩
    · simp [relay, Config.log, registered, Event.as_emplace_back]
    · simp [calls, Event.as_call]
    · simp [rets, Event.as_ret]
    · intro g
      simp [replay, Held.step]

theorem run_script_registers
    (inv : handler → Args → Config Args W → Option (Bool × Config Args W))
    (s : Script Args W)
    (hs : s.Calls (fun cl => cl.is_invoke = false ∧ cl.is_stop = false)) :
    ∀ c : Config Args W, c.self.stopped_ = false →
      ∃ b c1 t, run_script (exec inv) s c = some (b, c1) ∧
        c1.trace = c.trace ++ t ∧ c1.depth = c.depth ∧ c1.self.stopped_ = false ∧
        c1.self.subscriptions_ = c.self.subscriptions_ ++ registered t ∧
        calls t = [] ∧ rets t = [] ∧ ∀ guarded, replay guarded .free t = some .free := by
  induction hs with
  | ret b w =>
    intro c hc
    exact ⟨b, { c with world := w }, [], by simp [run_script], by simp, rfl, hc,
      by simp [registered], by simp [calls], by simp [rets], fun _ => rfl⟩
  | call w cl k hcl hk ih =>
    intro c hc
    obtain ⟨c2, t2, g1, g2, g3, g4, -, g5, g6, g7, g8⟩ :=
      exec_registers inv cl hcl { c with world := w } hc
    obtain ⟨b, c1, t, h1, h2, h3, h4, h5, h6, h7, h8⟩ := ih c2.world c2 g4
    refine ⟨b, c1, t2 ++ t, ?_, ?_, h3.trans g3, h4, ?_, ?_, ?_, ?_⟩
    · simp only [run_script, g1]
      exact h1
    · rw [h2, g2, List.append_assoc]
    · rw [h5, g5, registered_append, List.append_assoc]
    · rw [calls_append, g6, h6]
      rfl
    · rw [rets_append, g7, h7]
      rfl
    · intro g
      rw [replay_append g .free .free _ _ (g8 g)]
      exact h8 g

theorem call_handler_registers (code : handler → Args → W → Script Args W)
    (hcode : ∀ h a w, (code h a w).Calls
      (fun cl => cl.is_invoke = false ∧ cl.is_stop = false)) (n : Nat) (h : handler) (a : Args)
    (c : Config Args W) (hc : c.self.stopped_ = false) :
    ∃ b c1 t, call_handler code (n + 1) h a c = some (b, c1) ∧
      c1.trace = c.trace ++ t ∧ c1.depth = c.depth ∧ c1.self.stopped_ = false ∧
      c1.self.subscriptions_ = c.self.subscriptions_ ++ registered t ∧
      calls t = [(h, a)] ∧ rets t = [(h, b)] ∧ ∀ guarded, replay guarded .free t = some .free := by
  obtain ⟨b, c1, t, h1, h2, -, h4, h5, h6, h7, h8⟩ :=
    run_script_registers (call_handler code n) (code h a c.world) (hcode h a c.world)
      { c.log (.call h a) with depth := c.depth + 1 } hc
  refine ⟨b, Config.log { c1 with depth := c.depth } (.ret h b),
    [(c.depth, .call h a)] ++ t ++ [(c.depth, .ret h b)], ?_, ?_, rfl, h4, ?_, ?_, ?_, ?_⟩
  · simp only [call_handler, h1]
  · simp only [Config.log] at h2 ⊢
    simp [h2]
  · rw [registered_append, registered_append]
    simpa [registered, Event.as_emplace_back, Config.log] using h5
  · rw [calls_append, calls_append, h6]
    simp [calls, Event.as_call]
  · rw [rets_append, rets_append, h7]
    simp [rets, Event.as_ret]
  · intro g
    rw [List.append_assoc, replay_append g .free .free _ _ (by simp [replay, Held.step]),
      replay_append g .free .free _ _ (h8 g)]
    simp [replay, Held.step]

theorem do_invoke_loop_registers (code : handler → Args → W → Script Args W)
    (hcode : ∀ h a w, (code h a w).Calls
      (fun cl => cl.is_invoke = false ∧ cl.is_stop = false)) (n : Nat) (a : Args)
    (l : List handler) :
    ∀ c : Config Args W, c.self.stopped_ = false →
      ∃ c1 t, do_invoke_loop (call_handler code (n + 1)) a l c = some c1 ∧
        c1.trace = c.trace ++ t ∧ c1.depth = c.depth ∧ c1.self.stopped_ = false ∧
        c1.self.subscriptions_ = c.self.subscriptions_ ++ registered t ∧
        calls t = l.map (fun h => (h, a)) ∧ ∀ guarded, replay guarded .free t = some .free := by
  induction l with
  | nil =>
    intro c hc
    exact ⟨c, [], rfl, by simp, rfl, hc, by simp [registered], by simp [calls], fun _ => rfl⟩
  | cons h rest ih =>
    intro c hc
    obtain ⟨b, c1, t, h1, h2, h3, h4, h5, h6, -, h8⟩ :=
      call_handler_registers code hcode n h a c hc
    cases b with
    | true =>
      obtain ⟨c2, t2, g1, g2, g3, g4, g5, g6, g8⟩ :=
        ih ((c1.log (.unique_lock .subscribe_mutex_)).emplace_back h) h4
      refine ⟨c2, t ++ ([(c.depth, .unique_lock .subscribe_mutex_), (c.depth, .emplace_back h)]
        ++ t2), ?_, ?_, g3.trans h3, g4, ?_, ?_, ?_⟩
      · simp only [do_invoke_loop, h1]
        exact g1
      · simp [g2, h2, h3, Config.emplace_back, Config.log]
      · rw [g5, registered_append, registered_append]
        simp [Config.emplace_back, Config.log, h5, registered, Event.as_emplace_back]
      · rw [calls_append, calls_append, h6, g6]
        simp [calls, Event.as_call]
      · intro g
        rw [replay_append g .free .free _ _ (h8 g),
          replay_append g .free .free _ _ (by simp [replay, Held.step])]
        exact g8 g
    | false =>
      obtain ⟨c2, t2, g1, g2, g3, g4, g5, g6, g8⟩ := ih c1 h4
      refine ⟨c2, t ++ t2, ?_, ?_, g3.trans h3, g4, ?_, ?_, ?_⟩
      · simp only [do_invoke_loop, h1]
        exact g1
      · simp [g2, h2]
      · rw [g5, registered_append, h5]
        simp
      · rw [calls_append, h6, g6]
        simp
      · intro g
        rw [replay_append g .free .free _ _ (h8 g)]
        exact g8 g

theorem invoke_registers (code : handler → Args → W → Script Args W)
    (hcode : ∀ h a w, (code h a w).Calls
      (fun cl => cl.is_invoke = false ∧ cl.is_stop = false)) (n : Nat) (a : Args)
    (c : Config Args W) (hc : c.self.stopped_ = false) :
    ∃ c1 t, invoke (call_handler code (n + 1)) a c = some c1 ∧
      c1.trace = c.trace ++ t ∧ c1.depth = c.depth ∧ c1.self.stopped_ = false ∧
      c1.self.subscriptions_ = registered t ∧
      calls t = c.self.subscriptions_.map (fun h => (h, a)) ∧
      ∀ guarded, replay guarded .free t = some .free := by
  obtain ⟨c1, t, h1, h2, h3, h4, h5, h6, h8⟩ :=
    do_invoke_loop_registers code hcode n a c.self.subscriptions_
      (((c.log (.unique_lock .invoke_mutex_)).log .lock).swap.log .unlock) hc
  refine ⟨c1, [(c.depth, .unique_lock .invoke_mutex_), (c.depth, .lock), (c.depth, .swap),
    (c.depth, .unlock)] ++ t, ?_, ?_, h3, h4, ?_, ?_, ?_⟩
  · simp only [invoke, do_invoke]
    exact h1
  · simp only [Config.log, Config.swap] at h2
    simp [h2]
  · rw [registered_append, h5]
    simp [Config.swap, Config.log, registered, Event.as_emplace_back]
  · rw [calls_append, h6]
    simp [calls, Event.as_call]
  · intro g
    rw [replay_append g .free .free _ _ (by simp [replay, Held.step])]
    exact h8 g

end reentrant_subscribe

section unheld
variable {Args W : Type}

theorem held_at_calls_append (guarded : Bool) (s s1 : Held) (t1 t2 : List (Nat × Event Args))
    (h1 : replay guarded s t1 = some s1) :
    held_at_calls guarded s (t1 ++ t2) =
      held_at_calls guarded s t1 ++ held_at_calls guarded s1 t2 := by
  induction t1 generalizing s with
  | nil =>
    simp only [replay, Option.some.injEq] at h1
    simp [h1, held_at_calls]
  | cons e t ih =>
    simp only [replay] at h1
    rw [List.cons_append]
    simp only [held_at_calls]
    cases hs : s.step guarded e.2 with
    | none => simp [hs] at h1
    | some s2 =>
      simp only [hs] at h1 ⊢
      rw [ih s2 h1, List.append_assoc]

theorem held_at_calls_length (guarded : Bool) (s s1 : Held) (t : List (Nat × Event Args))
    (h1 : replay guarded s t = some s1) :
    (held_at_calls guarded s t).length = (calls t).length := by
  induction t generalizing s with
  | nil => simp [held_at_calls, calls]
  | cons e t ih =>
    simp only [replay] at h1
    simp only [held_at_calls]
    cases hs : s.step guarded e.2 with
    | none => simp [hs] at h1
    | some s2 =>
      simp only [hs] at h1 ⊢
      rw [List.length_append, ih s2 h1]
      cases hc : e.2.as_call <;> simp [calls, List.filterMap_cons, hc]
      omega

theorem Unheld.nil (guarded : Bool) : Unheld guarded ([] : List (Nat × Event Args)) :=
  ⟨rfl, by simp [held_at_calls]⟩

theorem Unheld.append {guarded : Bool} {t1 t2 : List (Nat × Event Args)}
    (h1 : Unheld guarded t1) (h2 : Unheld guarded t2) : Unheld guarded (t1 ++ t2) := by
  refine ⟨?_, ?_⟩
  · rw [replay_append guarded .free .free _ _ h1.1]
    exact h2.1
  · intro s hs
    rw [held_at_calls_append guarded .free .free _ _ h1.1] at hs
    rcases List.mem_append.mp hs with h | h
    · exact h1.2 s h
    · exact h2.2 s h

theorem Unheld.bracket {guarded : Bool} {t : List (Nat × Event Args)} (d : Nat) (h : handler)
    (a : Args) (b : Bool) (ht : Unheld guarded t) :
    Unheld guarded ((d, Event.call h a) :: (t ++ [(d, Event.ret h b)])) := by
  have h1 : Unheld guarded [(d, Event.call h a)] := by
    refine ⟨by simp [replay, Held.step], ?_⟩
    simp [held_at_calls, Held.step, Event.as_call]
  have h2 : Unheld guarded [(d, (Event.ret h b : Event Args))] := by
    refine ⟨by simp [replay, Held.step], ?_⟩
    simp [held_at_calls, Held.step, Event.as_call]
  exact h1.append (ht.append h2)

theorem Calm.nothing (c : Config Args W) : Calm c c :=
  ⟨[], by simp, fun g => Unheld.nil g⟩

theorem Calm.followed {c c1 c2 : Config Args W} (h1 : Calm c c1) (h2 : Calm c1 c2) :
    Calm c c2 := by
  obtain ⟨t1, e1, u1⟩ := h1
  obtain ⟨t2, e2, u2⟩ := h2
  exact ⟨t1 ++ t2, by simp [e2, e1], fun g => (u1 g).append (u2 g)⟩

theorem start_calm (c : Config Args W) : Calm c (start c) := by
  refine ⟨_, start_trace c, ?_⟩
  intro g
  cases hs : c.self.stopped_ <;>
    simp [Unheld, replay, Held.step, held_at_calls, Event.as_call]

theorem stop_calm (c : Config Args W) : Calm c (stop c) := by
  refine ⟨_, stop_trace c, ?_⟩
  intro g
  cases hs : c.self.stopped_ <;>
    simp [Unheld, replay, Held.step, held_at_calls, Event.as_call]

theorem relay_calm (a : Args) (c : Config Args W) : Calm c (relay a c) :=
  ⟨[(c.depth, .ordered a)], rfl, fun g => by
    simp [Unheld, replay, Held.step, held_at_calls, Event.as_call]⟩

theorem do_invoke_loop_calm
    {inv : handler → Args → Config Args W → Option (Bool × Config Args W)}
    (hinv : UnheldCalls inv) (args : Args) (l : List handler) :
    ∀ c c1 : Config Args W, do_invoke_loop inv args l c = some c1 → Calm c c1 := by
  induction l with
  | nil =>
    intro c c1 h
    simp only [do_invoke_loop, Option.some.injEq] at h
    subst h
    exact Calm.nothing _
  | cons h rest ih =>
    intro c c1 hr
    simp only [do_invoke_loop] at hr
    cases hi : inv h args c with
    | none => simp [hi] at hr
    | some r =>
      obtain ⟨b, c2⟩ := r
      have e1 : Calm c c2 := hinv h args c b c2 hi
      cases b with
      | true =>
        simp only [hi] at hr
        have e2 : Calm c2 ((c2.log (.unique_lock .subscribe_mutex_)).emplace_back h) :=
          ⟨[(c2.depth, .unique_lock .subscribe_mutex_), (c2.depth, .emplace_back h)],
            by simp [Config.emplace_back, Config.log], fun g => by
              cases g <;> simp [Unheld, replay, Held.step, held_at_calls, Event.as_call]⟩
        exact e1.followed (e2.followed (ih _ _ hr))
      | false =>
        simp only [hi] at hr
        exact e1.followed (ih _ _ hr)

theorem do_invoke_calm
    {inv : handler → Args → Config Args W → Option (Bool × Config Args W)}
    (hinv : UnheldCalls inv) (args : Args) (c c1 : Config Args W)
    (hr : do_invoke inv args c = some c1) : Calm c c1 := by
  have e1 : Calm c ((c.log .lock).swap.log .unlock) :=
    ⟨[(c.depth, .lock), (c.depth, .swap), (c.depth, .unlock)],
      by simp [Config.swap, Config.log], fun g => by
        simp [Unheld, replay, Held.step, held_at_calls, Event.as_call]⟩
  exact e1.followed (do_invoke_loop_calm hinv args _ _ _ hr)

theorem exec_calm
    {inv : handler → Args → Config Args W → Option (Bool × Config Args W)}
    (hinv : UnheldCalls inv) (cl : Call Args) (c c1 : Config Args W)
    (hr : exec inv cl c = some c1) : Calm c c1 := by
  cases cl with
  | start =>
    simp only [exec, Option.some.injEq] at hr
    subst hr
    exact start_calm c
  | stop =>
    simp only [exec, Option.some.injEq] at hr
    subst hr
    exact stop_calm c
  | subscribe h x =>
    simp only [exec, subscribe] at hr
    cases hs : c.self.stopped_ with
    | false =>
      have hs1 : (c.log Event.lock_upgrade).self.stopped_ = false := hs
      simp only [hs1, Bool.not_false, if_true, Option.some.injEq] at hr
      subst hr
      exact ⟨[(c.depth, .lock_upgrade), (c.depth, .unlock_upgrade_and_lock),
        (c.depth, .emplace_back h), (c.depth, .unlock)],
        by simp [Config.emplace_back, Config.log], fun g => by
          simp [Unheld, replay, Held.step, held_at_calls, Event.as_call]⟩
    | true =>
      have hs1 : (c.log Event.lock_upgrade).self.stopped_ = true := hs
      simp only [hs1, Bool.not_true, Bool.false_eq_true, if_false] at hr
      have e1 : Calm c ((c.log .lock_upgrade).log .unlock_upgrade) :=
        ⟨[(c.depth, .lock_upgrade), (c.depth, .unlock_upgrade)],
          by simp [Config.log], fun g => by
            simp [Unheld, replay, Held.step, held_at_calls, Event.as_call]⟩
      cases hi : inv h x ((c.log .lock_upgrade).log .unlock_upgrade) with
      | none => simp [hi] at hr
      | some r =>
        obtain ⟨b, c2⟩ := r
        simp only [hi, Option.some.injEq] at hr
        subst hr
        exact e1.followed (hinv h x _ b c2 hi)
  | invoke a =>
    simp only [exec, invoke] at hr
    have e1 : Calm c (c.log (.unique_lock .invoke_mutex_)) :=
      ⟨[(c.depth, .unique_lock .invoke_mutex_)], rfl, fun g => by
        simp [Unheld, replay, Held.step, held_at_calls, Event.as_call]⟩
    exact e1.followed (do_invoke_calm hinv a _ _ hr)
  | relay a =>
    simp only [exec, Option.some.injEq] at hr
    subst hr
    exact relay_calm a c

theorem run_script_calm
    {call : Call Args → Config Args W → Option (Config Args W)}
    (hcall : ∀ cl c c1, call cl c = some c1 → Calm c c1)
    (s : Script Args W) :
    ∀ (c : Config Args W) (b : Bool) (c1 : Config Args W),
      run_script call s c = some (b, c1) → Calm c c1 := by
  induction s with
  | ret b w =>
    intro c b1 c1 h
    simp only [run_script, Option.some.injEq, Prod.mk.injEq] at h
    obtain ⟨-, rfl⟩ := h
    exact ⟨[], by simp, fun g => Unheld.nil g⟩
  | call w cl k ih =>
    intro c b c1 h
    simp only [run_script] at h
    cases hc : call cl { c with world := w } with
    | none => simp [hc] at h
    | some c2 =>
      simp only [hc] at h
      have e1 : Calm c c2 := hcall cl { c with world := w } c2 hc
      exact e1.followed (ih c2.world c2 b c1 h)

theorem call_handler_unheld (code : handler → Args → W → Script Args W) :
    ∀ fuel, UnheldCalls (call_handler code fuel)
  | 0 => by
    intro h a c b c1 hr
    simp [call_handler] at hr
  | fuel + 1 => by
    intro h a c b c1 hr
    simp only [call_handler] at hr
    cases hrun : run_script (exec (call_handler code fuel)) (code h a c.world)
        { c.log (.call h a) with depth := c.depth + 1 } with
    | none => simp [hrun] at hr
    | some r =>
      obtain ⟨b2, c2⟩ := r
      simp only [hrun, Option.some.injEq, Prod.mk.injEq] at hr
      obtain ⟨rfl, rfl⟩ := hr
      obtain ⟨t, ht, hu⟩ :=
        run_script_calm (exec_calm (call_handler_unheld code fuel)) _ _ _ _ hrun
      refine ⟨(c.depth, Event.call h a) :: (t ++ [(c.depth, Event.ret h b2)]), ?_,
        fun g => (hu g).bracket c.depth h a b2⟩
      simp only [Config.log] at ht ⊢
      simp [ht]

end unheld

section registration
variable {Args W : Type}

theorem subscribed_skip (d : Nat) (e : Event Args) (t : List (Nat × Event Args))
    (he : e ≠ .unlock_upgrade_and_lock) : subscribed ((d, e) :: t) = subscribed t := by
  cases e <;> first | exact absurd rfl he | simp [subscribed]

theorem subscribed_append (t1 t2 : List (Nat × Event Args))
    (hlast : ∀ d, t1.getLast? ≠ some (d, .unlock_upgrade_and_lock)) :
    subscribed (t1 ++ t2) = subscribed t1 ++ subscribed t2 := by
  induction t1 using subscribed.induct with
  | case1 => simp [subscribed]
  | case2 d1 d2 h t ih =>
    have hl : ∀ d, t.getLast? ≠ some (d, .unlock_upgrade_and_lock) := by
      intro d
      cases t with
      | nil => simp
      | cons x t' =>
        have := hlast d
        simpa [List.getLast?_cons_cons] using this
    rw [List.cons_append, List.cons_append]
    simp only [subscribed]
    rw [ih hl, List.cons_append]
  | case3 head t hneg ih =>
    obtain ⟨d, e⟩ := head
    by_cases he : e = .unlock_upgrade_and_lock
    · subst he
      cases t with
      | nil => exact absurd rfl (hlast d)
      | cons x t' =>
        obtain ⟨d', e'⟩ := x
        have hl : ∀ d, ((d', e') :: t').getLast? ≠ some (d, .unlock_upgrade_and_lock) := by
          intro d0
          have := hlast d0
          simpa [List.getLast?_cons_cons] using this
        have hx : ∀ h, e' ≠ .emplace_back h := fun h hh => hneg d d' h t' rfl (by rw [hh])
        have e1 : subscribed ((d, Event.unlock_upgrade_and_lock) :: (d', e') :: t') =
            subscribed ((d', e') :: t') := by
          cases e' <;> first | exact absurd rfl (hx _) | simp [subscribed]
        have e2 : subscribed ((d, Event.unlock_upgrade_and_lock) :: (d', e') :: (t' ++ t2)) =
            subscribed ((d', e') :: (t' ++ t2)) := by
          cases e' <;> first | exact absurd rfl (hx _) | simp [subscribed]
        rw [List.cons_append, List.cons_append, e2, e1]
        exact ih hl
    · have hl : ∀ d, t.getLast? ≠ some (d, .unlock_upgrade_and_lock) := by
        intro d0
        cases t with
        | nil => simp
        | cons x t' =>
          have := hlast d0
          simpa [List.getLast?_cons_cons] using this
      rw [List.cons_append, subscribed_skip d e _ he, subscribed_skip d e _ he]
      exact ih hl

theorem subscribed_none (t : List (Nat × Event Args))
    (h : ∀ e ∈ t, e.2 ≠ .unlock_upgrade_and_lock) : subscribed t = [] := by
  induction t with
  | nil => rfl
  | cons x t ih =>
    obtain ⟨d, e⟩ := x
    rw [subscribed_skip d e t (h (d, e) (by simp))]
    exact ih (fun e he => h e (by simp [he]))


theorem registration_step (c c1 : Config Args W) (t : List (Nat × Event Args))
    (ht : c1.trace = c.trace ++ t)
    (hl : ∀ d, c.trace.getLast? ≠ some (d, .unlock_upgrade_and_lock))
    (hl2 : ∀ e ∈ t.getLast?, e.2 ≠ .unlock_upgrade_and_lock) :
    subscribed c1.trace = subscribed c.trace ++ subscribed t ∧
    ∀ d, c1.trace.getLast? ≠ some (d, .unlock_upgrade_and_lock) := by
  refine ⟨by rw [ht, subscribed_append _ _ hl], ?_⟩
  intro d
  rw [ht, List.getLast?_append]
  cases hlast : t.getLast? with
  | none => simpa using hl d
  | some e =>
    have := hl2 e (by simp [hlast])
    simp only [Option.or_some, ne_eq, Option.some.injEq]
    intro he
    exact this (by rw [he])

theorem do_invoke_loop_plain_events (code : handler → Args → W → Script Args W) (n : Nat)
    (args : Args) (l : List handler)
    (hl : ∀ h ∈ l, ∀ w, (code h args w).isRet = true) (c : Config Args W) :
    ∃ c1 t, do_invoke_loop (call_handler code (n + 1)) args l c = some c1 ∧
      c1.trace = c.trace ++ t ∧
      ∀ e ∈ t, e.1 = c.depth ∧ e.2 ≠ .unlock_upgrade_and_lock := by
  induction l generalizing c with
  | nil => exact ⟨c, [], rfl, by simp, by simp⟩
  | cons h rest ih =>
    obtain ⟨b, w, hs⟩ := Script.isRet_elim _ (hl h (by simp) c.world)
    have hrest : ∀ g ∈ rest, ∀ w, (code g args w).isRet = true :=
      fun g hg w => hl g (by simp [hg]) w
    cases b with
    | true =>
      obtain ⟨c1, t, h1, h2, h3⟩ := ih hrest
        (Config.emplace_back (Config.log { c with
          world := w
          trace := c.trace ++ [(c.depth, .call h args), (c.depth, .ret h true)] }
          (.unique_lock .subscribe_mutex_)) h)
      refine ⟨c1, [(c.depth, .call h args), (c.depth, .ret h true),
        (c.depth, .unique_lock .subscribe_mutex_), (c.depth, .emplace_back h)] ++ t, ?_, ?_, ?_⟩
      · simp only [do_invoke_loop, call_handler_ret code n h args c true w hs]
        exact h1
      · simp [h2, Config.emplace_back, Config.log]
      · intro e he
        rcases List.mem_append.mp he with he | he
        · simp only [List.mem_cons, List.mem_singleton, List.not_mem_nil, or_false] at he
          rcases he with rfl | rfl | rfl | rfl <;> simp
        · exact h3 e he
    | false =>
      obtain ⟨c1, t, h1, h2, h3⟩ := ih hrest
        { c with
          world := w
          trace := c.trace ++ [(c.depth, .call h args), (c.depth, .ret h false)] }
      refine ⟨c1, [(c.depth, .call h args), (c.depth, .ret h false)] ++ t, ?_, ?_, ?_⟩
      · simp only [do_invoke_loop, call_handler_ret code n h args c false w hs]
        exact h1
      · simp [h2]
      · intro e he
        rcases List.mem_append.mp he with he | he
        · simp only [List.mem_cons, List.mem_singleton, List.not_mem_nil, or_false] at he
          rcases he with rfl | rfl <;> simp
        · exact h3 e he

theorem invoke_plain_events (code : handler → Args → W → Script Args W) (n : Nat)
    (args : Args) (c : Config Args W)
    (hl : ∀ h ∈ c.self.subscriptions_, ∀ w, (code h args w).isRet = true) :
    ∃ c1 t, invoke (call_handler code (n + 1)) args c = some c1 ∧
      c1.trace = c.trace ++ t ∧
      ∀ e ∈ t, e.1 = c.depth ∧ e.2 ≠ .unlock_upgrade_and_lock := by
  obtain ⟨c1, t, h1, h2, h3⟩ := do_invoke_loop_plain_events code n args c.self.subscriptions_ hl
    (((c.log (.unique_lock .invoke_mutex_)).log .lock).swap.log .unlock)
  refine ⟨c1, [(c.depth, .unique_lock .invoke_mutex_), (c.depth, .lock), (c.depth, .swap),
    (c.depth, .unlock)] ++ t, ?_, ?_, ?_⟩
  · simp only [invoke, do_invoke]
    exact h1
  · simp only [Config.log, Config.swap] at h2
    simp [h2]
  · intro e he
    rcases List.mem_append.mp he with he | he
    · simp only [List.mem_cons, List.mem_singleton, List.not_mem_nil, or_false] at he
      rcases he with rfl | rfl | rfl | rfl <;> simp
    · exact h3 e he

theorem exec_plain_registration (code : handler → Args → W → Script Args W)
    (hplain : ∀ h a w, (code h a w).isRet = true) (n : Nat) (cl : Call Args)
    (c : Config Args W)
    (hsub : c.self.subscriptions_.Sublist (subscribed c.trace))
    (hlast : ∀ d, c.trace.getLast? ≠ some (d, .unlock_upgrade_and_lock)) :
    ∃ c1, exec (call_handler code (n + 1)) cl c = some c1 ∧
      c1.self.subscriptions_.Sublist (subscribed c1.trace) ∧
      ∀ d, c1.trace.getLast? ≠ some (d, .unlock_upgrade_and_lock) := by
  cases cl with
  | start =>
    obtain ⟨e1, e2⟩ := registration_step c (start c) _ (start_trace c) hlast
      (by cases c.self.stopped_ <;> simp)
    refine ⟨start c, rfl, ?_, e2⟩
    rw [e1, start_self]
    have : subscribed (if c.self.stopped_ = true then
        [(c.depth, Event.lock_upgrade), (c.depth, Event.unlock_upgrade_and_lock),
          (c.depth, Event.set_stopped false), (c.depth, (Event.unlock : Event Args))]
        else [(c.depth, Event.lock_upgrade), (c.depth, Event.unlock_upgrade)]) = [] := by
      cases c.self.stopped_ <;> simp [subscribed]
    rw [this, List.append_nil]
    exact hsub
  | stop =>
    obtain ⟨e1, e2⟩ := registration_step c (stop c) _ (stop_trace c) hlast
      (by cases c.self.stopped_ <;> simp)
    refine ⟨stop c, rfl, ?_, e2⟩
    rw [e1, stop_self]
    have : subscribed (if c.self.stopped_ = true then
        [(c.depth, Event.lock_upgrade), (c.depth, (Event.unlock_upgrade : Event Args))]
        else [(c.depth, Event.lock_upgrade), (c.depth, Event.unlock_upgrade_and_lock),
          (c.depth, Event.set_stopped true), (c.depth, Event.unlock)]) = [] := by
      cases c.self.stopped_ <;> simp [subscribed]
    rw [this, List.append_nil]
    exact hsub
  | subscribe h x =>
    cases hs : c.self.stopped_ with
    | false =>
      have hr := subscribe_started (call_handler code (n + 1)) h x c hs
      obtain ⟨e1, e2⟩ := registration_step c
        { c with
          self := { stopped_ := false, subscriptions_ := c.self.subscriptions_ ++ [h] }
          trace := c.trace ++ [(c.depth, .lock_upgrade), (c.depth, .unlock_upgrade_and_lock),
            (c.depth, .emplace_back h), (c.depth, .unlock)] }
        [(c.depth, .lock_upgrade), (c.depth, .unlock_upgrade_and_lock),
          (c.depth, .emplace_back h), (c.depth, .unlock)] rfl hlast (by simp)
      refine ⟨_, hr, ?_, e2⟩
      rw [e1]
      simp only [subscribed]
      exact hsub.append (List.Sublist.refl _)
    | true =>
      obtain ⟨b, w, hret⟩ := Script.isRet_elim _ (hplain h x c.world)
      have hr := subscribe_stopped_ret code n h x c b w hs hret
      obtain ⟨e1, e2⟩ := registration_step c
        { c with
          world := w
          trace := c.trace ++ [(c.depth, .lock_upgrade), (c.depth, .unlock_upgrade),
            (c.depth, .call h x), (c.depth, .ret h b)] }
        [(c.depth, .lock_upgrade), (c.depth, .unlock_upgrade),
          (c.depth, .call h x), (c.depth, .ret h b)] rfl hlast (by simp)
      refine ⟨_, hr, ?_, e2⟩
      rw [e1]
      simp only [subscribed, List.append_nil]
      exact hsub
  | invoke a =>
    obtain ⟨c1, t, h1, h2, -, -, -, -, h7, h8, -⟩ :=
      invoke_plain code n a c (fun h _ w => hplain h a w)
    obtain ⟨c2, t2, g1, g2, g3⟩ := invoke_plain_events code n a c (fun h _ w => hplain h a w)
    have hc : c2 = c1 := Option.some.inj (g1.symm.trans h1)
    subst hc
    obtain ⟨e1, e2⟩ := registration_step c c2 t2 g2 hlast
      (fun e he => (g3 e (List.mem_of_getLast?_eq_some he)).2)
    refine ⟨c2, h1, ?_, e2⟩
    rw [e1, subscribed_none t2 (fun e he => (g3 e he).2), List.append_nil, h8]
    refine List.Sublist.trans ?_ hsub
    conv_rhs => rw [← h7]
    exact (List.filter_sublist _).map _
  | relay a =>
    obtain ⟨e1, e2⟩ := registration_step c (relay a c) [(c.depth, .ordered a)] rfl hlast
      (by simp)
    refine ⟨relay a c, rfl, ?_, e2⟩
    rw [e1]
    simp only [subscribed, List.append_nil]
    exact hsub

theorem run_plain_registration (code : handler → Args → W → Script Args W)
    (hplain : ∀ h a w, (code h a w).isRet = true) (n : Nat) (ops : List (Call Args)) :
    ∀ c : Config Args W,
      c.self.subscriptions_.Sublist (subscribed c.trace) →
      (∀ d, c.trace.getLast? ≠ some (d, .unlock_upgrade_and_lock)) →
      ∃ c1, run code (n + 1) ops c = some c1 ∧
        c1.self.subscriptions_.Sublist (subscribed c1.trace) := by
  induction ops with
  | nil => exact fun c hs _ => ⟨c, rfl, hs⟩
  | cons cl rest ih =>
    intro c hs hl
    obtain ⟨c1, h1, h2, h3⟩ := exec_plain_registration code hplain n cl c hs hl
    obtain ⟨c2, g1, g2⟩ := ih c1 h2 h3
    exact ⟨c2, by simp only [run, h1]; exact g1, g2⟩

end registration

section draining
variable {Args W : Type}

theorem exec_stays_drained
    {inv : handler → Args → Config Args W → Option (Bool × Config Args W)}
    (hinv : ∀ h a c b c1, inv h a c = some (b, c1) →
      c.self.stopped_ = true ∧ c.self.subscriptions_ = [] →
      c1.self.stopped_ = true ∧ c1.self.subscriptions_ = [])
    (cl : Call Args) (hcl : cl ≠ .start) (c c1 : Config Args W)
    (hr : exec inv cl c = some c1)
    (hq : c.self.stopped_ = true ∧ c.self.subscriptions_ = []) :
    c1.self.stopped_ = true ∧ c1.self.subscriptions_ = [] := by
  cases cl with
  | start => exact absurd rfl hcl
  | stop =>
    simp only [exec, Option.some.injEq] at hr
    subst hr
    rw [stop_self]
    exact ⟨rfl, hq.2⟩
  | subscribe h x =>
    have hs1 : (c.log Event.lock_upgrade).self.stopped_ = true := hq.1
    simp only [exec, subscribe, hs1, Bool.not_true, Bool.false_eq_true, if_false] at hr
    cases hi : inv h x ((c.log .lock_upgrade).log .unlock_upgrade) with
    | none => simp [hi] at hr
    | some r =>
      obtain ⟨b, c2⟩ := r
      simp only [hi, Option.some.injEq] at hr
      subst hr
      exact hinv h x _ b c2 hi hq
  | invoke a =>
    have hl : ((c.log (Event.unique_lock Mutex.invoke_mutex_)).log
        Event.lock).self.subscriptions_ = [] := hq.2
    simp only [exec, invoke, do_invoke, hl, do_invoke_loop, Option.some.injEq] at hr
    subst hr
    exact ⟨hq.1, rfl⟩
  | relay a =>
    simp only [exec, Option.some.injEq] at hr
    subst hr
    exact hq

theorem run_script_stays_drained
    {call : Call Args → Config Args W → Option (Config Args W)}
    (hcall : ∀ cl, cl ≠ .start → ∀ c c1, call cl c = some c1 →
      c.self.stopped_ = true ∧ c.self.subscriptions_ = [] →
      c1.self.stopped_ = true ∧ c1.self.subscriptions_ = [])
    (s : Script Args W) (hs : s.NeverStarts) :
    ∀ (c : Config Args W) (b : Bool) (c1 : Config Args W),
      run_script call s c = some (b, c1) →
      c.self.stopped_ = true ∧ c.self.subscriptions_ = [] →
      c1.self.stopped_ = true ∧ c1.self.subscriptions_ = [] := by
  induction hs with
  | ret b w =>
    intro c b1 c1 h hq
    simp only [run_script, Option.some.injEq, Prod.mk.injEq] at h
    obtain ⟨-, rfl⟩ := h
    exact hq
  | call w cl k hcl hk ih =>
    intro c b c1 h hq
    simp only [run_script] at h
    cases hc : call cl { c with world := w } with
    | none => simp [hc] at h
    | some c2 =>
      simp only [hc] at h
      exact ih c2.world c2 b c1 h (hcall cl hcl { c with world := w } c2 hc hq)

theorem call_handler_stays_drained (code : handler → Args → W → Script Args W)
    (hns : ∀ h a w, (code h a w).NeverStarts) :
    ∀ fuel h a (c : Config Args W) b c1, call_handler code fuel h a c = some (b, c1) →
      c.self.stopped_ = true ∧ c.self.subscriptions_ = [] →
      c1.self.stopped_ = true ∧ c1.self.subscriptions_ = []
  | 0 => by
    intro h a c b c1 hr
    simp [call_handler] at hr
  | fuel + 1 => by
    intro h a c b c1 hr hq
    simp only [call_handler] at hr
    cases hrun : run_script (exec (call_handler code fuel)) (code h a c.world)
        { c.log (.call h a) with depth := c.depth + 1 } with
    | none => simp [hrun] at hr
    | some r =>
      obtain ⟨b2, c2⟩ := r
      simp only [hrun, Option.some.injEq, Prod.mk.injEq] at hr
      obtain ⟨rfl, rfl⟩ := hr
      have hq2 : c2.self.stopped_ = true ∧ c2.self.subscriptions_ = [] :=
        run_script_stays_drained
          (fun cl hcl c c1 =>
            exec_stays_drained (call_handler_stays_drained code hns fuel) cl hcl c c1)
          _ (hns h a c.world) _ _ c2 hrun hq
      exact hq2

theorem run_script_returns_false
    (call : Call Args → Config Args W → Option (Config Args W))
    (s : Script Args W) (hs : s.ReturnsFalse) :
    ∀ (c : Config Args W) (b : Bool) (c1 : Config Args W),
      run_script call s c = some (b, c1) → b = false := by
  induction hs with
  | ret w =>
    intro c b c1 h
    simp only [run_script, Option.some.injEq, Prod.mk.injEq] at h
    exact h.1.symm
  | call w cl k hk ih =>
    intro c b c1 h
    simp only [run_script] at h
    cases hc : call cl { c with world := w } with
    | none => simp [hc] at h
    | some c2 =>
      simp only [hc] at h
      exact ih c2.world c2 b c1 h

theorem call_handler_returns_false (code : handler → Args → W → Script Args W)
    (fuel : Nat) (h : handler) (a : Args) (hf : ∀ w, (code h a w).ReturnsFalse)
    (c : Config Args W) (b : Bool) (c1 : Config Args W)
    (hr : call_handler code fuel h a c = some (b, c1)) : b = false := by
  cases fuel with
  | zero => simp [call_handler] at hr
  | succ fuel =>
    simp only [call_handler] at hr
    cases hrun : run_script (exec (call_handler code fuel)) (code h a c.world)
        { c.log (.call h a) with depth := c.depth + 1 } with
    | none => simp [hrun] at hr
    | some r =>
      obtain ⟨b2, c2⟩ := r
      simp only [hrun, Option.some.injEq, Prod.mk.injEq] at hr
      obtain ⟨rfl, -⟩ := hr
      exact run_script_returns_false _ _ (hf c.world) _ _ _ hrun

theorem do_invoke_loop_drains (code : handler → Args → W → Script Args W)
    (hns : ∀ h a w, (code h a w).NeverStarts) (fuel : Nat) (args : Args) (l : List handler)
    (hf : ∀ h ∈ l, ∀ w, (code h args w).ReturnsFalse) :
    ∀ c c1 : Config Args W, do_invoke_loop (call_handler code fuel) args l c = some c1 →
      c.self.stopped_ = true ∧ c.self.subscriptions_ = [] →
      c1.self.stopped_ = true ∧ c1.self.subscriptions_ = [] := by
  induction l with
  | nil =>
    intro c c1 h hq
    simp only [do_invoke_loop, Option.some.injEq] at h
    subst h
    exact hq
  | cons h rest ih =>
    intro c c1 hr hq
    simp only [do_invoke_loop] at hr
    cases hi : call_handler code fuel h args c with
    | none => simp [hi] at hr
    | some r =>
      obtain ⟨b, c2⟩ := r
      have hb : b = false :=
        call_handler_returns_false code fuel h args (hf h (by simp)) c b c2 hi
      subst hb
      simp only [hi] at hr
      exact ih (fun g hg w => hf g (by simp [hg]) w) c2 c1 hr
        (call_handler_stays_drained code hns fuel h args c false c2 hi hq)

theorem invoke_after_stop_drains (code : handler → Args → W → Script Args W)
    (hns : ∀ h a w, (code h a w).NeverStarts) (fuel : Nat) (args : Args) (c c1 : Config Args W)
    (hf : ∀ h ∈ c.self.subscriptions_, ∀ w, (code h args w).ReturnsFalse)
    (hr : invoke (call_handler code fuel) args (stop c) = some c1) :
    c1.self.stopped_ = true ∧ c1.self.subscriptions_ = [] := by
  simp only [invoke, do_invoke] at hr
  have hl : (((stop c).log (Event.unique_lock Mutex.invoke_mutex_)).log
      Event.lock).self.subscriptions_ = c.self.subscriptions_ := by
    show (stop c).self.subscriptions_ = _
    rw [stop_self]
  rw [hl] at hr
  refine do_invoke_loop_drains code hns fuel args _ hf _ c1 hr ⟨?_, rfl⟩
  show (stop c).self.stopped_ = true
  rw [stop_self]

end draining

section nested_round
variable {Args W : Type}

theorem do_invoke_loop_append
    (inv : handler → Args → Config Args W → Option (Bool × Config Args W))
    (args : Args) (l1 l2 : List handler) (c : Config Args W) :
    do_invoke_loop inv args (l1 ++ l2) c =
      (do_invoke_loop inv args l1 c).bind (do_invoke_loop inv args l2) := by
  induction l1 generalizing c with
  | nil => simp [do_invoke_loop]
  | cons h rest ih =>
    simp only [List.cons_append, do_invoke_loop]
    cases hi : inv h args c with
    | none => simp
    | some r =>
      obtain ⟨b, c2⟩ := r
      cases b with
      | true => exact ih _
      | false => exact ih _

theorem call_handler_succ (code : handler → Args → W → Script Args W) (fuel : Nat)
    (h : handler) (args : Args) (c : Config Args W) :
    call_handler code (fuel + 1) h args c =
      match run_script (exec (call_handler code fuel)) (code h args c.world)
          { c.log (.call h args) with depth := c.depth + 1 } with
      | none => none
      | some (b, c1) => some (b, Config.log { c1 with depth := c.depth } (.ret h b)) := rfl

theorem call_handler_invoking (code : handler → Args → W → Script Args W) (n : Nat)
    (hi : handler) (a b : Args) (c : Config Args W) (w1 : W) (k : W → Script Args W)
    (hs : code hi a c.world = .call w1 (.invoke b) k)
    (hk : ∀ v, (k v).isRet = true)
    (hpl : ∀ h ∈ c.self.subscriptions_, ∀ w, (code h b w).isRet = true) :
    ∃ r c1 t, call_handler code (n + 2) hi a c = some (r, c1) ∧
      c1.trace = c.trace ++ ((c.depth, Event.call hi a) :: (t ++ [(c.depth, Event.ret hi r)])) ∧
      c1.depth = c.depth ∧
      calls t = c.self.subscriptions_.map (fun h => (h, b)) ∧
      (rets t).map Prod.fst = c.self.subscriptions_ := by
  obtain ⟨c2, t, h1, h2, -, -, -, h6, h7, -⟩ := invoke_plain code n b
    { c with
      world := w1
      depth := c.depth + 1
      trace := c.trace ++ [(c.depth, .call hi a)] } hpl
  obtain ⟨r, w2, hr⟩ := Script.isRet_elim _ (hk c2.world)
  refine ⟨r, Config.log { c2 with world := w2, depth := c.depth } (.ret hi r), t, ?_, ?_, rfl,
    h6, h7⟩
  · have h1b : invoke (call_handler code (n + 1)) b
        { self := c.self, dispatch_ := c.dispatch_, world := w1, depth := c.depth + 1,
          trace := c.trace ++ [(c.depth, Event.call hi a)] } = some c2 := h1
    rw [show n + 2 = (n + 1) + 1 from rfl, call_handler_succ]
    simp only [Config.log, hs, run_script, exec, h1b, hr]
  · simp only [Config.log]
    simp [h2]

end nested_round

section ordered_dispatch
variable {Args W : Type}

theorem dispatch_run_add
    (inv : handler → Args → Config Args W → Option (Bool × Config Args W)) (k m : Nat) :
    ∀ c : Config Args W,
      dispatch_run inv (k + m) c = (dispatch_run inv k c).bind (dispatch_run inv m) := by
  induction k with
  | zero =>
    intro c
    simp [dispatch_run]
  | succ k ih =>
    intro c
    rw [show k + 1 + m = (k + m) + 1 by omega]
    simp only [dispatch_run]
    cases hq : c.dispatch_ with
    | nil =>
      simp only
      cases m with
      | zero => simp [dispatch_run]
      | succ m => simp [dispatch_run, hq]
    | cons a rest =>
      simp only
      cases hr : do_invoke inv a { c with dispatch_ := rest } with
      | none => simp
      | some c1 =>
        simp only
        exact ih c1

theorem dispatch_run_plain (code : handler → Args → W → Script Args W)
    (hplain : ∀ h a w, (code h a w).isRet = true) (n : Nat) (q1 q2 : List Args) :
    ∀ c : Config Args W, c.dispatch_ = q1 ++ q2 →
      ∃ c1, dispatch_run (call_handler code (n + 1)) q1.length c = some c1 ∧
        c1.dispatch_ = q2 ∧ ∃ t, c1.trace = c.trace ++ t := by
  induction q1 with
  | nil =>
    intro c hq
    exact ⟨c, rfl, by simpa using hq, [], by simp⟩
  | cons a rest ih =>
    intro c hq
    obtain ⟨c1, t, h1, h2, -, -, h5, -⟩ := do_invoke_plain code n a
      { c with dispatch_ := rest ++ q2 } (fun h _ w => hplain h a w)
    obtain ⟨c2, g1, g2, t2, g3⟩ := ih c1 h5
    refine ⟨c2, ?_, g2, t ++ t2, ?_⟩
    · simp only [List.length_cons, dispatch_run, hq, List.cons_append, h1]
      exact g1
    · rw [g3, h2]
      simp

end ordered_dispatch

section calling
variable {Args W : Type}

theorem run_script_calls {p : Call Args → Prop}
    {call : Call Args → Config Args W → Option (Config Args W)}
    (R : Config Args W → Config Args W → Prop)
    (hret : ∀ c w, R c { c with world := w })
    (htrans : ∀ c c1 c2, R c c1 → R c1 c2 → R c c2)
    (hcall : ∀ cl, p cl → ∀ c c1, call cl c = some c1 → R c c1)
    (s : Script Args W) (hs : s.Calls p) :
    ∀ (c : Config Args W) (b : Bool) (c1 : Config Args W),
      run_script call s c = some (b, c1) → R c c1 := by
  induction hs with
  | ret b w =>
    intro c b1 c1 h
    simp only [run_script, Option.some.injEq, Prod.mk.injEq] at h
    obtain ⟨-, rfl⟩ := h
    exact hret c w
  | call w cl k hcl hk ih =>
    intro c b c1 h
    simp only [run_script] at h
    cases hc : call cl { c with world := w } with
    | none => simp [hc] at h
    | some c2 =>
      simp only [hc] at h
      exact htrans _ _ _ (hret c w)
        (htrans _ _ _ (hcall cl hcl _ c2 hc) (ih c2.world c2 b c1 h))

theorem call_handler_calls {p : Call Args → Prop} (code : handler → Args → W → Script Args W)
    (R : Config Args W → Config Args W → Prop)
    (hret : ∀ c w, R c { c with world := w })
    (htrans : ∀ c c1 c2, R c c1 → R c1 c2 → R c c2)
    (henter : ∀ (c : Config Args W) h a, R c { c.log (.call h a) with depth := c.depth + 1 })
    (hleave : ∀ (c : Config Args W) d h b, R c (Config.log { c with depth := d } (.ret h b)))
    (hexec : ∀ inv : handler → Args → Config Args W → Option (Bool × Config Args W),
      (∀ h a c b c1, inv h a c = some (b, c1) → R c c1) →
      ∀ cl, p cl → ∀ c c1, exec inv cl c = some c1 → R c c1)
    (hcode : ∀ h a w, (code h a w).Calls p) :
    ∀ fuel h a (c : Config Args W) b c1, call_handler code fuel h a c = some (b, c1) → R c c1
  | 0 => by
    intro h a c b c1 hr
    simp [call_handler] at hr
  | fuel + 1 => by
    intro h a c b c1 hr
    simp only [call_handler] at hr
    cases hrun : run_script (exec (call_handler code fuel)) (code h a c.world)
        { c.log (.call h a) with depth := c.depth + 1 } with
    | none => simp [hrun] at hr
    | some r =>
      obtain ⟨b2, c2⟩ := r
      simp only [hrun, Option.some.injEq, Prod.mk.injEq] at hr
      obtain ⟨rfl, rfl⟩ := hr
      have h2 := run_script_calls R hret htrans
        (hexec _ (call_handler_calls code R hret htrans henter hleave hexec hcode fuel))
        _ (hcode h a c.world) _ _ c2 hrun
      exact htrans _ _ _ (henter c h a) (htrans _ _ _ h2 (hleave c2 c.depth h b2))

theorem Script.NeverStarts.calls {s : Script Args W} (hs : s.NeverStarts) :
    s.Calls (fun cl => cl ≠ .start) := by
  induction hs with
  | ret b w => exact .ret b w
  | call w cl k hcl hk ih => exact .call w cl k hcl ih

theorem subscribe_stopped_eq
    (inv : handler → Args → Config Args W → Option (Bool × Config Args W))
    (h : handler) (x : Args) (c : Config Args W) (hs : c.self.stopped_ = true) :
    subscribe inv h x c =
      (inv h x ((c.log .lock_upgrade).log .unlock_upgrade)).map Prod.snd := by
  have hs1 : (c.log Event.lock_upgrade).self.stopped_ = true := hs
  simp only [subscribe, hs1, Bool.not_true, Bool.false_eq_true, if_false]
  cases inv h x ((c.log .lock_upgrade).log .unlock_upgrade) with
  | none => rfl
  | some r => rfl

end calling

section staying_stopped
variable {Args W : Type}

theorem exec_keeps_self
    (inv : handler → Args → Config Args W → Option (Bool × Config Args W))
    (hinv : ∀ h a c b c1, inv h a c = some (b, c1) →
      (c.self.stopped_ = true → c1.self = c.self))
    (cl : Call Args) (hcl : cl.is_start = false ∧ cl.is_invoke = false) (c c1 : Config Args W)
    (hr : exec inv cl c = some c1) (hs : c.self.stopped_ = true) : c1.self = c.self := by
  cases cl with
  | start => simp [Call.is_start] at hcl
  | stop =>
    simp only [exec, Option.some.injEq] at hr
    subst hr
    rw [stop_self, ← hs]
  | subscribe h x =>
    simp only [exec] at hr
    rw [subscribe_stopped_eq inv h x c hs] at hr
    cases hi : inv h x ((c.log .lock_upgrade).log .unlock_upgrade) with
    | none => simp [hi] at hr
    | some r =>
      obtain ⟨b, c2⟩ := r
      simp only [hi, Option.map_some', Option.some.injEq] at hr
      subst hr
      exact hinv h x ((c.log .lock_upgrade).log .unlock_upgrade) b c2 hi hs
  | invoke a => simp [Call.is_invoke] at hcl
  | relay a =>
    simp only [exec, Option.some.injEq] at hr
    subst hr
    rfl

theorem call_handler_keeps_self (code : handler → Args → W → Script Args W)
    (hcode : ∀ h a w, (code h a w).Calls
      (fun cl => cl.is_start = false ∧ cl.is_invoke = false)) :
    ∀ fuel h a (c : Config Args W) b c1, call_handler code fuel h a c = some (b, c1) →
      (c.self.stopped_ = true → c1.self = c.self) :=
  call_handler_calls code (fun c c1 => c.self.stopped_ = true → c1.self = c.self)
    (fun _ _ _ => rfl)
    (fun c c1 c2 h1 h2 hs => by
      have e1 := h1 hs
      have e2 := h2 (by rw [e1]; exact hs)
      rw [e2, e1])
    (fun _ _ _ _ => rfl)
    (fun _ _ _ _ _ => rfl)
    (fun inv hinv cl hcl c c1 hr hs => exec_keeps_self inv hinv cl hcl c c1 hr hs)
    hcode

theorem do_invoke_loop_shrinks
    (inv : handler → Args → Config Args W → Option (Bool × Config Args W))
    (hinv : ∀ h a c b c1, inv h a c = some (b, c1) →
      (c.self.stopped_ = true →
        c1.self.stopped_ = true ∧ c1.self.subscriptions_.Sublist c.self.subscriptions_))
    (args : Args) (l : List handler) :
    ∀ c c1 : Config Args W, do_invoke_loop inv args l c = some c1 →
      c.self.stopped_ = true →
      c1.self.stopped_ = true ∧
        c1.self.subscriptions_.Sublist (c.self.subscriptions_ ++ l) := by
  induction l with
  | nil =>
    intro c c1 h hs
    simp only [do_invoke_loop, Option.some.injEq] at h
    subst h
    exact ⟨hs, by simp⟩
  | cons h rest ih =>
    intro c c1 hr hs
    simp only [do_invoke_loop] at hr
    cases hi : inv h args c with
    | none => simp [hi] at hr
    | some r =>
      obtain ⟨b, c2⟩ := r
      obtain ⟨hs2, hl2⟩ := hinv h args c b c2 hi hs
      cases b with
      | true =>
        simp only [hi] at hr
        obtain ⟨g1, g2⟩ := ih _ c1 hr hs2
        refine ⟨g1, g2.trans ?_⟩
        have : ((c2.log (.unique_lock .subscribe_mutex_)).emplace_back h).self.subscriptions_ =
            c2.self.subscriptions_ ++ [h] := rfl
        rw [this, List.append_assoc]
        exact hl2.append (List.Sublist.refl _)
      | false =>
        simp only [hi] at hr
        obtain ⟨g1, g2⟩ := ih _ c1 hr hs2
        refine ⟨g1, g2.trans ?_⟩
        exact hl2.append (List.sublist_cons_self h rest)

theorem exec_shrinks
    (inv : handler → Args → Config Args W → Option (Bool × Config Args W))
    (hinv : ∀ h a c b c1, inv h a c = some (b, c1) →
      (c.self.stopped_ = true →
        c1.self.stopped_ = true ∧ c1.self.subscriptions_.Sublist c.self.subscriptions_))
    (cl : Call Args) (hcl : cl ≠ .start) (c c1 : Config Args W)
    (hr : exec inv cl c = some c1) (hs : c.self.stopped_ = true) :
    c1.self.stopped_ = true ∧ c1.self.subscriptions_.Sublist c.self.subscriptions_ := by
  cases cl with
  | start => exact absurd rfl hcl
  | stop =>
    simp only [exec, Option.some.injEq] at hr
    subst hr
    rw [stop_self]
    exact ⟨rfl, List.Sublist.refl _⟩
  | subscribe h x =>
    simp only [exec] at hr
    rw [subscribe_stopped_eq inv h x c hs] at hr
    cases hi : inv h x ((c.log .lock_upgrade).log .unlock_upgrade) with
    | none => simp [hi] at hr
    | some r =>
      obtain ⟨b, c2⟩ := r
      simp only [hi, Option.map_some', Option.some.injEq] at hr
      subst hr
      exact hinv h x ((c.log .lock_upgrade).log .unlock_upgrade) b c2 hi hs
  | invoke a =>
    simp only [exec, invoke, do_invoke] at hr
    have := do_invoke_loop_shrinks inv hinv a _ _ c1 hr hs
    simpa [Config.swap, Config.log] using this
  | relay a =>
    simp only [exec, Option.some.injEq] at hr
    subst hr
    exact ⟨hs, List.Sublist.refl _⟩

theorem call_handler_shrinks (code : handler → Args → W → Script Args W)
    (hns : ∀ h a w, (code h a w).NeverStarts) :
    ∀ fuel h a (c : Config Args W) b c1, call_handler code fuel h a c = some (b, c1) →
      (c.self.stopped_ = true →
        c1.self.stopped_ = true ∧ c1.self.subscriptions_.Sublist c.self.subscriptions_) :=
  call_handler_calls code
    (fun c c1 => c.self.stopped_ = true →
      c1.self.stopped_ = true ∧ c1.self.subscriptions_.Sublist c.self.subscriptions_)
    (fun _ _ hs => ⟨hs, List.Sublist.refl _⟩)
    (fun _ _ _ h1 h2 hs => ⟨(h2 (h1 hs).1).1, (h2 (h1 hs).1).2.trans (h1 hs).2⟩)
    (fun _ _ _ hs => ⟨hs, List.Sublist.refl _⟩)
    (fun _ _ _ _ hs => ⟨hs, List.Sublist.refl _⟩)
    (fun inv hinv cl hcl c c1 hr hs => exec_shrinks inv hinv cl hcl c c1 hr hs)
    (fun h a w => (hns h a w).calls)

theorem run_shrinks (code : handler → Args → W → Script Args W)
    (hns : ∀ h a w, (code h a w).NeverStarts) (fuel : Nat) (ops : List (Call Args)) :
    ∀ c c1 : Config Args W, Call.start ∉ ops → run code fuel ops c = some c1 →
      c.self.stopped_ = true →
      c1.self.stopped_ = true ∧ c1.self.subscriptions_.Sublist c.self.subscriptions_ := by
  induction ops with
  | nil =>
    intro c c1 _ hr hs
    simp only [run, Option.some.injEq] at hr
    subst hr
    exact ⟨hs, List.Sublist.refl _⟩
  | cons cl rest ih =>
    intro c c1 hno hr hs
    have hcl : cl ≠ .start := fun h => hno (by simp [h])
    simp only [run] at hr
    cases he : exec (call_handler code fuel) cl c with
    | none => simp [he] at hr
    | some c2 =>
      simp only [he] at hr
      obtain ⟨g1, g2⟩ := exec_shrinks _ (call_handler_shrinks code hns fuel) cl hcl c c2 he hs
      obtain ⟨k1, k2⟩ := ih c2 c1 (fun h => hno (by simp [h])) hr g1
      exact ⟨k1, k2.trans g2⟩

end staying_stopped

section growing
variable {Args W : Type}

theorem grows_nothing (c : Config Args W) (w : W) : Grows c { c with world := w } :=
  ⟨[], by simp, by simp [registered]⟩

theorem grows_followed {c c1 c2 : Config Args W} (h1 : Grows c c1) (h2 : Grows c1 c2) :
    Grows c c2 := by
  obtain ⟨t1, e1, l1⟩ := h1
  obtain ⟨t2, e2, l2⟩ := h2
  exact ⟨t1 ++ t2, by rw [e2, e1, List.append_assoc],
    by rw [l2, l1, registered_append, List.append_assoc]⟩

theorem grows_quiet (c c1 : Config Args W) (t : List (Nat × Event Args))
    (ht : c1.trace = c.trace ++ t) (hl : c1.self.subscriptions_ = c.self.subscriptions_)
    (hr : registered t = []) : Grows c c1 :=
  ⟨t, ht, by rw [hl, hr, List.append_nil]⟩

theorem start_grows (c : Config Args W) : Grows c (start c) := by
  refine grows_quiet c (start c) _ (start_trace c) (by rw [start_self]) ?_
  cases c.self.stopped_ <;> simp [registered, Event.as_emplace_back]

theorem stop_grows (c : Config Args W) : Grows c (stop c) := by
  refine grows_quiet c (stop c) _ (stop_trace c) (by rw [stop_self]) ?_
  cases c.self.stopped_ <;> simp [registered, Event.as_emplace_back]

theorem do_invoke_loop_grows
    (inv : handler → Args → Config Args W → Option (Bool × Config Args W))
    (hinv : ∀ h a c b c1, inv h a c = some (b, c1) → Grows c c1)
    (args : Args) (l : List handler) :
    ∀ c c1 : Config Args W, do_invoke_loop inv args l c = some c1 → Grows c c1 := by
  induction l with
  | nil =>
    intro c c1 h
    simp only [do_invoke_loop, Option.some.injEq] at h
    subst h
    exact ⟨[], by simp, by simp [registered]⟩
  | cons h rest ih =>
    intro c c1 hr
    simp only [do_invoke_loop] at hr
    cases hi : inv h args c with
    | none => simp [hi] at hr
    | some r =>
      obtain ⟨b, c2⟩ := r
      have g1 : Grows c c2 := hinv h args c b c2 hi
      cases b with
      | true =>
        simp only [hi] at hr
        have g2 : Grows c2 ((c2.log (.unique_lock .subscribe_mutex_)).emplace_back h) :=
          ⟨[(c2.depth, .unique_lock .subscribe_mutex_), (c2.depth, .emplace_back h)],
            by simp [Config.emplace_back, Config.log],
            by simp [Config.emplace_back, Config.log, registered, Event.as_emplace_back]⟩
        exact grows_followed g1 (grows_followed g2 (ih _ c1 hr))
      | false =>
        simp only [hi] at hr
        exact grows_followed g1 (ih _ c1 hr)

theorem exec_grows
    (inv : handler → Args → Config Args W → Option (Bool × Config Args W))
    (hinv : ∀ h a c b c1, inv h a c = some (b, c1) → Grows c c1)
    (cl : Call Args) (hcl : cl.is_invoke = false) (c c1 : Config Args W)
    (hr : exec inv cl c = some c1) : Grows c c1 := by
  cases cl with
  | start =>
    simp only [exec, Option.some.injEq] at hr
    subst hr
    exact start_grows c
  | stop =>
    simp only [exec, Option.some.injEq] at hr
    subst hr
    exact stop_grows c
  | subscribe h x =>
    simp only [exec] at hr
    cases hs : c.self.stopped_ with
    | false =>
      rw [subscribe_started inv h x c hs, Option.some.injEq] at hr
      subst hr
      exact ⟨[(c.depth, .lock_upgrade), (c.depth, .unlock_upgrade_and_lock),
        (c.depth, .emplace_back h), (c.depth, .unlock)], rfl,
        by simp [registered, Event.as_emplace_back]⟩
    | true =>
      rw [subscribe_stopped_eq inv h x c hs] at hr
      cases hi : inv h x ((c.log .lock_upgrade).log .unlock_upgrade) with
      | none => simp [hi] at hr
      | some r =>
        obtain ⟨b, c2⟩ := r
        simp only [hi, Option.map_some', Option.some.injEq] at hr
        subst hr
        have g1 : Grows c ((c.log .lock_upgrade).log .unlock_upgrade) :=
          ⟨[(c.depth, .lock_upgrade), (c.depth, .unlock_upgrade)],
            by simp [Config.log], by simp [Config.log, registered, Event.as_emplace_back]⟩
        exact grows_followed g1 (hinv h x ((c.log .lock_upgrade).log .unlock_upgrade) b c2 hi)
  | invoke a => simp [Call.is_invoke] at hcl
  | relay a =>
    simp only [exec, Option.some.injEq] at hr
    subst hr
    exact ⟨[(c.depth, .ordered a)], rfl, by simp [relay, Config.log, registered,
      Event.as_emplace_back]⟩

theorem call_handler_grows (code : handler → Args → W → Script Args W)
    (hcode : ∀ h a w, (code h a w).Calls (fun cl => cl.is_invoke = false)) :
    ∀ fuel h a (c : Config Args W) b c1, call_handler code fuel h a c = some (b, c1) →
      Grows c c1 :=
  call_handler_calls code Grows
    (fun c w => grows_nothing c w)
    (fun _ _ _ h1 h2 => grows_followed h1 h2)
    (fun c h a => ⟨[(c.depth, .call h a)], by simp [Config.log],
      by simp [Config.log, registered, Event.as_emplace_back]⟩)
    (fun c d h b => ⟨[(d, .ret h b)], by simp [Config.log],
      by simp [Config.log, registered, Event.as_emplace_back]⟩)
    (fun inv hinv cl hcl c c1 hr => exec_grows inv hinv cl hcl c c1 hr)
    hcode

theorem invoke_grows (code : handler → Args → W → Script Args W)
    (hcode : ∀ h a w, (code h a w).Calls (fun cl => cl.is_invoke = false))
    (fuel : Nat) (a : Args) (c c1 : Config Args W)
    (hr : invoke (call_handler code fuel) a c = some c1) :
    ∃ t, c1.trace = c.trace ++ t ∧ c1.self.subscriptions_ = registered t := by
  simp only [invoke, do_invoke] at hr
  obtain ⟨t, ht, hl⟩ := do_invoke_loop_grows _ (call_handler_grows code hcode fuel) a _ _ c1 hr
  refine ⟨[(c.depth, .unique_lock .invoke_mutex_), (c.depth, .lock), (c.depth, .swap),
    (c.depth, .unlock)] ++ t, ?_, ?_⟩
  · simp only [Config.log, Config.swap] at ht
    simp [ht]
  · rw [hl, registered_append]
    simp [Config.swap, Config.log, registered, Event.as_emplace_back]

end growing

section keeping
variable {Args W : Type}

theorem unsubscribed_of_none (t : List (Nat × Event Args))
    (h : ∀ e ∈ t, e.2 ≠ .unlock_upgrade_and_lock) : Unsubscribed t :=
  ⟨subscribed_none t h, fun e he => h e (List.mem_of_getLast?_eq_some he)⟩

theorem unsubscribed_append {t1 t2 : List (Nat × Event Args)}
    (h1 : Unsubscribed t1) (h2 : Unsubscribed t2) : Unsubscribed (t1 ++ t2) := by
  have hl : ∀ d, t1.getLast? ≠ some (d, .unlock_upgrade_and_lock) := by
    intro d he
    exact h1.2 _ he rfl
  refine ⟨by rw [subscribed_append _ _ hl, h1.1, h2.1]; rfl, ?_⟩
  intro e he
  rw [List.getLast?_append] at he
  cases hlast : t2.getLast? with
  | none =>
    rw [hlast] at he
    exact h1.2 e (by simpa using he)
  | some e2 =>
    rw [hlast] at he
    have he2 : some e2 = some e := he
    cases he2
    exact h2.2 e hlast

theorem keeps_nothing (c : Config Args W) (w : W) : Keeps c { c with world := w } :=
  ⟨[], by simp, unsubscribed_of_none [] (by simp), List.Sublist.refl _⟩

theorem keeps_followed {c c1 c2 : Config Args W} (h1 : Keeps c c1) (h2 : Keeps c1 c2) :
    Keeps c c2 := by
  obtain ⟨t1, e1, u1, l1⟩ := h1
  obtain ⟨t2, e2, u2, l2⟩ := h2
  exact ⟨t1 ++ t2, by rw [e2, e1, List.append_assoc], unsubscribed_append u1 u2, l2.trans l1⟩

theorem start_keeps (c : Config Args W) : Keeps c (start c) := by
  refine ⟨_, start_trace c, ?_, by rw [start_self]⟩
  cases c.self.stopped_ <;> simp [Unsubscribed, subscribed]

theorem stop_keeps (c : Config Args W) : Keeps c (stop c) := by
  refine ⟨_, stop_trace c, ?_, by rw [stop_self]⟩
  cases c.self.stopped_ <;> simp [Unsubscribed, subscribed]

theorem do_invoke_loop_keeps
    (inv : handler → Args → Config Args W → Option (Bool × Config Args W))
    (hinv : ∀ h a c b c1, inv h a c = some (b, c1) → Keeps c c1)
    (args : Args) (l : List handler) :
    ∀ c c1 : Config Args W, do_invoke_loop inv args l c = some c1 →
      ∃ t, c1.trace = c.trace ++ t ∧ Unsubscribed t ∧
        c1.self.subscriptions_.Sublist (c.self.subscriptions_ ++ l) := by
  induction l with
  | nil =>
    intro c c1 h
    simp only [do_invoke_loop, Option.some.injEq] at h
    subst h
    exact ⟨[], by simp, unsubscribed_of_none [] (by simp), by simp⟩
  | cons h rest ih =>
    intro c c1 hr
    simp only [do_invoke_loop] at hr
    cases hi : inv h args c with
    | none => simp [hi] at hr
    | some r =>
      obtain ⟨b, c2⟩ := r
      obtain ⟨t1, e1, u1, l1⟩ := hinv h args c b c2 hi
      cases b with
      | true =>
        simp only [hi] at hr
        obtain ⟨t2, e2, u2, l2⟩ := ih _ c1 hr
        refine ⟨t1 ++ ([(c2.depth, .unique_lock .subscribe_mutex_),
          (c2.depth, .emplace_back h)] ++ t2), ?_, ?_, ?_⟩
        · simp [e2, e1, Config.emplace_back, Config.log]
        · exact unsubscribed_append u1 (unsubscribed_append (unsubscribed_of_none _ (by simp)) u2)
        · refine l2.trans ?_
          have : ((c2.log (.unique_lock .subscribe_mutex_)).emplace_back h).self.subscriptions_ =
              c2.self.subscriptions_ ++ [h] := rfl
          rw [this, List.append_assoc]
          exact l1.append (List.Sublist.refl _)
      | false =>
        simp only [hi] at hr
        obtain ⟨t2, e2, u2, l2⟩ := ih _ c1 hr
        refine ⟨t1 ++ t2, by simp [e2, e1], unsubscribed_append u1 u2, l2.trans ?_⟩
        exact l1.append (List.sublist_cons_self h rest)

theorem invoke_keeps
    (inv : handler → Args → Config Args W → Option (Bool × Config Args W))
    (hinv : ∀ h a c b c1, inv h a c = some (b, c1) → Keeps c c1)
    (a : Args) (c c1 : Config Args W) (hr : invoke inv a c = some c1) : Keeps c c1 := by
  simp only [invoke, do_invoke] at hr
  obtain ⟨t, ht, hu, hl⟩ := do_invoke_loop_keeps inv hinv a _ _ c1 hr
  refine ⟨[(c.depth, .unique_lock .invoke_mutex_), (c.depth, .lock), (c.depth, .swap),
    (c.depth, .unlock)] ++ t, ?_, ?_, ?_⟩
  · simp only [Config.log, Config.swap] at ht
    simp [ht]
  · exact unsubscribed_append (unsubscribed_of_none _ (by simp)) hu
  · simpa [Config.swap, Config.log] using hl

theorem subscribe_stopped_keeps
    (inv : handler → Args → Config Args W → Option (Bool × Config Args W))
    (hinv : ∀ h a c b c1, inv h a c = some (b, c1) → Keeps c c1)
    (h : handler) (x : Args) (c c1 : Config Args W) (hs : c.self.stopped_ = true)
    (hr : subscribe inv h x c = some c1) : Keeps c c1 := by
  rw [subscribe_stopped_eq inv h x c hs] at hr
  cases hi : inv h x ((c.log .lock_upgrade).log .unlock_upgrade) with
  | none => simp [hi] at hr
  | some r =>
    obtain ⟨b, c2⟩ := r
    simp only [hi, Option.map_some', Option.some.injEq] at hr
    subst hr
    have g1 : Keeps c ((c.log .lock_upgrade).log .unlock_upgrade) :=
      ⟨[(c.depth, .lock_upgrade), (c.depth, .unlock_upgrade)],
        by simp [Config.log], unsubscribed_of_none _ (by simp), List.Sublist.refl _⟩
    exact keeps_followed g1 (hinv h x ((c.log .lock_upgrade).log .unlock_upgrade) b c2 hi)

theorem exec_keeps
    (inv : handler → Args → Config Args W → Option (Bool × Config Args W))
    (hinv : ∀ h a c b c1, inv h a c = some (b, c1) → Keeps c c1)
    (cl : Call Args) (hcl : cl.is_subscribe = false) (c c1 : Config Args W)
    (hr : exec inv cl c = some c1) : Keeps c c1 := by
  cases cl with
  | start =>
    simp only [exec, Option.some.injEq] at hr
    subst hr
    exact start_keeps c
  | stop =>
    simp only [exec, Option.some.injEq] at hr
    subst hr
    exact stop_keeps c
  | subscribe h x => simp [Call.is_subscribe] at hcl
  | invoke a => exact invoke_keeps inv hinv a c c1 hr
  | relay a =>
    simp only [exec, Option.some.injEq] at hr
    subst hr
    exact ⟨[(c.depth, .ordered a)], rfl, unsubscribed_of_none _ (by simp),
      List.Sublist.refl _⟩

theorem call_handler_keeps (code : handler → Args → W → Script Args W)
    (hcode : ∀ h a w, (code h a w).Calls (fun cl => cl.is_subscribe = false)) :
    ∀ fuel h a (c : Config Args W) b c1, call_handler code fuel h a c = some (b, c1) →
      Keeps c c1 :=
  call_handler_calls code Keeps
    (fun c w => keeps_nothing c w)
    (fun _ _ _ h1 h2 => keeps_followed h1 h2)
    (fun c h a => ⟨[(c.depth, .call h a)], by simp [Config.log],
      unsubscribed_of_none _ (by simp), List.Sublist.refl _⟩)
    (fun c d h b => ⟨[(d, .ret h b)], by simp [Config.log],
      unsubscribed_of_none _ (by simp), List.Sublist.refl _⟩)
    (fun inv hinv cl hcl c c1 hr => exec_keeps inv hinv cl hcl c c1 hr)
    hcode

theorem keeps_registration {c c1 : Config Args W} (hk : Keeps c c1)
    (hsub : c.self.subscriptions_.Sublist (subscribed c.trace))
    (hlast : ∀ d, c.trace.getLast? ≠ some (d, .unlock_upgrade_and_lock)) :
    c1.self.subscriptions_.Sublist (subscribed c1.trace) ∧
      ∀ d, c1.trace.getLast? ≠ some (d, .unlock_upgrade_and_lock) := by
  obtain ⟨t, ht, hu, hl⟩ := hk
  obtain ⟨e1, e2⟩ := registration_step c c1 t ht hlast hu.2
  refine ⟨?_, e2⟩
  rw [e1, hu.1, List.append_nil]
  exact hl.trans hsub

theorem exec_registration (code : handler → Args → W → Script Args W)
    (hcode : ∀ h a w, (code h a w).Calls (fun cl => cl.is_subscribe = false))
    (fuel : Nat) (cl : Call Args) (c c1 : Config Args W)
    (hr : exec (call_handler code fuel) cl c = some c1)
    (hsub : c.self.subscriptions_.Sublist (subscribed c.trace))
    (hlast : ∀ d, c.trace.getLast? ≠ some (d, .unlock_upgrade_and_lock)) :
    c1.self.subscriptions_.Sublist (subscribed c1.trace) ∧
      ∀ d, c1.trace.getLast? ≠ some (d, .unlock_upgrade_and_lock) := by
  have hinv := call_handler_keeps code hcode fuel
  by_cases hcl : cl.is_subscribe = false
  · exact keeps_registration (exec_keeps _ hinv cl hcl c c1 hr) hsub hlast
  · cases cl with
    | subscribe h x =>
      simp only [exec] at hr
      cases hs : c.self.stopped_ with
      | false =>
        rw [subscribe_started _ h x c hs, Option.some.injEq] at hr
        subst hr
        obtain ⟨e1, e2⟩ := registration_step c
          { c with
            self := { stopped_ := false, subscriptions_ := c.self.subscriptions_ ++ [h] }
            trace := c.trace ++ [(c.depth, .lock_upgrade), (c.depth, .unlock_upgrade_and_lock),
              (c.depth, .emplace_back h), (c.depth, .unlock)] }
          [(c.depth, .lock_upgrade), (c.depth, .unlock_upgrade_and_lock),
            (c.depth, .emplace_back h), (c.depth, .unlock)] rfl hlast (by simp)
        refine ⟨?_, e2⟩
        rw [e1]
        simp only [subscribed]
        exact hsub.append (List.Sublist.refl _)
      | true =>
        exact keeps_registration (subscribe_stopped_keeps _ hinv h x c c1 hs hr) hsub hlast
    | start => simp [Call.is_subscribe] at hcl
    | stop => simp [Call.is_subscribe] at hcl
    | invoke a => simp [Call.is_subscribe] at hcl
    | relay a => simp [Call.is_subscribe] at hcl

theorem run_registration (code : handler → Args → W → Script Args W)
    (hcode : ∀ h a w, (code h a w).Calls (fun cl => cl.is_subscribe = false))
    (fuel : Nat) (ops : List (Call Args)) :
    ∀ c c1 : Config Args W, run code fuel ops c = some c1 →
      c.self.subscriptions_.Sublist (subscribed c.trace) →
      (∀ d, c.trace.getLast? ≠ some (d, .unlock_upgrade_and_lock)) →
      c1.self.subscriptions_.Sublist (subscribed c1.trace) := by
  induction ops with
  | nil =>
    intro c c1 hr hs _
    simp only [run, Option.some.injEq] at hr
    subst hr
    exact hs
  | cons cl rest ih =>
    intro c c1 hr hs hl
    simp only [run] at hr
    cases he : exec (call_handler code fuel) cl c with
    | none => simp [he] at hr
    | some c2 =>
      simp only [he] at hr
      obtain ⟨g1, g2⟩ := exec_registration code hcode fuel cl c c2 he hs hl
      exact ih c2 c1 hr g1 g2

end keeping

section flag_blind
variable {Args W : Type}

theorem do_invoke_loop_flag
    (inv : handler → Args → Config Args W → Option (Bool × Config Args W)) (f : Bool)
    (hinv : ∀ h a c, inv h a (c.with_stopped f) =
      (inv h a c).map (fun r => (r.1, r.2.with_stopped f)))
    (args : Args) (l : List handler) :
    ∀ c : Config Args W, do_invoke_loop inv args l (c.with_stopped f) =
      (do_invoke_loop inv args l c).map (fun c1 => c1.with_stopped f) := by
  induction l with
  | nil => intro c; rfl
  | cons h rest ih =>
    intro c
    simp only [do_invoke_loop, hinv h args c]
    cases hi : inv h args c with
    | none => rfl
    | some r =>
      obtain ⟨b, c2⟩ := r
      cases b with
      | true =>
        simp only [Option.map_some']
        exact ih ((c2.log (.unique_lock .subscribe_mutex_)).emplace_back h)
      | false =>
        simp only [Option.map_some']
        exact ih c2

theorem exec_flag
    (inv : handler → Args → Config Args W → Option (Bool × Config Args W)) (f : Bool)
    (hinv : ∀ h a c, inv h a (c.with_stopped f) =
      (inv h a c).map (fun r => (r.1, r.2.with_stopped f)))
    (cl : Call Args)
    (hcl : cl.is_start = false ∧ cl.is_stop = false ∧ cl.is_subscribe = false)
    (c : Config Args W) :
    exec inv cl (c.with_stopped f) = (exec inv cl c).map (fun c1 => c1.with_stopped f) := by
  cases cl with
  | start => simp [Call.is_start] at hcl
  | stop => simp [Call.is_stop] at hcl
  | subscribe h x => simp [Call.is_subscribe] at hcl
  | invoke a =>
    simp only [exec, invoke, do_invoke]
    exact do_invoke_loop_flag inv f hinv a c.self.subscriptions_
      (((c.log (.unique_lock .invoke_mutex_)).log .lock).swap.log .unlock)
  | relay a => rfl

theorem run_script_flag
    (call : Call Args → Config Args W → Option (Config Args W)) (f : Bool)
    (p : Call Args → Prop)
    (hcall : ∀ cl, p cl → ∀ c, call cl (c.with_stopped f) =
      (call cl c).map (fun c1 => c1.with_stopped f))
    (s : Script Args W) (hs : s.Calls p) :
    ∀ c : Config Args W, run_script call s (c.with_stopped f) =
      (run_script call s c).map (fun r => (r.1, r.2.with_stopped f)) := by
  induction hs with
  | ret b w => intro c; rfl
  | call w cl k hcl hk ih =>
    intro c
    simp only [run_script]
    have e := hcall cl hcl { c with world := w }
    have e1 : ({ c.with_stopped f with world := w } : Config Args W) =
        Config.with_stopped { c with world := w } f := rfl
    rw [e1, e]
    cases hc : call cl { c with world := w } with
    | none => rfl
    | some c2 =>
      simp only [Option.map_some']
      exact ih c2.world c2

theorem call_handler_flag (code : handler → Args → W → Script Args W) (f : Bool)
    (hcode : ∀ h a w, (code h a w).Calls
      (fun cl => cl.is_start = false ∧ cl.is_stop = false ∧ cl.is_subscribe = false)) :
    ∀ fuel h a (c : Config Args W), call_handler code fuel h a (c.with_stopped f) =
      (call_handler code fuel h a c).map (fun r => (r.1, r.2.with_stopped f))
  | 0 => by
    intro h a c
    rfl
  | fuel + 1 => by
    intro h a c
    simp only [call_handler]
    have e := run_script_flag (exec (call_handler code fuel)) f _
      (fun cl hcl c => exec_flag _ f (call_handler_flag code f hcode fuel) cl hcl c)
      (code h a c.world) (hcode h a c.world)
      { c.log (.call h a) with depth := c.depth + 1 }
    have e1 : ({ (c.with_stopped f).log (.call h a) with depth := (c.with_stopped f).depth + 1 } :
        Config Args W) =
        Config.with_stopped { c.log (.call h a) with depth := c.depth + 1 } f := rfl
    have e2 : (c.with_stopped f).world = c.world := rfl
    rw [e1, e2, e]
    cases hrun : run_script (exec (call_handler code fuel)) (code h a c.world)
        { c.log (.call h a) with depth := c.depth + 1 } with
    | none => rfl
    | some r => rfl

theorem invoke_flag (code : handler → Args → W → Script Args W) (f : Bool)
    (hcode : ∀ h a w, (code h a w).Calls
      (fun cl => cl.is_start = false ∧ cl.is_stop = false ∧ cl.is_subscribe = false))
    (fuel : Nat) (args : Args) (c : Config Args W) :
    invoke (call_handler code fuel) args (c.with_stopped f) =
      (invoke (call_handler code fuel) args c).map (fun c1 => c1.with_stopped f) :=
  exec_flag _ f (call_handler_flag code f hcode fuel) (.invoke args)
    ⟨rfl, rfl, rfl⟩ c

end flag_blind

section ordering
variable {Args W : Type}

theorem Script.calls_any (s : Script Args W) : s.Calls (fun _ => True) := by
  induction s with
  | ret b w => exact .ret b w
  | call w cl k ih => exact .call w cl k trivial ih

theorem getLast?_append_ne (t1 t2 : List (Nat × Event Args))
    (h1 : ∀ e ∈ t1.getLast?, e.2 ≠ .unlock_upgrade_and_lock)
    (h2 : ∀ e ∈ t2.getLast?, e.2 ≠ .unlock_upgrade_and_lock) :
    ∀ e ∈ (t1 ++ t2).getLast?, e.2 ≠ .unlock_upgrade_and_lock := by
  intro e he
  rw [List.getLast?_append] at he
  cases hlast : t2.getLast? with
  | none =>
    rw [hlast] at he
    exact h1 e (by simpa using he)
  | some e2 =>
    rw [hlast] at he
    have he2 : some e2 = some e := he
    cases he2
    exact h2 e hlast

theorem subscribed_append_nil (t1 t2 : List (Nat × Event Args))
    (h1 : ∀ e ∈ t1.getLast?, e.2 ≠ .unlock_upgrade_and_lock)
    (h : subscribed (t1 ++ t2) = []) : subscribed t1 = [] ∧ subscribed t2 = [] := by
  have hl : ∀ d, t1.getLast? ≠ some (d, .unlock_upgrade_and_lock) := by
    intro d he
    exact h1 _ he rfl
  rw [subscribed_append _ _ hl] at h
  exact List.append_eq_nil.mp h

theorem orders_nothing (c : Config Args W) (w : W) : Orders c { c with world := w } :=
  ⟨[], by simp, by simp, fun _ => List.Sublist.refl _⟩

theorem orders_followed {c c1 c2 : Config Args W} (h1 : Orders c c1) (h2 : Orders c1 c2) :
    Orders c c2 := by
  obtain ⟨t1, e1, u1, l1⟩ := h1
  obtain ⟨t2, e2, u2, l2⟩ := h2
  refine ⟨t1 ++ t2, by rw [e2, e1, List.append_assoc], getLast?_append_ne t1 t2 u1 u2, ?_⟩
  intro hs
  obtain ⟨s1, s2⟩ := subscribed_append_nil t1 t2 u1 hs
  exact (l2 s2).trans (l1 s1)

theorem orders_quiet (c c1 : Config Args W) (t : List (Nat × Event Args))
    (ht : c1.trace = c.trace ++ t) (hn : ∀ e ∈ t, e.2 ≠ .unlock_upgrade_and_lock)
    (hl : c1.self.subscriptions_ = c.self.subscriptions_) : Orders c c1 :=
  ⟨t, ht, fun e he => hn e (List.mem_of_getLast?_eq_some he), fun _ => by rw [hl]⟩

theorem do_invoke_loop_orders
    (inv : handler → Args → Config Args W → Option (Bool × Config Args W))
    (hinv : ∀ h a c b c1, inv h a c = some (b, c1) → Orders c c1)
    (args : Args) (l : List handler) :
    ∀ c c1 : Config Args W, do_invoke_loop inv args l c = some c1 →
      ∃ t, c1.trace = c.trace ++ t ∧ (∀ e ∈ t.getLast?, e.2 ≠ .unlock_upgrade_and_lock) ∧
        (subscribed t = [] →
          c1.self.subscriptions_.Sublist (c.self.subscriptions_ ++ l)) := by
  induction l with
  | nil =>
    intro c c1 h
    simp only [do_invoke_loop, Option.some.injEq] at h
    subst h
    exact ⟨[], by simp, by simp, fun _ => by simp⟩
  | cons h rest ih =>
    intro c c1 hr
    simp only [do_invoke_loop] at hr
    cases hi : inv h args c with
    | none => simp [hi] at hr
    | some r =>
      obtain ⟨b, c2⟩ := r
      obtain ⟨t1, e1, u1, l1⟩ := hinv h args c b c2 hi
      cases b with
      | true =>
        simp only [hi] at hr
        obtain ⟨t2, e2, u2, l2⟩ := ih _ c1 hr
        have u3 : ∀ e ∈ ([(c2.depth, Event.unique_lock Mutex.subscribe_mutex_),
            (c2.depth, Event.emplace_back h)] : List (Nat × Event Args)).getLast?,
            e.2 ≠ .unlock_upgrade_and_lock := by simp
        refine ⟨t1 ++ ([(c2.depth, .unique_lock .subscribe_mutex_),
          (c2.depth, .emplace_back h)] ++ t2), ?_, ?_, ?_⟩
        · simp [e2, e1, Config.emplace_back, Config.log]
        · exact getLast?_append_ne _ _ u1 (getLast?_append_ne _ _ u3 u2)
        · intro hs
          obtain ⟨s1, s23⟩ := subscribed_append_nil _ _ u1 hs
          obtain ⟨-, s3⟩ := subscribed_append_nil _ _ u3 s23
          refine (l2 s3).trans ?_
          have : ((c2.log (.unique_lock .subscribe_mutex_)).emplace_back h).self.subscriptions_ =
              c2.self.subscriptions_ ++ [h] := rfl
          rw [this, List.append_assoc]
          exact (l1 s1).append (List.Sublist.refl _)
      | false =>
        simp only [hi] at hr
        obtain ⟨t2, e2, u2, l2⟩ := ih _ c1 hr
        refine ⟨t1 ++ t2, by simp [e2, e1], getLast?_append_ne _ _ u1 u2, ?_⟩
        intro hs
        obtain ⟨s1, s2⟩ := subscribed_append_nil _ _ u1 hs
        exact (l2 s2).trans ((l1 s1).append (List.sublist_cons_self h rest))

theorem invoke_orders
    (inv : handler → Args → Config Args W → Option (Bool × Config Args W))
    (hinv : ∀ h a c b c1, inv h a c = some (b, c1) → Orders c c1)
    (a : Args) (c c1 : Config Args W) (hr : invoke inv a c = some c1) : Orders c c1 := by
  simp only [invoke, do_invoke] at hr
  obtain ⟨t, ht, hu, hl⟩ := do_invoke_loop_orders inv hinv a _ _ c1 hr
  have u0 : ∀ e ∈ ([(c.depth, Event.unique_lock Mutex.invoke_mutex_), (c.depth, Event.lock),
      (c.depth, Event.swap), (c.depth, Event.unlock)] : List (Nat × Event Args)).getLast?,
      e.2 ≠ .unlock_upgrade_and_lock := by simp
  refine ⟨[(c.depth, .unique_lock .invoke_mutex_), (c.depth, .lock), (c.depth, .swap),
    (c.depth, .unlock)] ++ t, ?_, getLast?_append_ne _ _ u0 hu, ?_⟩
  · simp only [Config.log, Config.swap] at ht
    simp [ht]
  · intro hs
    obtain ⟨-, s2⟩ := subscribed_append_nil _ _ u0 hs
    simpa [Config.swap, Config.log] using hl s2

theorem exec_orders
    (inv : handler → Args → Config Args W → Option (Bool × Config Args W))
    (hinv : ∀ h a c b c1, inv h a c = some (b, c1) → Orders c c1)
    (cl : Call Args) (c c1 : Config Args W)
    (hr : exec inv cl c = some c1) : Orders c c1 := by
  cases cl with
  | start =>
    simp only [exec, Option.some.injEq] at hr
    subst hr
    refine ⟨_, start_trace c, ?_, fun _ => by rw [start_self]⟩
    cases c.self.stopped_ <;> simp
  | stop =>
    simp only [exec, Option.some.injEq] at hr
    subst hr
    refine ⟨_, stop_trace c, ?_, fun _ => by rw [stop_self]⟩
    cases c.self.stopped_ <;> simp
  | subscribe h x =>
    simp only [exec] at hr
    cases hs : c.self.stopped_ with
    | false =>
      rw [subscribe_started inv h x c hs, Option.some.injEq] at hr
      subst hr
      exact ⟨[(c.depth, .lock_upgrade), (c.depth, .unlock_upgrade_and_lock),
        (c.depth, .emplace_back h), (c.depth, .unlock)], rfl, by simp,
        fun hsub => by simp [subscribed] at hsub⟩
    | true =>
      rw [subscribe_stopped_eq inv h x c hs] at hr
      cases hi : inv h x ((c.log .lock_upgrade).log .unlock_upgrade) with
      | none => simp [hi] at hr
      | some r =>
        obtain ⟨b, c2⟩ := r
        simp only [hi, Option.map_some', Option.some.injEq] at hr
        subst hr
        have g1 : Orders c ((c.log .lock_upgrade).log .unlock_upgrade) :=
          orders_quiet _ _ [(c.depth, .lock_upgrade), (c.depth, .unlock_upgrade)]
            (by simp [Config.log]) (by simp) rfl
        exact orders_followed g1 (hinv h x ((c.log .lock_upgrade).log .unlock_upgrade) b c2 hi)
  | invoke a => exact invoke_orders inv hinv a c c1 hr
  | relay a =>
    simp only [exec, Option.some.injEq] at hr
    subst hr
    exact orders_quiet _ _ [(c.depth, .ordered a)] rfl (by simp) rfl

theorem call_handler_orders (code : handler → Args → W → Script Args W) :
    ∀ fuel h a (c : Config Args W) b c1, call_handler code fuel h a c = some (b, c1) →
      Orders c c1 :=
  call_handler_calls code Orders
    (fun c w => orders_nothing c w)
    (fun _ _ _ h1 h2 => orders_followed h1 h2)
    (fun c h a => orders_quiet _ _ [(c.depth, .call h a)] (by simp [Config.log]) (by simp) rfl)
    (fun c d h b => orders_quiet _ _ [(d, .ret h b)] (by simp [Config.log]) (by simp) rfl)
    (fun inv hinv cl _ c c1 hr => exec_orders inv hinv cl c c1 hr)
    (fun h a w => (code h a w).calls_any)

theorem invoke_keeps_order (code : handler → Args → W → Script Args W) (fuel : Nat)
    (a : Args) (c c1 : Config Args W) (hr : invoke (call_handler code fuel) a c = some c1)
    (hs : subscribed (since c c1) = []) :
    c1.self.subscriptions_.Sublist c.self.subscriptions_ := by
  obtain ⟨t, ht, -, hl⟩ := invoke_orders _ (call_handler_orders code fuel) a c c1 hr
  rw [since_eq c c1 t ht] at hs
  exact hl hs

end ordering

section claims
variable {Args W : Type}

/-- C1: when no subscriber of the list calls back into the notifier during the
round, `do_invoke(args)` returns, the handlers that returned during the round
are the pre-round list in order, and the live list afterwards is exactly the
sub-sequence of that list made of the entries whose call returned true, in
their original order; a subscriber none of whose calls returned true is absent
from it. -/
theorem do_invoke_keeps_those_returning_true
    (code : handler → Args → W → Script Args W) (n : Nat) (args : Args) (c : Config Args W)
    (hplain : ∀ h ∈ c.self.subscriptions_, ∀ w, (code h args w).isRet = true) :
    ∃ c1, do_invoke (call_handler code (n + 1)) args c = some c1 ∧
      (rets (since c c1)).map Prod.fst = c.self.subscriptions_ ∧
      (∀ r ∈ rets (since c c1), ∃ w w1, code r.1 args w = .ret r.2 w1) ∧
      c1.self.subscriptions_ =
        ((rets (since c c1)).filter (fun r => r.2)).map Prod.fst ∧
      c1.self.subscriptions_.Sublist c.self.subscriptions_ ∧
      ∀ h, (h, true) ∉ rets (since c c1) → h ∉ c1.self.subscriptions_ := by
  obtain ⟨c1, t, h1, h2, -, -, -, -, h7, h8, h9⟩ := do_invoke_plain code n args c hplain
  have hsince : since c c1 = t := since_eq c c1 t h2
  refine ⟨c1, h1, ?_⟩
  rw [hsince]
  refine ⟨h7, h9, h8, ?_, ?_⟩
  · rw [h8]
    conv_rhs => rw [← h7]
    exact (List.filter_sublist _).map _
  · intro h hno hin
    rw [h8] at hin
    obtain ⟨r, hr, rfl⟩ := List.mem_map.mp hin
    have hr2 := List.mem_filter.mp hr
    apply hno
    have : r = (r.1, true) := by
      cases r with
      | mk a b =>
        simp only at hr2
        simp [hr2.2]
    rw [← this]
    exact hr2.1

theorem do_invoke_keeps_those_returning_true_witness :
    (∀ h ∈ started12.self.subscriptions_, ∀ w, (drop_first h 42 w).isRet = true) ∧
    ∃ c1, do_invoke (call_handler drop_first 1) 42 started12 = some c1 ∧
      (rets (since started12 c1)).map Prod.fst = started12.self.subscriptions_ ∧
      (∀ r ∈ rets (since started12 c1), ∃ w w1, drop_first r.1 42 w = .ret r.2 w1) ∧
      c1.self.subscriptions_ =
        ((rets (since started12 c1)).filter (fun r => r.2)).map Prod.fst ∧
      c1.self.subscriptions_.Sublist started12.self.subscriptions_ ∧
      ∀ h, (h, true) ∉ rets (since started12 c1) → h ∉ c1.self.subscriptions_ :=
  ⟨fun _ _ _ => rfl,
    do_invoke_keeps_those_returning_true drop_first 0 42 started12 (fun _ _ _ => rfl)⟩

/-- C2: one delivery round `invoke(args)` on live list h1..hn calls each of
h1..hn exactly once, with `args`, in list order, and nothing else.  First:
whatever the handlers do in their bodies, the calls a returning round makes
itself are exactly these.  Second: when no handler of the list calls back into
the notifier, the round returns and these are all the handler calls made
during it.  Third: after `start(); subscribe(h1); subscribe(h2)` with h1 and
h2 returning true, `invoke(args)` calls h1 then h2, once each with `args`, and
both remain in the list. -/
theorem invoke_calls_each_subscriber_once_in_order
    (code : handler → Args → W → Script Args W) (args : Args) (c : Config Args W) :
    (∀ fuel c1, invoke (call_handler code fuel) args c = some c1 →
      calls (own c.depth (since c c1)) = c.self.subscriptions_.map (fun h => (h, args))) ∧
    ((∀ h ∈ c.self.subscriptions_, ∀ w, (code h args w).isRet = true) →
      ∀ n, ∃ c1, invoke (call_handler code (n + 1)) args c = some c1 ∧
        calls (since c c1) = c.self.subscriptions_.map (fun h => (h, args))) ∧
    (∀ (h1 h2 : handler) (x1 x2 : Args) (w : W) (n : Nat),
      (∀ v, ∃ v1, code h1 args v = .ret true v1) →
      (∀ v, ∃ v1, code h2 args v = .ret true v1) →
      ∃ c1, run code (n + 1)
          [.start, .subscribe h1 x1, .subscribe h2 x2, .invoke args] (construct w) = some c1 ∧
        calls c1.trace = [(h1, args), (h2, args)] ∧
        c1.self.subscriptions_ = [h1, h2]) := by
  refine ⟨?_, ?_, ?_⟩
  · intro fuel c1 hr
    obtain ⟨t, ht, hc, -⟩ := invoke_own (call_handler_bracketed code fuel) args c c1 hr
    rw [since_eq c c1 t ht]
    exact hc
  · intro hplain n
    obtain ⟨c1, t, h1, h2, -, -, -, h6, -⟩ := invoke_plain code n args c hplain
    exact ⟨c1, h1, by rw [since_eq c c1 t h2]; exact h6⟩
  · intro h1 h2 x1 x2 w n hh1 hh2
    rw [show ([.start, .subscribe h1 x1, .subscribe h2 x2, .invoke args] :
        List (Call Args)) = .start :: .subscribe h1 x1 :: .subscribe h2 x2 ::
          [.invoke args] from rfl, run_start_subscribe_two]
    obtain ⟨c1, t, g1, g2, -, -, g5, -, g7⟩ := invoke_const code n args (fun _ => true)
      { self := { stopped_ := false, subscriptions_ := [h1, h2] }
        dispatch_ := []
        world := w
        depth := 0
        trace := [(0, .lock_upgrade), (0, .unlock_upgrade_and_lock),
          (0, .set_stopped false), (0, .unlock),
          (0, .lock_upgrade), (0, .unlock_upgrade_and_lock),
          (0, .emplace_back h1), (0, .unlock),
          (0, .lock_upgrade), (0, .unlock_upgrade_and_lock),
          (0, .emplace_back h2), (0, .unlock)] }
      (by
        intro h hh v
        simp only [List.mem_cons, List.mem_singleton, List.not_mem_nil, or_false] at hh
        rcases hh with rfl | rfl
        · exact hh1 v
        · exact hh2 v)
    refine ⟨c1, ?_, ?_, ?_⟩
    · simp only [run, exec, g1]
    · rw [g2, calls_append, g5]
      simp [calls, Event.as_call]
    · rw [g7]
      simp

theorem invoke_calls_each_subscriber_once_in_order_witness :
    (∀ h ∈ started12.self.subscriptions_, ∀ w, (drop_first h 42 w).isRet = true) ∧
    (∃ c1, invoke (call_handler drop_first 1) 42 started12 = some c1 ∧
      calls (since started12 c1) = started12.self.subscriptions_.map (fun h => (h, 42))) ∧
    (∃ c1, invoke (call_handler resubscribing 1) 42 started12 = some c1 ∧
      calls (own started12.depth (since started12 c1)) =
        started12.self.subscriptions_.map (fun h => (h, 42))) ∧
    (∀ v, ∃ v1, counting 1 42 v = .ret true v1) ∧
    (∃ c1, run counting 1 [.start, .subscribe 1 0, .subscribe 2 0, .invoke 42]
        (construct 0) = some c1 ∧
      calls c1.trace = [(1, 42), (2, 42)] ∧ c1.self.subscriptions_ = [1, 2]) :=
  ⟨fun _ _ _ => rfl,
    (invoke_calls_each_subscriber_once_in_order drop_first 42 started12).2.1
      (fun _ _ _ => rfl) 0,
    ⟨_, rfl, (invoke_calls_each_subscriber_once_in_order resubscribing 42 started12).1 1 _ rfl⟩,
    fun _ => ⟨_, rfl⟩,
    (invoke_calls_each_subscriber_once_in_order counting 42 (construct 0)).2.2 1 2 0 0 0 0
      (fun _ => ⟨_, rfl⟩) (fun _ => ⟨_, rfl⟩)⟩

/-- C4: on a notifier that is not stopped `subscribe(h, x)` returns, appends h
at the end of the live list (the earlier entries unchanged, in the same order),
calls no handler, and leaves the flag not-stopped. -/
theorem subscribe_when_started_appends
    (inv : handler → Args → Config Args W → Option (Bool × Config Args W))
    (h : handler) (x : Args) (c : Config Args W) (hs : c.self.stopped_ = false) :
    ∃ c1, subscribe inv h x c = some c1 ∧
      c1.self.subscriptions_ = c.self.subscriptions_ ++ [h] ∧
      c1.self.stopped_ = false ∧
      calls (since c c1) = [] ∧
      since c c1 = [(c.depth, .lock_upgrade), (c.depth, .unlock_upgrade_and_lock),
        (c.depth, .emplace_back h), (c.depth, .unlock)] := by
  refine ⟨_, subscribe_started inv h x c hs, rfl, rfl, ?_, ?_⟩
  · simp [since, calls, Event.as_call]
  · simp [since]

theorem subscribe_when_started_appends_witness :
    started12.self.stopped_ = false ∧
    ∃ c1, subscribe (call_handler drop_first 0) 5 7 started12 = some c1 ∧
      c1.self.subscriptions_ = started12.self.subscriptions_ ++ [5] ∧
      c1.self.stopped_ = false ∧
      calls (since started12 c1) = [] ∧
      since started12 c1 = [(started12.depth, .lock_upgrade),
        (started12.depth, .unlock_upgrade_and_lock),
        (started12.depth, .emplace_back 5), (started12.depth, .unlock)] :=
  ⟨rfl, subscribe_when_started_appends (call_handler drop_first 0) 5 7 started12 rfl⟩

/-- C5: a freshly constructed notifier is stopped with an empty list; `stop()`
on it changes nothing of the object (it only takes and releases the upgrade
lock); and `construct; stop(); subscribe(h, x)`, for a handler that returns
without calling back, returns having called h exactly once, with x, and with
the list still empty and the flag still stopped. -/
theorem stop_without_start_then_subscribe
    (code : handler → Args → W → Script Args W) (h : handler) (x : Args) (w : W)
    (b : Bool) (w1 : W) (hret : code h x w = .ret b w1) (n : Nat) :
    (construct w : Config Args W).self = { stopped_ := true, subscriptions_ := [] } ∧
    (stop (construct w : Config Args W)).self = (construct w : Config Args W).self ∧
    since (construct w) (stop (construct w : Config Args W)) =
      [(0, .lock_upgrade), (0, .unlock_upgrade)] ∧
    ∃ c1, run code (n + 1) [.stop, .subscribe h x] (construct w) = some c1 ∧
      calls c1.trace = [(h, x)] ∧
      c1.self.subscriptions_ = [] ∧
      c1.self.stopped_ = true := by
  have hstop : stop (construct w : Config Args W) =
      { self := { stopped_ := true, subscriptions_ := [] }
        dispatch_ := []
        world := w
        depth := 0
        trace := [(0, .lock_upgrade), (0, .unlock_upgrade)] } := by
    simp [stop, construct, Config.log]
  refine ⟨rfl, by rw [hstop]; rfl, by rw [hstop]; rfl, ?_⟩
  refine ⟨
    { self := { stopped_ := true, subscriptions_ := [] }
      dispatch_ := []
      world := w1
      depth := 0
      trace := [(0, .lock_upgrade), (0, .unlock_upgrade), (0, .lock_upgrade),
        (0, .unlock_upgrade), (0, .call h x), (0, .ret h b)] }, ?_, ?_, rfl, rfl⟩
  · simp only [run, exec]
    rw [hstop, subscribe_stopped_ret code n h x _ b w1 rfl hret]
    simp
  · simp [calls, Event.as_call]

theorem stop_without_start_then_subscribe_witness :
    closing 1 "closed" () = .ret false () ∧
    (construct () : Config String Unit).self = { stopped_ := true, subscriptions_ := [] } ∧
    (stop (construct () : Config String Unit)).self = (construct () : Config String Unit).self ∧
    since (construct ()) (stop (construct () : Config String Unit)) =
      [(0, .lock_upgrade), (0, .unlock_upgrade)] ∧
    ∃ c1, run closing 1 [.stop, .subscribe 1 "closed"] (construct ()) = some c1 ∧
      calls c1.trace = [(1, "closed")] ∧
      c1.self.subscriptions_ = [] ∧
      c1.self.stopped_ = true :=
  ⟨rfl, stop_without_start_then_subscribe closing 1 "closed" () false () rfl 0⟩

/-- C6: `start` and `stop` are idempotent on the object: a second `start`
(or `stop`) leaves the data members as the first left them; `start` on a
notifier that is not stopped, like `stop` on a stopped one, leaves the data
members unchanged and only takes and releases the upgrade lock. -/
theorem start_stop_idempotent (c : Config Args W) :
    (start (start c)).self = (start c).self ∧
    (stop (stop c)).self = (stop c).self ∧
    (c.self.stopped_ = false →
      (start c).self = c.self ∧
      since c (start c) = [(c.depth, .lock_upgrade), (c.depth, .unlock_upgrade)]) ∧
    (c.self.stopped_ = true →
      (stop c).self = c.self ∧
      since c (stop c) = [(c.depth, .lock_upgrade), (c.depth, .unlock_upgrade)]) := by
  refine ⟨?_, ?_, ?_, ?_⟩
  · rw [start_self, start_self]
  · rw [stop_self, stop_self]
  · intro hs
    refine ⟨?_, ?_⟩
    · rw [start_self, ← hs]
    · rw [since_eq c (start c) _ (start_trace c)]
      simp [hs]
  · intro hs
    refine ⟨?_, ?_⟩
    · rw [stop_self, ← hs]
    · rw [since_eq c (stop c) _ (stop_trace c)]
      simp [hs]

theorem start_stop_idempotent_witness :
    started12.self.stopped_ = false ∧
    (construct () : Config Nat Unit).self.stopped_ = true ∧
    (start started12).self = started12.self ∧
    since started12 (start started12) = [(0, .lock_upgrade), (0, .unlock_upgrade)] ∧
    (stop (construct () : Config Nat Unit)).self = (construct () : Config Nat Unit).self ∧
    since (construct ()) (stop (construct () : Config Nat Unit)) =
      [(0, .lock_upgrade), (0, .unlock_upgrade)] :=
  ⟨rfl, rfl,
    ((start_stop_idempotent started12).2.2.1 rfl).1,
    ((start_stop_idempotent started12).2.2.1 rfl).2,
    ((start_stop_idempotent (construct () : Config Nat Unit)).2.2.2 rfl).1,
    ((start_stop_idempotent (construct () : Config Nat Unit)).2.2.2 rfl).2⟩

/-- C7: for every state `start()` yields `stopped_ = false` and `stop()` yields
`stopped_ = true`; neither changes the subscriber list, and neither calls a
handler. -/
theorem start_stop_change_only_the_flag (c : Config Args W) :
    (start c).self.stopped_ = false ∧
    (stop c).self.stopped_ = true ∧
    (start c).self.subscriptions_ = c.self.subscriptions_ ∧
    (stop c).self.subscriptions_ = c.self.subscriptions_ ∧
    calls (since c (start c)) = [] ∧
    calls (since c (stop c)) = [] ∧
    registered (since c (start c)) = [] ∧
    registered (since c (stop c)) = [] := by
  refine ⟨by rw [start_self], by rw [stop_self], by rw [start_self], by rw [stop_self],
    ?_, ?_, ?_, ?_⟩
  · rw [since_eq c (start c) _ (start_trace c)]
    cases c.self.stopped_ <;> simp [calls, Event.as_call]
  · rw [since_eq c (stop c) _ (stop_trace c)]
    cases c.self.stopped_ <;> simp [calls, Event.as_call]
  · rw [since_eq c (start c) _ (start_trace c)]
    cases c.self.stopped_ <;> simp [registered, Event.as_emplace_back]
  · rw [since_eq c (stop c) _ (stop_trace c)]
    cases c.self.stopped_ <;> simp [registered, Event.as_emplace_back]

/-- C9: for two consecutive rounds `invoke(a); invoke(b)` with no `subscribe`
in between and handlers that do not call back into the notifier, both rounds
return and the second calls, with b, exactly the subscribers whose call
returned true in the first round, once each and in the same order; a
subscriber none of whose calls returned true in the first round is not called
in the second.  In particular after `start(); subscribe(h1); subscribe(h2)`
with h1 returning false and h2 returning true, `invoke(a); invoke(b)` calls h1
once, with a only, and h2 twice, with a then b. -/
theorem second_round_calls_those_that_stayed
    (code : handler → Args → W → Script Args W) (n : Nat) (a b : Args) :
    (∀ c : Config Args W,
      (∀ h ∈ c.self.subscriptions_, ∀ w, (code h a w).isRet = true) →
      (∀ h ∈ c.self.subscriptions_, ∀ w, (code h b w).isRet = true) →
      ∃ c1 c2, invoke (call_handler code (n + 1)) a c = some c1 ∧
        invoke (call_handler code (n + 1)) b c1 = some c2 ∧
        (rets (since c c1)).map Prod.fst = c.self.subscriptions_ ∧
        calls (since c1 c2) =
          (((rets (since c c1)).filter (fun r => r.2)).map Prod.fst).map (fun h => (h, b)) ∧
        ∀ h, (h, true) ∉ rets (since c c1) → ∀ x, (h, x) ∉ calls (since c1 c2)) ∧
    (∀ (h1 h2 : handler) (x1 x2 : Args) (w : W),
      (∀ v, ∃ v1, code h1 a v = .ret false v1) →
      (∀ v, ∃ v1, code h2 a v = .ret true v1) →
      (∀ v, (code h2 b v).isRet = true) →
      ∃ c2, run code (n + 1)
          [.start, .subscribe h1 x1, .subscribe h2 x2, .invoke a, .invoke b]
          (construct w) = some c2 ∧
        calls c2.trace = [(h1, a), (h2, a), (h2, b)]) := by
  refine ⟨?_, ?_⟩
  · intro c ha hb
    obtain ⟨c1, t, h1, h2, -, -, -, -, h7, h8, -⟩ := invoke_plain code n a c ha
    have hsub : ∀ h ∈ c1.self.subscriptions_, h ∈ c.self.subscriptions_ := by
      intro h hh
      rw [h8] at hh
      obtain ⟨r, hr, rfl⟩ := List.mem_map.mp hh
      rw [← h7]
      exact List.mem_map_of_mem Prod.fst (List.mem_filter.mp hr).1
    obtain ⟨c2, t2, g1, g2, -, -, -, g6, -⟩ :=
      invoke_plain code n b c1 (fun h hh w => hb h (hsub h hh) w)
    refine ⟨c1, c2, h1, g1, ?_⟩
    rw [since_eq c c1 t h2, since_eq c1 c2 t2 g2]
    refine ⟨h7, by rw [g6, h8], ?_⟩
    intro h hno x hx
    rw [g6, h8] at hx
    obtain ⟨g, hg, hgx⟩ := List.mem_map.mp hx
    obtain ⟨r, hr, hrg⟩ := List.mem_map.mp hg
    have hr2 := List.mem_filter.mp hr
    simp only [Prod.mk.injEq] at hgx
    apply hno
    have : r = (h, true) := by
      cases r with
      | mk r1 r2 =>
        simp only at hr2 hrg
        simp [hr2.2, hrg, hgx.1]
    rw [← this]
    exact hr2.1
  · intro h1 h2 x1 x2 w hh1 hh2 hh2b
    have hne : h1 ≠ h2 := by
      intro he
      obtain ⟨v1, e1⟩ := hh1 w
      obtain ⟨v2, e2⟩ := hh2 w
      rw [he, e2] at e1
      injection e1 with hb _
      exact Bool.noConfusion hb
    rw [show ([.start, .subscribe h1 x1, .subscribe h2 x2, .invoke a, .invoke b] :
        List (Call Args)) = .start :: .subscribe h1 x1 :: .subscribe h2 x2 ::
          [.invoke a, .invoke b] from rfl, run_start_subscribe_two]
    obtain ⟨c1, t, g1, g2, -, -, g5, -, g7⟩ := invoke_const code n a (fun h => h == h2)
      { self := { stopped_ := false, subscriptions_ := [h1, h2] }
        dispatch_ := []
        world := w
        depth := 0
        trace := [(0, .lock_upgrade), (0, .unlock_upgrade_and_lock),
          (0, .set_stopped false), (0, .unlock),
          (0, .lock_upgrade), (0, .unlock_upgrade_and_lock),
          (0, .emplace_back h1), (0, .unlock),
          (0, .lock_upgrade), (0, .unlock_upgrade_and_lock),
          (0, .emplace_back h2), (0, .unlock)] }
      (by
        intro h hh v
        simp only [List.mem_cons, List.mem_singleton, List.not_mem_nil, or_false] at hh
        rcases hh with rfl | rfl
        · have : (h == h2) = false := by simpa using hne
          show ∃ w1, code h a v = Script.ret (h == h2) w1
          rw [this]
          exact hh1 v
        · simpa using hh2 v)
    have hlist : c1.self.subscriptions_ = [h2] := by
      rw [g7]
      simp [List.filter_cons, hne]
    obtain ⟨c2, t2, k1, k2, -, -, -, k6, -⟩ := invoke_plain code n b c1
      (by
        intro h hh v
        rw [hlist] at hh
        simp only [List.mem_singleton] at hh
        subst hh
        exact hh2b v)
    refine ⟨c2, ?_, ?_⟩
    · simp only [run, exec, g1, k1]
    · rw [k2, g2, calls_append, calls_append, g5, k6, hlist]
      simp [calls, Event.as_call]

theorem second_round_calls_those_that_stayed_witness :
    (∀ h ∈ started12.self.subscriptions_, ∀ w, (drop_first h 42 w).isRet = true) ∧
    (∀ h ∈ started12.self.subscriptions_, ∀ w, (drop_first h 43 w).isRet = true) ∧
    (∃ c1 c2, invoke (call_handler drop_first 1) 42 started12 = some c1 ∧
      invoke (call_handler drop_first 1) 43 c1 = some c2 ∧
      (rets (since started12 c1)).map Prod.fst = started12.self.subscriptions_ ∧
      calls (since c1 c2) =
        (((rets (since started12 c1)).filter (fun r => r.2)).map Prod.fst).map
          (fun h => (h, 43)) ∧
      ∀ h, (h, true) ∉ rets (since started12 c1) → ∀ x, (h, x) ∉ calls (since c1 c2)) ∧
    (∀ v, ∃ v1, drop_first 1 42 v = .ret false v1) ∧
    (∀ v, ∃ v1, drop_first 2 42 v = .ret true v1) ∧
    (∀ v, (drop_first 2 43 v).isRet = true) ∧
    (∃ c2, run drop_first 1
        [.start, .subscribe 1 0, .subscribe 2 0, .invoke 42, .invoke 43]
        (construct ()) = some c2 ∧
      calls c2.trace = [(1, 42), (2, 42), (2, 43)]) :=
  ⟨fun _ _ _ => rfl, fun _ _ _ => rfl,
    (second_round_calls_those_that_stayed drop_first 0 42 43).1 started12
      (fun _ _ _ => rfl) (fun _ _ _ => rfl),
    fun _ => ⟨_, rfl⟩, fun _ => ⟨_, rfl⟩, fun _ => rfl,
    (second_round_calls_those_that_stayed drop_first 0 42 43).2 1 2 0 0 ()
      (fun _ => ⟨_, rfl⟩) (fun _ => ⟨_, rfl⟩) (fun _ => rfl)⟩

/-- C10, as stated, fails: `start(); subscribe(2, 0); stop()` from the
constructed state returns and leaves the notifier stopped with the list `[2]`,
observed between operations; so the list is non-empty while the notifier is
stopped. -/
theorem stop_keeps_the_subscribers :
    (∃ c : Config Nat Unit,
      run drop_first 1 [.start, .subscribe 2 0, .stop] (construct ()) = some c ∧
      c.self.stopped_ = true ∧ c.self.subscriptions_ = [2]) ∧
    ¬ ∀ (ops : List (Call Nat)) (c : Config Nat Unit),
        run drop_first 1 ops (construct ()) = some c →
        c.self.subscriptions_ ≠ [] → c.self.stopped_ = false := by
  refine ⟨⟨_, rfl, rfl, rfl⟩, ?_⟩
  intro h
  have h1 := h [.start, .subscribe 2 0, .stop] _ rfl (by decide)
  exact absurd h1 (by decide)

/-- C12, on the code: in every call of `invoke` the swap of `do_invoke` is
preceded by the statement `unique_lock(invoke_mutex_);` and by
`subscribe_mutex_.lock()` only, and no other statement names `invoke_mutex_`.
On `invoke(42)` with subscribers 1 and 2: with that statement a declaration
of a local guard the thread holds nothing of `invoke_mutex_` at the swap; it
would hold it exclusively only if the statement were a guard on the member
living to the end of `invoke`. -/
theorem invoke_mutex_not_held_at_swap :
    (∀ (inv : handler → Nat → Config Nat Unit → Option (Bool × Config Nat Unit))
        (args : Nat) (c : Config Nat Unit),
      invoke inv args c = do_invoke_loop inv args c.self.subscriptions_
        { c with
          self := { c.self with subscriptions_ := [] }
          trace := c.trace ++ [(c.depth, .unique_lock .invoke_mutex_), (c.depth, .lock),
            (c.depth, .swap), (c.depth, .unlock)] }) ∧
    (∃ c1, invoke (call_handler drop_first 1) 42 started12 = some c1 ∧
      since started12 c1 =
        [(0, .unique_lock .invoke_mutex_), (0, .lock), (0, .swap), (0, .unlock),
         (0, .call 1 42), (0, .ret 1 false), (0, .call 2 42), (0, .ret 2 true),
         (0, .unique_lock .subscribe_mutex_), (0, .emplace_back 2)] ∧
      invoke_mutex_at_swaps false .free (since started12 c1) = [.free] ∧
      invoke_mutex_at_swaps true .free (since started12 c1) = [.exclusive]) := by
  refine ⟨?_, ⟨_, rfl, by decide, by decide, by decide⟩⟩
  intro inv args c
  simp [invoke, do_invoke, Config.log, Config.swap]

/-- C13, on the code: on `invoke(42)` with subscribers 1 and 2, 2 returning
true, the swap happens with `subscribe_mutex_` held exclusively, but the
append of 2 after its call happens with the mutex not held when
`unique_lock(subscribe_mutex_);` is a declaration of a local guard; it would
be held only if that statement were a guard on the member.  The append made
by `subscribe` happens with the mutex held exclusively under both readings. -/
theorem reappend_without_subscribe_mutex :
    (∃ c1, invoke (call_handler drop_first 1) 42 started12 = some c1 ∧
      held_at_writes false .free (since started12 c1) =
        [(.swap, .exclusive), (.emplace_back 2, .free)] ∧
      held_at_writes true .free (since started12 c1) =
        [(.swap, .exclusive), (.emplace_back 2, .exclusive)]) ∧
    (∃ c1, subscribe (call_handler drop_first 0) 5 7 started12 = some c1 ∧
      ∀ guarded, held_at_writes guarded .free (since started12 c1) =
        [(.emplace_back 5, .exclusive)]) := by
  refine ⟨⟨_, rfl, by decide, by decide⟩, ⟨_, rfl, ?_⟩⟩
  intro guarded
  cases guarded <;> decide

/-- C14: no handler is called while the calling thread holds
`subscribe_mutex_`.  For every call of a member function (and for
`do_invoke` run directly, as the dispatcher does) that returns, started by a
thread not holding the mutex, whatever the handlers do in their bodies and
under both readings of `unique_lock(subscribe_mutex_);`: the thread never
waits for itself, every handler call recorded, at any depth (the call made by
`subscribe` on the stopped path and the calls made by `do_invoke`), is made
with the mutex not held in any mode, and the thread ends not holding it. -/
theorem no_handler_called_with_subscribe_mutex_held
    (code : handler → Args → W → Script Args W) (fuel : Nat) (c c1 : Config Args W) :
    (∀ cl, exec (call_handler code fuel) cl c = some c1 →
      ∀ guarded, replay guarded .free (since c c1) = some .free ∧
        (held_at_calls guarded .free (since c c1)).length = (calls (since c c1)).length ∧
        ∀ s ∈ held_at_calls guarded .free (since c c1), s = .free) ∧
    (∀ args, do_invoke (call_handler code fuel) args c = some c1 →
      ∀ guarded, replay guarded .free (since c c1) = some .free ∧
        (held_at_calls guarded .free (since c c1)).length = (calls (since c c1)).length ∧
        ∀ s ∈ held_at_calls guarded .free (since c c1), s = .free) := by
  refine ⟨?_, ?_⟩
  · intro cl hr guarded
    obtain ⟨t, ht, hu⟩ := exec_calm (call_handler_unheld code fuel) cl c c1 hr
    rw [since_eq c c1 t ht]
    exact ⟨(hu guarded).1, held_at_calls_length guarded .free .free t (hu guarded).1,
      (hu guarded).2⟩
  · intro args hr guarded
    obtain ⟨t, ht, hu⟩ := do_invoke_calm (call_handler_unheld code fuel) args c c1 hr
    rw [since_eq c c1 t ht]
    exact ⟨(hu guarded).1, held_at_calls_length guarded .free .free t (hu guarded).1,
      (hu guarded).2⟩

theorem no_handler_called_with_subscribe_mutex_held_witness :
    ∃ c1 c2 : Config Nat Unit,
      exec (call_handler reinvoking 2) (.invoke 5) started123 = some c1 ∧
      calls (since started123 c1) = [(1, 5), (2, 5), (1, 7), (3, 5)] ∧
      (∀ guarded, replay guarded .free (since started123 c1) = some .free ∧
        (held_at_calls guarded .free (since started123 c1)).length =
          (calls (since started123 c1)).length ∧
        ∀ s ∈ held_at_calls guarded .free (since started123 c1), s = .free) ∧
      exec (call_handler restarting 2) (.subscribe 1 7) (construct ()) = some c2 ∧
      calls (since (construct ()) c2) = [(1, 7)] ∧
      (∀ guarded, replay guarded .free (since (construct ()) c2) = some .free ∧
        (held_at_calls guarded .free (since (construct ()) c2)).length =
          (calls (since (construct ()) c2)).length ∧
        ∀ s ∈ held_at_calls guarded .free (since (construct ()) c2), s = .free) :=
  ⟨_, _, rfl, by decide,
    (no_handler_called_with_subscribe_mutex_held reinvoking 2 started123 _).1
      (.invoke 5) rfl,
    rfl, by decide,
    (no_handler_called_with_subscribe_mutex_held restarting 2 (construct ()) _).1
      (.subscribe 1 7) rfl⟩

/-- C11, as stated, fails: after `start(); subscribe(1); subscribe(2)` and a
round `invoke(1)` in which handler 1 calls `subscribe(3)` from inside its body
and returns true, the handlers were registered by `subscribe` in the order 1,
2, 3, the live list is 3, 1, 2, and the next round `invoke(2)` calls 3 before
1 although 1 was registered before 3. -/
theorem subscriber_added_in_a_round_overtakes :
    ∃ c1 c2 : Config Nat Unit,
      run resubscribing 1 [.start, .subscribe 1 0, .subscribe 2 0, .invoke 1]
        (construct ()) = some c1 ∧
      subscribed c1.trace = [1, 2, 3] ∧
      c1.self.subscriptions_ = [3, 1, 2] ∧
      invoke (call_handler resubscribing 1) 2 c1 = some c2 ∧
      calls (since c1 c2) = [(3, 2), (1, 2), (2, 2)] :=
  ⟨_, _, rfl, by decide, by decide, rfl, by decide⟩

/-- C18: the destructor's assertion holds exactly when the subscriber list is
empty, and it holds after draining.  From any state, after `stop()`, one round
`invoke(args)` in which every subscriber of the list returns false, with
handlers that may call back into the notifier but never call `start`, leaves
the list empty whenever it returns, so the assertion holds; and with handlers
of the list that do not call back the round does return. -/
theorem drained_after_stop_and_final_round
    (code : handler → Args → W → Script Args W)
    (hns : ∀ h a w, (code h a w).NeverStarts) (args : Args) (c : Config Args W)
    (hf : ∀ h ∈ c.self.subscriptions_, ∀ w, (code h args w).ReturnsFalse) :
    (destructor_assertion c = true ↔ c.self.subscriptions_ = []) ∧
    (∀ fuel c1, invoke (call_handler code fuel) args (stop c) = some c1 →
      c1.self.subscriptions_ = [] ∧ destructor_assertion c1 = true) ∧
    ((∀ h ∈ c.self.subscriptions_, ∀ w, (code h args w).isRet = true) →
      ∀ n, ∃ c1, invoke (call_handler code (n + 1)) args (stop c) = some c1 ∧
        c1.self.subscriptions_ = [] ∧ destructor_assertion c1 = true) := by
  refine ⟨?_, ?_, ?_⟩
  · simp [destructor_assertion, List.isEmpty_iff]
  · intro fuel c1 hr
    have hq := invoke_after_stop_drains code hns fuel args c c1 hf hr
    exact ⟨hq.2, by simp [destructor_assertion, hq.2]⟩
  · intro hplain n
    obtain ⟨c1, t, h1, -⟩ := invoke_plain code n args (stop c)
      (by rw [stop_self]; exact hplain)
    have hq := invoke_after_stop_drains code hns (n + 1) args c c1 hf h1
    exact ⟨c1, h1, hq.2, by simp [destructor_assertion, hq.2]⟩

theorem drained_after_stop_and_final_round_witness :
    (∀ h a w, (leaving h a w).NeverStarts) ∧
    (∀ h ∈ started12.self.subscriptions_, ∀ w, (leaving h 5 w).ReturnsFalse) ∧
    (destructor_assertion started12 = true ↔ started12.self.subscriptions_ = []) ∧
    (∃ c1, invoke (call_handler leaving 2) 5 (stop started12) = some c1 ∧
      calls (since (stop started12) c1) = [(1, 5), (3, 0), (2, 5)] ∧
      c1.self.subscriptions_ = [] ∧ destructor_assertion c1 = true) ∧
    (∀ h ∈ started12s.self.subscriptions_, ∀ w, (closing h "closed" w).isRet = true) ∧
    (∃ c1, invoke (call_handler closing 1) "closed" (stop started12s) = some c1 ∧
      c1.self.subscriptions_ = [] ∧ destructor_assertion c1 = true) := by
  have hns : ∀ h a w, (leaving h a w).NeverStarts := by
    intro h a w
    unfold leaving
    split
    · exact .call w _ _ (by simp) (fun v => .ret false v)
    · exact .ret false w
  have hf : ∀ h ∈ started12.self.subscriptions_, ∀ w, (leaving h 5 w).ReturnsFalse := by
    intro h _ w
    unfold leaving
    split
    · exact .call w _ _ (fun v => .ret v)
    · exact .ret w
  have hr : invoke (call_handler leaving 2) 5 (stop started12) =
      some ((invoke (call_handler leaving 2) 5 (stop started12)).get rfl) := by
    rw [Option.some_get]
  refine ⟨hns, hf, (drained_after_stop_and_final_round leaving hns 5 started12 hf).1,
    ⟨_, hr, by decide,
      (drained_after_stop_and_final_round leaving hns 5 started12 hf).2.1 2 _ hr⟩,
    fun _ _ _ => rfl, ?_⟩
  exact (drained_after_stop_and_final_round closing (fun _ _ w => .ret false w) "closed"
    started12s (fun _ _ w => .ret w)).2.2 (fun _ _ _ => rfl) 0

/-- C20: a round `invoke(a)` on the list `pre ++ hi :: post` in which the
handler hi calls `invoke(b)` from inside its body and nothing else calls back
returns.  The calls the outer round makes itself are every subscriber of the
list once, with a, in order.  The calls made during it are, in order: the
subscribers of `pre` with a; hi with a; then, inside the call of hi, the
nested round: with b, exactly the subscribers of `pre` whose call returned
true (the live list at that moment), not hi, not those of `post`; then the
outer round goes on with the subscribers of `post`, once each, with a. -/
theorem nested_invoke_visits_those_already_kept
    (code : handler → Args → W → Script Args W) (n : Nat) (a b : Args) (c : Config Args W)
    (pre post : List handler) (hi : handler)
    (hl : c.self.subscriptions_ = pre ++ hi :: post)
    (hpre_a : ∀ h ∈ pre, ∀ w, (code h a w).isRet = true)
    (hpre_b : ∀ h ∈ pre, ∀ w, (code h b w).isRet = true)
    (hpost : ∀ h ∈ post, ∀ w, (code h a w).isRet = true)
    (hhi : ∀ w, ∃ w1 k, code hi a w = .call w1 (.invoke b) k ∧ ∀ v, (k v).isRet = true) :
    ∃ c1, invoke (call_handler code (n + 2)) a c = some c1 ∧
      calls (own c.depth (since c c1)) = (pre ++ hi :: post).map (fun h => (h, a)) ∧
      ((rets (since c c1)).take pre.length).map Prod.fst = pre ∧
      calls (since c c1) =
        pre.map (fun h => (h, a)) ++ (hi, a) ::
          ((((rets (since c c1)).take pre.length).filter (fun r => r.2)).map
              (fun r => (r.1, b)) ++
            post.map (fun h => (h, a))) := by
  obtain ⟨ca, ta, A1, A2, -, A4, -, A6, A7, A8, -⟩ := do_invoke_loop_plain code (n + 1) a pre hpre_a
    (((c.log (.unique_lock .invoke_mutex_)).log .lock).swap.log .unlock)
  have A8' : ca.self.subscriptions_ = ((rets ta).filter (fun r => r.2)).map Prod.fst := by
    rw [A8]
    simp [Config.swap, Config.log]
  obtain ⟨w1, k, hs, hk⟩ := hhi ca.world
  have hpl : ∀ h ∈ ca.self.subscriptions_, ∀ w, (code h b w).isRet = true := by
    intro h hh w
    rw [A8'] at hh
    obtain ⟨r, hr, rfl⟩ := List.mem_map.mp hh
    refine hpre_b r.1 ?_ w
    rw [← A7]
    exact List.mem_map_of_mem Prod.fst (List.mem_filter.mp hr).1
  obtain ⟨r, ch, tb, B1, B2, B3, B4, -⟩ := call_handler_invoking code n hi a b ca w1 k hs hk hpl
  have hlen : (rets ta).length = pre.length := by
    rw [← A7, List.length_map]
  cases r with
  | true =>
    obtain ⟨cf, tf, F1, F2, -, -, -, F6, -⟩ := do_invoke_loop_plain code (n + 1) a post hpost
      ((ch.log (.unique_lock .subscribe_mutex_)).emplace_back hi)
    have htr : cf.trace = c.trace ++
        ([(c.depth, .unique_lock .invoke_mutex_), (c.depth, .lock), (c.depth, .swap),
          (c.depth, .unlock)] ++ ta ++
          ((ca.depth, Event.call hi a) :: (tb ++ [(ca.depth, Event.ret hi true)])) ++
          [(ch.depth, .unique_lock .subscribe_mutex_), (ch.depth, .emplace_back hi)] ++ tf) := by
      rw [F2]
      simp only [Config.emplace_back, Config.log, B2, A2, Config.swap]
      simp
    have hsince := since_eq c cf _ htr
    have hnil : rets [(c.depth, Event.unique_lock Mutex.invoke_mutex_), (c.depth, Event.lock),
        (c.depth, Event.swap), (c.depth, (Event.unlock : Event Args))] = [] := by
      simp [rets, Event.as_ret]
    have htake : (rets (since c cf)).take pre.length = rets ta := by
      rw [hsince]
      simp only [rets_append, hnil, List.nil_append, List.append_assoc]
      exact List.take_left' hlen
    have hinv : invoke (call_handler code (n + 2)) a c = some cf := by
      simp only [invoke, do_invoke]
      have hl2 : ((c.log (Event.unique_lock Mutex.invoke_mutex_)).log
          Event.lock).self.subscriptions_ = pre ++ hi :: post := hl
      rw [hl2, do_invoke_loop_append]
      have A1' : do_invoke_loop (call_handler code (n + 2)) a pre
          (((c.log (.unique_lock .invoke_mutex_)).log .lock).swap.log .unlock) = some ca := A1
      rw [A1']
      simp only [Option.some_bind, do_invoke_loop, B1]
      exact F1
    refine ⟨cf, hinv, ?_, ?_, ?_⟩
    · obtain ⟨t, ht, hc, -⟩ := invoke_own (call_handler_bracketed code (n + 2)) a c cf hinv
      rw [since_eq c cf t ht, hc, hl]
    · rw [htake]
      exact A7
    · rw [htake, hsince]
      simp only [calls_append]
      rw [A6, F6]
      have hc1 : calls ((ca.depth, Event.call hi a) :: (tb ++ [(ca.depth, Event.ret hi true)])) =
          (hi, a) :: calls tb := by
        simp [calls, Event.as_call]
      rw [hc1, B4, A8']
      simp [calls, Event.as_call, List.map_map, Function.comp]
  | false =>
    obtain ⟨cf, tf, F1, F2, -, -, -, F6, -⟩ := do_invoke_loop_plain code (n + 1) a post hpost
      ch
    have htr : cf.trace = c.trace ++
        ([(c.depth, .unique_lock .invoke_mutex_), (c.depth, .lock), (c.depth, .swap),
          (c.depth, .unlock)] ++ ta ++
          ((ca.depth, Event.call hi a) :: (tb ++ [(ca.depth, Event.ret hi false)])) ++ tf) := by
      rw [F2]
      simp only [Config.emplace_back, Config.log, B2, A2, Config.swap]
      simp
    have hsince := since_eq c cf _ htr
    have hnil : rets [(c.depth, Event.unique_lock Mutex.invoke_mutex_), (c.depth, Event.lock),
        (c.depth, Event.swap), (c.depth, (Event.unlock : Event Args))] = [] := by
      simp [rets, Event.as_ret]
    have htake : (rets (since c cf)).take pre.length = rets ta := by
      rw [hsince]
      simp only [rets_append, hnil, List.nil_append, List.append_assoc]
      exact List.take_left' hlen
    have hinv : invoke (call_handler code (n + 2)) a c = some cf := by
      simp only [invoke, do_invoke]
      have hl2 : ((c.log (Event.unique_lock Mutex.invoke_mutex_)).log
          Event.lock).self.subscriptions_ = pre ++ hi :: post := hl
      rw [hl2, do_invoke_loop_append]
      have A1' : do_invoke_loop (call_handler code (n + 2)) a pre
          (((c.log (.unique_lock .invoke_mutex_)).log .lock).swap.log .unlock) = some ca := A1
      rw [A1']
      simp only [Option.some_bind, do_invoke_loop, B1]
      exact F1
    refine ⟨cf, hinv, ?_, ?_, ?_⟩
    · obtain ⟨t, ht, hc, -⟩ := invoke_own (call_handler_bracketed code (n + 2)) a c cf hinv
      rw [since_eq c cf t ht, hc, hl]
    · rw [htake]
      exact A7
    · rw [htake, hsince]
      simp only [calls_append]
      rw [A6, F6]
      have hc1 : calls ((ca.depth, Event.call hi a) :: (tb ++ [(ca.depth, Event.ret hi false)])) =
          (hi, a) :: calls tb := by
        simp [calls, Event.as_call]
      rw [hc1, B4, A8']
      simp [calls, Event.as_call, List.map_map, Function.comp]

theorem nested_invoke_visits_those_already_kept_witness :
    started123.self.subscriptions_ = [1] ++ 2 :: [3] ∧
    (∀ w, ∃ w1 k, reinvoking 2 5 w = .call w1 (.invoke 7) k ∧ ∀ v, (k v).isRet = true) ∧
    ∃ c1, invoke (call_handler reinvoking 2) 5 started123 = some c1 ∧
      calls (own 0 (since started123 c1)) = [(1, 5), (2, 5), (3, 5)] ∧
      ((rets (since started123 c1)).take 1).map Prod.fst = [1] ∧
      calls (since started123 c1) = [(1, 5), (2, 5), (1, 7), (3, 5)] ∧
      invoke_mutex_at_swaps false .free (since started123 c1) = [.free, .free] := by
  have hhi : ∀ w, ∃ w1 k, reinvoking 2 5 w = .call w1 (.invoke 7) k ∧
      ∀ v, (k v).isRet = true :=
    fun w => ⟨w, fun v => .ret true v, rfl, fun _ => rfl⟩
  obtain ⟨c1, h1, h2, h3, -⟩ :=
    nested_invoke_visits_those_already_kept reinvoking 0 5 7 started123 [1] [3] 2 rfl
      (fun h hh _ => by rw [List.mem_singleton.mp hh]; rfl)
      (fun h hh _ => by rw [List.mem_singleton.mp hh]; rfl)
      (fun h hh _ => by rw [List.mem_singleton.mp hh]; rfl) hhi
  have hx : some c1 = some ((invoke (call_handler reinvoking 2) 5 started123).get rfl) := by
    rw [Option.some_get]
    exact h1.symm
  have hc : c1 = (invoke (call_handler reinvoking 2) 5 started123).get rfl :=
    Option.some.inj hx
  refine ⟨rfl, hhi, c1, h1, h2, h3, ?_, ?_⟩
  · rw [hc]
    decide
  · rw [hc]
    decide

/-- C16, with the ordered dispatcher modelled from the spec: `relay(x)` only
puts `do_invoke(x)` at the back of the dispatcher's queue and returns, so a
unit relayed earlier is ahead in the queue; and when a is ahead of b in the
queue, with handlers that do not call back, the dispatcher reaches the unit
of a, runs the round of a to its end (all calls and appends), runs the units
queued in between, and only then starts the round of b, in a trace that
extends the one the round of a left. -/
theorem relayed_rounds_run_in_submission_order
    (code : handler → Args → W → Script Args W)
    (hplain : ∀ h a w, (code h a w).isRet = true) (n : Nat) (a b : Args)
    (q1 q2 q3 : List Args) (c : Config Args W)
    (hq : c.dispatch_ = q1 ++ a :: (q2 ++ b :: q3)) :
    (∀ (x : Args) (c0 : Config Args W),
      (relay x c0).dispatch_ = c0.dispatch_ ++ [x] ∧ (relay x c0).self = c0.self ∧
      since c0 (relay x c0) = [(c0.depth, .ordered x)]) ∧
    ∃ ca ca1 cb cb1,
      dispatch_run (call_handler code (n + 1)) q1.length c = some ca ∧
      ca.dispatch_ = a :: (q2 ++ b :: q3) ∧
      do_invoke (call_handler code (n + 1)) a { ca with dispatch_ := q2 ++ b :: q3 } =
        some ca1 ∧
      calls (since ca ca1) = ca.self.subscriptions_.map (fun h => (h, a)) ∧
      dispatch_run (call_handler code (n + 1)) q2.length ca1 = some cb ∧
      cb.dispatch_ = b :: q3 ∧
      (∃ t, cb.trace = ca1.trace ++ t) ∧
      do_invoke (call_handler code (n + 1)) b { cb with dispatch_ := q3 } = some cb1 ∧
      calls (since cb cb1) = cb.self.subscriptions_.map (fun h => (h, b)) ∧
      dispatch_run (call_handler code (n + 1)) (q1.length + 1 + q2.length + 1) c =
        some cb1 := by
  refine ⟨fun x c0 => ⟨rfl, rfl, by simp [since, relay, Config.log]⟩, ?_⟩
  obtain ⟨ca, A1, A2, -⟩ := dispatch_run_plain code hplain n q1 _ c hq
  obtain ⟨ca1, ta, B1, B2, -, -, B5, B6, -⟩ := do_invoke_plain code n a
    { ca with dispatch_ := q2 ++ b :: q3 } (fun h _ w => hplain h a w)
  obtain ⟨cb, C1, C2, tc, C3⟩ := dispatch_run_plain code hplain n q2 _ ca1 B5
  obtain ⟨cb1, tb, D1, D2, -, -, -, D6, -⟩ := do_invoke_plain code n b
    { cb with dispatch_ := q3 } (fun h _ w => hplain h b w)
  refine ⟨ca, ca1, cb, cb1, A1, A2, B1, ?_, C1, C2, ⟨tc, C3⟩, D1, ?_, ?_⟩
  · rw [since_eq ca ca1 ta B2]
    exact B6
  · rw [since_eq cb cb1 tb D2]
    exact D6
  · have e1 : dispatch_run (call_handler code (n + 1)) 1 ca = some ca1 := by
      simp only [dispatch_run, A2, B1]
    have e2 : dispatch_run (call_handler code (n + 1)) 1 cb = some cb1 := by
      simp only [dispatch_run, C2, D1]
    rw [dispatch_run_add, dispatch_run_add, dispatch_run_add, A1]
    simp only [Option.some_bind, e1, C1, e2]

theorem relayed_rounds_run_in_submission_order_witness :
    (∀ h a w, (drop_first h a w).isRet = true) ∧
    (relay 8 (relay 7 started12)).dispatch_ = [] ++ 7 :: ([] ++ 8 :: []) ∧
    ∃ ca ca1 cb cb1 : Config Nat Unit,
      dispatch_run (call_handler drop_first 1) 0 (relay 8 (relay 7 started12)) = some ca ∧
      ca.dispatch_ = [7, 8] ∧
      do_invoke (call_handler drop_first 1) 7 { ca with dispatch_ := [8] } = some ca1 ∧
      calls (since ca ca1) = ca.self.subscriptions_.map (fun h => (h, 7)) ∧
      dispatch_run (call_handler drop_first 1) 0 ca1 = some cb ∧
      cb.dispatch_ = [8] ∧
      (∃ t, cb.trace = ca1.trace ++ t) ∧
      do_invoke (call_handler drop_first 1) 8 { cb with dispatch_ := [] } = some cb1 ∧
      calls (since cb cb1) = cb.self.subscriptions_.map (fun h => (h, 8)) ∧
      dispatch_run (call_handler drop_first 1) 2 (relay 8 (relay 7 started12)) = some cb1 :=
  ⟨fun _ _ _ => rfl, rfl,
    (relayed_rounds_run_in_submission_order drop_first (fun _ _ _ => rfl) 0 7 8 [] [] []
      (relay 8 (relay 7 started12)) rfl).2⟩

/-- C3, as stated, fails for a handler that calls back into the notifier.  On
the freshly constructed (stopped) notifier, `subscribe(1, 7)` with a handler 1
that calls `start()` from inside its body returns with the flag not stopped.
On a stopped notifier with the list 1, 2, 3, `subscribe(2, 5)` with a handler 2
that calls `invoke(7)` from inside its body, handler 3 asking to be removed,
returns with the list 1, 2. -/
theorem handler_calls_back_during_subscribe :
    ((construct () : Config Nat Unit).self.stopped_ = true ∧
      ∃ c1, subscribe (call_handler restarting 2) 1 7 (construct ()) = some c1 ∧
        calls (since (construct ()) c1) = [(1, 7)] ∧
        c1.self.stopped_ = false) ∧
    ((started123.with_stopped true).self.stopped_ = true ∧
      (started123.with_stopped true).self.subscriptions_ = [1, 2, 3] ∧
      ∃ c1, subscribe (call_handler mixed 2) 2 5 (started123.with_stopped true) = some c1 ∧
        c1.self.subscriptions_ = [1, 2]) :=
  ⟨⟨rfl, _, rfl, by decide, rfl⟩, ⟨rfl, rfl, _, rfl, by decide⟩⟩

/-- C3, amended: on a stopped notifier `subscribe(h, x)` itself calls h exactly
once, with x, before returning, and itself neither appends h nor writes the
flag, whatever h returns.  First: `subscribe` hands the object to h as it
found it, after `lock_upgrade` and `unlock_upgrade`, and returns exactly when
that call of h returns, with the object as the call left it.  Second: the
statements a returning `subscribe` executes itself are `lock_upgrade`,
`unlock_upgrade`, the call `h(x)` and its return.  Third: with handlers whose
bodies make no call of `start` or `invoke`, the object is unchanged when
`subscribe` returns:
same list, flag still stopped.  Fourth: when h returns (any boolean b) without
calling back into the notifier, `subscribe` returns, these four statements are
all that happened, and the object is unchanged. -/
theorem subscribe_when_stopped_calls_handler_once
    (code : handler → Args → W → Script Args W) (h : handler) (x : Args) (c : Config Args W)
    (hs : c.self.stopped_ = true) :
    (∃ c0 : Config Args W, c0.self = c.self ∧ c0.world = c.world ∧ c0.depth = c.depth ∧
      since c c0 = [(c.depth, .lock_upgrade), (c.depth, .unlock_upgrade)] ∧
      ∀ fuel, subscribe (call_handler code fuel) h x c =
        (call_handler code fuel h x c0).map Prod.snd) ∧
    (∀ fuel c1, subscribe (call_handler code fuel) h x c = some c1 →
      ∃ b, own c.depth (since c c1) =
        [(c.depth, .lock_upgrade), (c.depth, .unlock_upgrade),
         (c.depth, .call h x), (c.depth, .ret h b)]) ∧
    ((∀ g a w, (code g a w).Calls (fun cl => cl.is_start = false ∧ cl.is_invoke = false)) →
      ∀ fuel c1, subscribe (call_handler code fuel) h x c = some c1 →
        c1.self = c.self ∧
        c1.self.subscriptions_ = c.self.subscriptions_ ∧
        c1.self.stopped_ = true) ∧
    (∀ b w, code h x c.world = .ret b w →
      ∀ n, ∃ c1, subscribe (call_handler code (n + 1)) h x c = some c1 ∧
        since c c1 =
          [(c.depth, .lock_upgrade), (c.depth, .unlock_upgrade),
           (c.depth, .call h x), (c.depth, .ret h b)] ∧
        calls (since c c1) = [(h, x)] ∧
        c1.self.subscriptions_ = c.self.subscriptions_ ∧
        c1.self.stopped_ = true ∧
        c1.self = c.self) := by
  refine ⟨?_, ?_, ?_, ?_⟩
  · refine ⟨(c.log .lock_upgrade).log .unlock_upgrade, rfl, rfl, rfl, ?_, ?_⟩
    · simp [since, Config.log]
    · intro fuel
      exact subscribe_stopped_eq (call_handler code fuel) h x c hs
  · intro fuel c1 hr
    exact subscribe_stopped_own code h x c hs fuel c1 hr
  · intro hcode fuel c1 hr
    have hself : c1.self = c.self :=
      exec_keeps_self (call_handler code fuel) (call_handler_keeps_self code hcode fuel)
        (.subscribe h x) ⟨rfl, rfl⟩ c c1 hr hs
    exact ⟨hself, by rw [hself], by rw [hself]; exact hs⟩
  · intro b w hret n
    refine ⟨_, subscribe_stopped_ret code n h x c b w hs hret, ?_, ?_, rfl, hs, rfl⟩
    · simp [since]
    · simp [since, calls, Event.as_call]

theorem subscribe_when_stopped_calls_handler_once_witness :
    (construct () : Config Nat Unit).self.stopped_ = true ∧
    (∃ c0 : Config Nat Unit, c0.self = (construct () : Config Nat Unit).self ∧
      since (construct ()) c0 = [(0, .lock_upgrade), (0, .unlock_upgrade)] ∧
      subscribe (call_handler restarting 2) 1 7 (construct ()) =
        (call_handler restarting 2 1 7 c0).map Prod.snd) ∧
    (∃ c1, subscribe (call_handler restarting 2) 1 7 (construct ()) = some c1 ∧
      ∃ b, own 0 (since (construct ()) c1) =
        [(0, .lock_upgrade), (0, .unlock_upgrade), (0, .call 1 7), (0, .ret 1 b)]) ∧
    (∀ g a w, (leaving g a w).Calls (fun cl => cl.is_start = false ∧ cl.is_invoke = false)) ∧
    (∃ c1, subscribe (call_handler leaving 2) 1 7 (construct ()) = some c1 ∧
      calls (since (construct ()) c1) = [(1, 7), (3, 0)] ∧
      c1.self = (construct () : Config Nat Unit).self) ∧
    drop_first 1 7 () = .ret false () ∧
    (∃ c1, subscribe (call_handler drop_first 1) 1 7 (construct ()) = some c1 ∧
      since (construct ()) c1 =
        [(0, .lock_upgrade), (0, .unlock_upgrade), (0, .call 1 7), (0, .ret 1 false)] ∧
      calls (since (construct ()) c1) = [(1, 7)] ∧
      c1.self.subscriptions_ = [] ∧
      c1.self.stopped_ = true ∧
      c1.self = (construct () : Config Nat Unit).self) := by
  have hcode : ∀ g a w, (leaving g a w).Calls
      (fun cl => cl.is_start = false ∧ cl.is_invoke = false) := by
    intro g a w
    unfold leaving
    split
    · exact .call w _ _ ⟨rfl, rfl⟩ (fun v => .ret false v)
    · exact .ret false w
  obtain ⟨c0, e1, -, -, e2, e3⟩ :=
    (subscribe_when_stopped_calls_handler_once restarting 1 7 (construct ()) rfl).1
  exact ⟨rfl, ⟨c0, e1, e2, e3 2⟩,
    ⟨_, rfl, (subscribe_when_stopped_calls_handler_once restarting 1 7
      (construct ()) rfl).2.1 2 _ rfl⟩,
    hcode,
    ⟨_, rfl, by decide, ((subscribe_when_stopped_calls_handler_once leaving 1 7
      (construct ()) rfl).2.2.1 hcode 2 _ rfl).1⟩,
    rfl,
    (subscribe_when_stopped_calls_handler_once drop_first 1 7
      (construct ()) rfl).2.2.2 false () rfl 0⟩

/-- C8, as stated, fails when a handler calls `invoke` from inside its body.
On the started notifier with subscribers 1 and 2, in the round `invoke(5)`
handler 1 calls `subscribe(3, 0)`, which appends 3, and handler 2 then calls
`invoke(7)`: that inner round detaches 3 and calls it, 3 returns false and is
not appended again.  When the round `invoke(5)` ends the live list is 1, 2
without 3, and the next round `invoke(6)` does not call 3.  Besides, a handler
appended from inside a body is called in that same round when it was in the
detached list already: with subscribers 1, 2 and 3, handler 1 calling
`subscribe(3, 0)`, the round `invoke(5)` calls 3. -/
theorem nested_round_drops_new_subscriber :
    started12.self.stopped_ = false ∧
    (∃ c1 c2 : Config Nat Unit,
      invoke (call_handler mixed 2) 5 started12 = some c1 ∧
      (1, Event.emplace_back 3) ∈ since started12 c1 ∧
      subscribed (since started12 c1) = [3] ∧
      calls (since started12 c1) = [(1, 5), (2, 5), (3, 7), (1, 7)] ∧
      c1.self.subscriptions_ = [1, 2] ∧
      3 ∉ c1.self.subscriptions_ ∧
      invoke (call_handler mixed 2) 6 c1 = some c2 ∧
      calls (since c1 c2) = [(1, 6), (2, 6)]) ∧
    started123.self.stopped_ = false ∧
    (∃ c1 : Config Nat Unit,
      invoke (call_handler resubscribing 1) 5 started123 = some c1 ∧
      (1, Event.emplace_back 3) ∈ since started123 c1 ∧
      calls (since started123 c1) = [(1, 5), (2, 5), (3, 5)]) :=
  ⟨rfl,
    ⟨_, _, rfl, by decide, by decide, by decide, by decide, by decide, rfl, by decide⟩,
    rfl, ⟨_, rfl, by decide, by decide⟩⟩

/-- C8, amended: with handlers whose bodies make no call of `invoke`, in a
round `invoke(a)` a handler h3 appended by a `subscribe` made from inside a handler
body (an `emplace_back` recorded deeper than the round) is not called by that
round unless it was in the detached list already (the round itself calls
exactly the handlers of the list detached at its start), no acquisition of
`subscribe_mutex_` in the round finds it held, whichever way the statement
`unique_lock(subscribe_mutex_);` is read, h3 is in the live list when the
round ends, and the next round `invoke(b)` calls h3 with b.  On a started
notifier with handlers whose bodies make no call of `invoke` or `stop`, both
rounds return, and the handler calls made during each are exactly those of its
detached list. -/
theorem subscribe_during_round_waits_for_next_round
    (code : handler → Args → W → Script Args W) (a b : Args) (c : Config Args W) :
    ((∀ h x w, (code h x w).Calls (fun cl => cl.is_invoke = false)) →
      ∀ fuel c1, invoke (call_handler code fuel) a c = some c1 →
        calls (own c.depth (since c c1)) = c.self.subscriptions_.map (fun h => (h, a)) ∧
        (∀ guarded, replay guarded .free (since c c1) = some .free) ∧
        ∀ h3 d, c.depth < d → (d, Event.emplace_back h3) ∈ since c c1 →
          (h3 ∉ c.self.subscriptions_ → ∀ x, (h3, x) ∉ calls (own c.depth (since c c1))) ∧
          h3 ∈ c1.self.subscriptions_ ∧
          ∀ fuel2 c2, invoke (call_handler code fuel2) b c1 = some c2 →
            (h3, b) ∈ calls (own c1.depth (since c1 c2))) ∧
    ((∀ h x w, (code h x w).Calls (fun cl => cl.is_invoke = false ∧ cl.is_stop = false)) →
      c.self.stopped_ = false →
      ∀ n, ∃ c1 c2, invoke (call_handler code (n + 1)) a c = some c1 ∧
        invoke (call_handler code (n + 1)) b c1 = some c2 ∧
        calls (since c c1) = c.self.subscriptions_.map (fun h => (h, a)) ∧
        (∀ guarded, replay guarded .free (since c c1) = some .free) ∧
        calls (since c1 c2) = c1.self.subscriptions_.map (fun h => (h, b)) ∧
        ∀ h3 d, c.depth < d → (d, Event.emplace_back h3) ∈ since c c1 →
          (h3 ∉ c.self.subscriptions_ → ∀ x, (h3, x) ∉ calls (since c c1)) ∧
          h3 ∈ c1.self.subscriptions_ ∧
          (h3, b) ∈ calls (since c1 c2)) := by
  refine ⟨?_, ?_⟩
  · intro hcode fuel c1 hr
    obtain ⟨t, ht, hc, -⟩ := invoke_own (call_handler_bracketed code fuel) a c c1 hr
    obtain ⟨t2, ht2, hu⟩ := exec_calm (call_handler_unheld code fuel) (.invoke a) c c1 hr
    obtain ⟨t3, ht3, hl⟩ := invoke_grows code hcode fuel a c c1 hr
    refine ⟨?_, ?_, ?_⟩
    · rw [since_eq c c1 t ht]
      exact hc
    · intro g
      rw [since_eq c c1 t2 ht2]
      exact (hu g).1
    · intro h3 d _ hm
      rw [since_eq c c1 t3 ht3] at hm
      have hin : h3 ∈ c1.self.subscriptions_ := by
        rw [hl]
        exact mem_registered t3 d h3 hm
      refine ⟨?_, hin, ?_⟩
      · intro hnot x hx
        rw [since_eq c c1 t ht, hc] at hx
        obtain ⟨g, hg, hgx⟩ := List.mem_map.mp hx
        simp only [Prod.mk.injEq] at hgx
        exact hnot (hgx.1 ▸ hg)
      · intro fuel2 c2 hr2
        obtain ⟨t4, ht4, hc4, -⟩ := invoke_own (call_handler_bracketed code fuel2) b c1 c2 hr2
        rw [since_eq c1 c2 t4 ht4, hc4]
        exact List.mem_map.mpr ⟨h3, hin, rfl⟩
  · intro hcode hs n
    obtain ⟨c1, t, h1, h2, -, h4, h5, h6, h8⟩ := invoke_registers code hcode n a c hs
    obtain ⟨c2, t2, g1, g2, -, -, -, g6, -⟩ := invoke_registers code hcode n b c1 h4
    refine ⟨c1, c2, h1, g1, ?_⟩
    rw [since_eq c c1 t h2, since_eq c1 c2 t2 g2]
    refine ⟨h6, h8, g6, ?_⟩
    intro h3 d _ hm
    have hin : h3 ∈ c1.self.subscriptions_ := by
      rw [h5]
      exact mem_registered t d h3 hm
    refine ⟨?_, hin, ?_⟩
    · intro hnot x hx
      rw [h6] at hx
      obtain ⟨g, hg, hgx⟩ := List.mem_map.mp hx
      simp only [Prod.mk.injEq] at hgx
      exact hnot (hgx.1 ▸ hg)
    · rw [g6]
      exact List.mem_map.mpr ⟨h3, hin, rfl⟩

theorem subscribe_during_round_waits_for_next_round_witness :
    (∀ h x w, (resubscribing h x w).Calls
      (fun cl => cl.is_invoke = false ∧ cl.is_stop = false)) ∧
    (∀ h x w, (resubscribing h x w).Calls (fun cl => cl.is_invoke = false)) ∧
    started12.self.stopped_ = false ∧
    (∃ c1 c2, invoke (call_handler resubscribing 1) 1 started12 = some c1 ∧
      invoke (call_handler resubscribing 1) 2 c1 = some c2 ∧
      started12.depth < 1 ∧
      (1, Event.emplace_back 3) ∈ since started12 c1 ∧
      3 ∉ started12.self.subscriptions_ ∧
      (∀ x, (3, x) ∉ calls (own started12.depth (since started12 c1))) ∧
      3 ∈ c1.self.subscriptions_ ∧
      (3, 2) ∈ calls (own c1.depth (since c1 c2))) ∧
    (∃ c1 c2, invoke (call_handler resubscribing 1) 1 started12 = some c1 ∧
      invoke (call_handler resubscribing 1) 2 c1 = some c2 ∧
      calls (since started12 c1) = started12.self.subscriptions_.map (fun h => (h, 1)) ∧
      calls (since c1 c2) = c1.self.subscriptions_.map (fun h => (h, 2))) := by
  have hcode : ∀ h x w, (resubscribing h x w).Calls
      (fun cl => cl.is_invoke = false ∧ cl.is_stop = false) := by
    intro h x w
    unfold resubscribing
    split
    · exact .call w _ _ ⟨rfl, rfl⟩ (fun v => .ret true v)
    · exact .ret true w
  have hcode1 : ∀ h x w, (resubscribing h x w).Calls (fun cl => cl.is_invoke = false) := by
    intro h x w
    unfold resubscribing
    split
    · exact .call w _ _ rfl (fun v => .ret true v)
    · exact .ret true w
  have hA := ((subscribe_during_round_waits_for_next_round resubscribing 1 2 started12).1
    hcode1 1 _ rfl).2.2 3 1 (by decide) (by decide)
  obtain ⟨c1, c2, h1, h2, h3, -, h5, -⟩ :=
    (subscribe_during_round_waits_for_next_round resubscribing 1 2 started12).2 hcode rfl 0
  exact ⟨hcode, hcode1, rfl,
    ⟨_, _, rfl, rfl, by decide, by decide, by decide, hA.1 (by decide), hA.2.1,
      hA.2.2 1 _ rfl⟩,
    ⟨c1, c2, h1, h2, h3, h5⟩⟩

/-- C10, amended: with handlers whose bodies make no call of `start`, every
sequence of calls without `start` from the constructed state leaves, when it returns, the
notifier stopped with an empty list; and from any stopped state every call
other than `start` leaves, when it returns, the notifier stopped and adds no
subscriber (the list afterwards is a sub-sequence of the list before).  With
handlers that do not call back into the notifier these calls do return.
`stop()` keeps the list as it is. -/
theorem list_grows_only_while_started
    (code : handler → Args → W → Script Args W) :
    ((∀ h a w, (code h a w).NeverStarts) →
      ∀ fuel (ops : List (Call Args)) (w : W) (c : Config Args W), Call.start ∉ ops →
        run code fuel ops (construct w) = some c →
        c.self.stopped_ = true ∧ c.self.subscriptions_ = []) ∧
    ((∀ h a w, (code h a w).NeverStarts) →
      ∀ fuel (c c1 : Config Args W) (cl : Call Args), c.self.stopped_ = true → cl ≠ .start →
        exec (call_handler code fuel) cl c = some c1 →
        c1.self.stopped_ = true ∧
        c1.self.subscriptions_.Sublist c.self.subscriptions_) ∧
    ((∀ h a w, (code h a w).isRet = true) →
      ∀ n (ops : List (Call Args)) (w : W), Call.start ∉ ops →
        ∃ c, run code (n + 1) ops (construct w) = some c ∧
          c.self.stopped_ = true ∧ c.self.subscriptions_ = []) ∧
    ((∀ h a w, (code h a w).isRet = true) →
      ∀ n (c : Config Args W) (cl : Call Args), c.self.stopped_ = true → cl ≠ .start →
        ∃ c1, exec (call_handler code (n + 1)) cl c = some c1 ∧
          c1.self.stopped_ = true ∧
          c1.self.subscriptions_.Sublist c.self.subscriptions_) ∧
    (∀ c : Config Args W, (stop c).self.subscriptions_ = c.self.subscriptions_) := by
  refine ⟨?_, ?_, ?_, ?_, ?_⟩
  · intro hns fuel ops w c hno hr
    obtain ⟨h1, h2⟩ := run_shrinks code hns fuel ops (construct w) c hno hr rfl
    exact ⟨h1, List.sublist_nil.mp h2⟩
  · intro hns fuel c c1 cl hs hcl hr
    exact exec_shrinks _ (call_handler_shrinks code hns fuel) cl hcl c c1 hr hs
  · intro hplain n ops w hno
    exact run_without_start code hplain n ops (construct w) hno rfl rfl
  · intro hplain n c cl hs hcl
    exact exec_stopped_plain code hplain n c cl hs hcl
  · intro c
    rw [stop_self]

theorem list_grows_only_while_started_witness :
    (∀ h a w, (leaving h a w).NeverStarts) ∧
    (∃ c, run leaving 3 [.stop, .subscribe 1 7, .invoke 42, .subscribe 2 8]
        (construct ()) = some c ∧
      calls c.trace = [(1, 7), (3, 0), (2, 8)] ∧
      c.self.stopped_ = true ∧ c.self.subscriptions_ = []) ∧
    (∃ c1, exec (call_handler leaving 3) (.invoke 5) (stop started12) = some c1 ∧
      calls (since (stop started12) c1) = [(1, 5), (3, 0), (2, 5)] ∧
      c1.self.stopped_ = true ∧
      c1.self.subscriptions_.Sublist (stop started12).self.subscriptions_) ∧
    (∀ h a w, (drop_first h a w).isRet = true) ∧
    (∃ c, run drop_first 1 [.stop, .subscribe 1 7, .invoke 42, .subscribe 2 8]
        (construct ()) = some c ∧
      c.self.stopped_ = true ∧ c.self.subscriptions_ = []) ∧
    (∃ c1, exec (call_handler drop_first 1) (.invoke 42) (stop started12) = some c1 ∧
      c1.self.stopped_ = true ∧
      c1.self.subscriptions_.Sublist (stop started12).self.subscriptions_) := by
  have hns : ∀ h a w, (leaving h a w).NeverStarts := by
    intro h a w
    unfold leaving
    split
    · exact .call w _ _ (by decide) (fun v => .ret false v)
    · exact .ret false w
  have h1 := (list_grows_only_while_started leaving).1 hns 3
    [.stop, .subscribe 1 7, .invoke 42, .subscribe 2 8] () _ (by decide) rfl
  have h2 := (list_grows_only_while_started leaving).2.1 hns 3 (stop started12) _
    (.invoke 5) rfl (by decide) rfl
  exact ⟨hns, ⟨_, rfl, by decide, h1.1, h1.2⟩, ⟨_, rfl, by decide, h2.1, h2.2⟩,
    fun _ _ _ => rfl,
    (list_grows_only_while_started drop_first).2.2.1 (fun _ _ _ => rfl) 0
      [.stop, .subscribe 1 7, .invoke 42, .subscribe 2 8] () (by decide),
    (list_grows_only_while_started drop_first).2.2.2.1 (fun _ _ _ => rfl) 0
      (stop started12) (.invoke 42) rfl (by decide)⟩

/-- C11, amended: every delivery round visits the subscribers in the order of
the live list at its start, whatever the handlers do in their bodies; a round
during which `subscribe` appends no handler leaves a sub-sequence of the list
it found; and `subscribe` on a notifier that is not stopped appends at the end
of the list.  So in every execution from the constructed state with handlers
whose bodies make no call of `subscribe`, the order of the list is
registration order:
the live list is a sub-sequence of the handlers appended by `subscribe`, in
the order of those appends.  With handlers that do not call back into the
notifier every such execution and the round after it return, and the round
calls exactly the list, in order. -/
theorem rounds_visit_in_list_order
    (code : handler → Args → W → Script Args W) (args : Args) :
    (∀ fuel (c c1 : Config Args W), invoke (call_handler code fuel) args c = some c1 →
      calls (own c.depth (since c c1)) = c.self.subscriptions_.map (fun h => (h, args)) ∧
      (subscribed (since c c1) = [] →
        c1.self.subscriptions_.Sublist c.self.subscriptions_)) ∧
    (∀ fuel (h : handler) (x : Args) (c : Config Args W), c.self.stopped_ = false →
      ∃ c1, subscribe (call_handler code fuel) h x c = some c1 ∧
        subscribed (since c c1) = [h] ∧
        c1.self.subscriptions_ = c.self.subscriptions_ ++ [h]) ∧
    ((∀ h a w, (code h a w).Calls (fun cl => cl.is_subscribe = false)) →
      ∀ fuel (ops : List (Call Args)) (w : W) (c : Config Args W),
        run code fuel ops (construct w) = some c →
        c.self.subscriptions_.Sublist (subscribed c.trace)) ∧
    ((∀ h a w, (code h a w).isRet = true) →
      ∀ (n : Nat) (ops : List (Call Args)) (w : W),
        ∃ c c1, run code (n + 1) ops (construct w) = some c ∧
          c.self.subscriptions_.Sublist (subscribed c.trace) ∧
          invoke (call_handler code (n + 1)) args c = some c1 ∧
          calls (since c c1) = c.self.subscriptions_.map (fun h => (h, args))) := by
  refine ⟨?_, ?_, ?_, ?_⟩
  · intro fuel c c1 hr
    obtain ⟨t, ht, hc, -⟩ := invoke_own (call_handler_bracketed code fuel) args c c1 hr
    refine ⟨?_, invoke_keeps_order code fuel args c c1 hr⟩
    rw [since_eq c c1 t ht]
    exact hc
  · intro fuel h x c hs
    refine ⟨_, subscribe_started _ h x c hs, ?_, rfl⟩
    simp [since, subscribed]
  · intro hcode fuel ops w c hr
    exact run_registration code hcode fuel ops (construct w) c hr
      (List.Sublist.refl _) (by simp [construct])
  · intro hplain n ops w
    obtain ⟨c, h1, h2⟩ := run_plain_registration code hplain n ops (construct w)
      (List.Sublist.refl _) (by simp [construct])
    obtain ⟨c1, t, g1, g2, -, -, -, g6, -⟩ :=
      invoke_plain code n args c (fun h _ v => hplain h args v)
    exact ⟨c, c1, h1, h2, g1, by rw [since_eq c c1 t g2]; exact g6⟩

theorem rounds_visit_in_list_order_witness :
    (∃ c1, invoke (call_handler resubscribing 1) 2 started12 = some c1 ∧
      calls (own started12.depth (since started12 c1)) =
        started12.self.subscriptions_.map (fun h => (h, 2))) ∧
    (∃ c1, invoke (call_handler reinvoking 2) 5 started123 = some c1 ∧
      subscribed (since started123 c1) = [] ∧
      c1.self.subscriptions_ = [1, 2] ∧
      c1.self.subscriptions_.Sublist started123.self.subscriptions_) ∧
    started12.self.stopped_ = false ∧
    (∃ c1, subscribe (call_handler drop_first 0) 5 7 started12 = some c1 ∧
      subscribed (since started12 c1) = [5] ∧
      c1.self.subscriptions_ = started12.self.subscriptions_ ++ [5]) ∧
    (∀ h a w, (reinvoking h a w).Calls (fun cl => cl.is_subscribe = false)) ∧
    (∃ c, run reinvoking 2
        [.start, .subscribe 1 0, .subscribe 2 0, .subscribe 3 0, .invoke 5, .subscribe 3 0]
        (construct ()) = some c ∧
      subscribed c.trace = [1, 2, 3, 3] ∧
      c.self.subscriptions_ = [1, 2, 3] ∧
      c.self.subscriptions_.Sublist (subscribed c.trace)) ∧
    (∀ h a w, (drop_first h a w).isRet = true) ∧
    (∃ c c1, run drop_first 1
        [.start, .subscribe 1 0, .subscribe 2 0, .subscribe 3 0, .invoke 5, .subscribe 1 0]
        (construct ()) = some c ∧
      c.self.subscriptions_.Sublist (subscribed c.trace) ∧
      invoke (call_handler drop_first 1) 42 c = some c1 ∧
      calls (since c c1) = c.self.subscriptions_.map (fun h => (h, 42))) := by
  have hcode : ∀ h a w, (reinvoking h a w).Calls (fun cl => cl.is_subscribe = false) := by
    intro h a w
    unfold reinvoking
    split
    · exact .call w _ _ rfl (fun v => .ret true v)
    · exact .ret _ w
  exact ⟨⟨_, rfl, ((rounds_visit_in_list_order resubscribing 2).1 1 started12 _ rfl).1⟩,
    ⟨_, rfl, by decide, by decide,
      ((rounds_visit_in_list_order reinvoking 5).1 2 started123 _ rfl).2 (by decide)⟩,
    rfl,
    (rounds_visit_in_list_order drop_first 0).2.1 0 5 7 started12 rfl,
    hcode,
    ⟨_, rfl, by decide, by decide,
      (rounds_visit_in_list_order reinvoking 0).2.2.1 hcode 2
        [.start, .subscribe 1 0, .subscribe 2 0, .subscribe 3 0, .invoke 5, .subscribe 3 0]
        () _ rfl⟩,
    fun _ _ _ => rfl,
    (rounds_visit_in_list_order drop_first 42).2.2.2 (fun _ _ _ => rfl) 0
      [.start, .subscribe 1 0, .subscribe 2 0, .subscribe 3 0, .invoke 5, .subscribe 1 0] ()⟩

/-- C15, on the code: on `invoke(5)` with subscribers 1, 2 and 3, handler 2
calling `invoke(7)` from inside its body, the round started by `invoke(7)`
swaps the list and calls handler 1 between the outer round's call of handler 2
and its call of handler 3: at the second swap two rounds are in flight.
Nothing keeps the second round out: read as a declaration of a local guard,
`unique_lock(invoke_mutex_);` leaves `invoke_mutex_` free at both swaps; read
as a guard on the member, the trace would stop before the second swap.  For
comparison, on `invoke(5); invoke(6)` with handlers that do not call back, one
round is in flight at each of the two swaps. -/
theorem second_round_in_flight_inside_first :
    (∃ c1 : Config Nat Unit,
      invoke (call_handler reinvoking 2) 5 started123 = some c1 ∧
      since started123 c1 =
        [(0, .unique_lock .invoke_mutex_), (0, .lock), (0, .swap), (0, .unlock),
         (0, .call 1 5), (0, .ret 1 true),
         (0, .unique_lock .subscribe_mutex_), (0, .emplace_back 1),
         (0, .call 2 5),
         (1, .unique_lock .invoke_mutex_), (1, .lock), (1, .swap), (1, .unlock),
         (1, .call 1 7), (1, .ret 1 true),
         (1, .unique_lock .subscribe_mutex_), (1, .emplace_back 1),
         (0, .ret 2 true),
         (0, .unique_lock .subscribe_mutex_), (0, .emplace_back 2),
         (0, .call 3 5), (0, .ret 3 false)] ∧
      calls (since started123 c1) = [(1, 5), (2, 5), (1, 7), (3, 5)] ∧
      rounds_in_flight [] (since started123 c1) = [1, 2] ∧
      invoke_mutex_at_swaps false .free (since started123 c1) = [.free, .free] ∧
      invoke_mutex_at_swaps true .free (since started123 c1) = [.exclusive]) ∧
    (∃ c1 c2 : Config Nat Unit,
      invoke (call_handler drop_first 1) 5 started123 = some c1 ∧
      invoke (call_handler drop_first 1) 6 c1 = some c2 ∧
      rounds_in_flight [] (since started123 c2) = [1, 1]) :=
  ⟨⟨_, rfl, by decide, by decide, by decide, by decide, by decide⟩,
    ⟨_, _, rfl, rfl, by decide⟩⟩

/-- C17, as stated, fails when a handler calls back into the notifier.  On the
list 1, 2 with handler 1 calling `subscribe(3, 0)` from inside its body and
every handler returning false, `invoke(5)` calls 1 and 2 and leaves the list 3
when the flag is not stopped, but calls 1, 3 and 2 and leaves the list empty
when the flag is stopped.  And `invoke` does not leave the flag as it found it
when a handler calls `start()`, or `stop()`, from inside its body. -/
theorem flag_decides_a_subscribe_made_in_a_round :
    (started12.with_stopped true).self.subscriptions_ = started12.self.subscriptions_ ∧
    (∃ c1 c2 : Config Nat Unit,
      invoke (call_handler leaving 2) 5 started12 = some c1 ∧
      invoke (call_handler leaving 2) 5 (started12.with_stopped true) = some c2 ∧
      calls (since started12 c1) = [(1, 5), (2, 5)] ∧
      c1.self.subscriptions_ = [3] ∧
      calls (since (started12.with_stopped true) c2) = [(1, 5), (3, 0), (2, 5)] ∧
      c2.self.subscriptions_ = []) ∧
    (∃ c1 : Config Nat Unit,
      invoke (call_handler restarting 2) 5 (started12.with_stopped true) = some c1 ∧
      (started12.with_stopped true).self.stopped_ = true ∧
      c1.self.stopped_ = false) ∧
    (∃ c1 : Config Nat Unit,
      invoke (call_handler halting 2) 5 started12 = some c1 ∧
      started12.self.stopped_ = false ∧
      c1.self.stopped_ = true) :=
  ⟨rfl, ⟨_, _, rfl, rfl, by decide, by decide, by decide, by decide⟩,
    ⟨_, rfl, rfl, by decide⟩, ⟨_, rfl, rfl, by decide⟩⟩

/-- C17, amended: `stop` does not affect delivery with handlers whose bodies
make no call of `subscribe`, `start` or `stop`.  For such handlers, whatever else they do,
`invoke(args)` on the same list gives the same run whether `stopped_` is true
or false: it returns in the one case exactly when it returns in the other, the
two final states differ only in the flag, so the handler calls made and the
resulting list are the same, and `invoke` leaves the flag as it found it.
With handlers that do not call back into the notifier `invoke` returns.  In
particular after `start(); subscribe(h); stop()`, `invoke(args)` still calls
h and, h returning true, appends it again. -/
theorem delivery_ignores_the_flag
    (code : handler → Args → W → Script Args W) (args : Args) :
    ((∀ h a w, (code h a w).Calls
        (fun cl => cl.is_start = false ∧ cl.is_stop = false ∧ cl.is_subscribe = false)) →
      ∀ fuel (c : Config Args W) (f : Bool),
        invoke (call_handler code fuel) args (c.with_stopped f) =
          (invoke (call_handler code fuel) args c).map (fun c1 => c1.with_stopped f) ∧
        ∀ c1, invoke (call_handler code fuel) args c = some c1 →
          invoke (call_handler code fuel) args (c.with_stopped f) =
            some (c1.with_stopped f) ∧
          calls (since (c.with_stopped f) (c1.with_stopped f)) = calls (since c c1) ∧
          (c1.with_stopped f).self.subscriptions_ = c1.self.subscriptions_ ∧
          c1.self.stopped_ = c.self.stopped_ ∧
          (c1.with_stopped f).self.stopped_ = f) ∧
    (∀ (n : Nat) (c : Config Args W),
      (∀ h ∈ c.self.subscriptions_, ∀ w, (code h args w).isRet = true) →
      ∀ f, ∃ c1 c2, invoke (call_handler code (n + 1)) args c = some c1 ∧
        invoke (call_handler code (n + 1)) args (c.with_stopped f) = some c2 ∧
        c2 = c1.with_stopped f ∧
        calls (since (c.with_stopped f) c2) = calls (since c c1) ∧
        c2.self.subscriptions_ = c1.self.subscriptions_ ∧
        c1.self.stopped_ = c.self.stopped_ ∧
        c2.self.stopped_ = f) ∧
    (∀ (n : Nat) (h : handler) (x : Args) (w : W),
      (∀ v, ∃ v1, code h args v = .ret true v1) →
      ∃ c1, run code (n + 1) [.start, .subscribe h x, .stop, .invoke args]
          (construct w) = some c1 ∧
        calls c1.trace = [(h, args)] ∧
        c1.self.subscriptions_ = [h] ∧
        c1.self.stopped_ = true) := by
  refine ⟨?_, ?_, ?_⟩
  · intro hcode fuel c f
    refine ⟨invoke_flag code f hcode fuel args c, ?_⟩
    intro c1 hr
    refine ⟨?_, rfl, rfl, ?_, rfl⟩
    · rw [invoke_flag code f hcode fuel args c, hr]
      rfl
    · have e := invoke_flag code c.self.stopped_ hcode fuel args c
      have ec : c.with_stopped c.self.stopped_ = c := rfl
      rw [ec, hr] at e
      have e2 : c1 = c1.with_stopped c.self.stopped_ := Option.some.inj e
      exact congrArg (fun k => k.self.stopped_) e2
  · intro n c hplain f
    obtain ⟨c1, t, h1, -, h3, -⟩ := invoke_plain code n args c hplain
    have h2 := invoke_with_stopped code n args f c hplain
    rw [h1] at h2
    exact ⟨c1, c1.with_stopped f, h1, h2, rfl, rfl, rfl, h3, rfl⟩
  · intro n h x w hh
    have hstart : start (construct w : Config Args W) =
        { self := { stopped_ := false, subscriptions_ := [] }
          dispatch_ := []
          world := w
          depth := 0
          trace := [(0, .lock_upgrade), (0, .unlock_upgrade_and_lock),
            (0, .set_stopped false), (0, .unlock)] } := by
      simp [start, construct, Config.log, Config.set_stopped]
    simp only [run, exec, hstart]
    rw [subscribe_started _ h x _ rfl]
    simp only
    obtain ⟨c1, t, g1, g2, g3, -, g5, -, g7⟩ := invoke_const code n args (fun _ => true)
      (stop
        { self := { stopped_ := false, subscriptions_ := [] ++ [h] }
          dispatch_ := []
          world := w
          depth := 0
          trace := [(0, Event.lock_upgrade), (0, Event.unlock_upgrade_and_lock),
            (0, Event.set_stopped false), (0, Event.unlock)] ++
            [(0, Event.lock_upgrade), (0, Event.unlock_upgrade_and_lock),
              (0, Event.emplace_back h), (0, Event.unlock)] })
      (by
        intro g hg v
        rw [stop_self] at hg
        simp only [List.nil_append, List.mem_singleton] at hg
        subst hg
        exact hh v)
    refine ⟨c1, ?_, ?_, ?_, ?_⟩
    · rw [g1]
    · rw [g2, calls_append, g5, stop_trace, stop_self]
      simp [calls, Event.as_call]
    · rw [g7, stop_self]
      simp
    · rw [g3, stop_self]

theorem delivery_ignores_the_flag_witness :
    (∀ h a w, (reinvoking h a w).Calls
      (fun cl => cl.is_start = false ∧ cl.is_stop = false ∧ cl.is_subscribe = false)) ∧
    (∃ c1, invoke (call_handler reinvoking 2) 5 started123 = some c1 ∧
      invoke (call_handler reinvoking 2) 5 (started123.with_stopped true) =
        some (c1.with_stopped true) ∧
      calls (since (started123.with_stopped true) (c1.with_stopped true)) =
        calls (since started123 c1) ∧
      (c1.with_stopped true).self.subscriptions_ = c1.self.subscriptions_ ∧
      c1.self.stopped_ = started123.self.stopped_ ∧
      (c1.with_stopped true).self.stopped_ = true) ∧
    (∀ h ∈ started12.self.subscriptions_, ∀ w, (drop_first h 42 w).isRet = true) ∧
    (∃ c1 c2, invoke (call_handler drop_first 1) 42 started12 = some c1 ∧
      invoke (call_handler drop_first 1) 42 (started12.with_stopped true) = some c2 ∧
      c2 = c1.with_stopped true ∧
      calls (since (started12.with_stopped true) c2) = calls (since started12 c1) ∧
      c2.self.subscriptions_ = c1.self.subscriptions_ ∧
      c1.self.stopped_ = started12.self.stopped_ ∧
      c2.self.stopped_ = true) ∧
    (∀ v, ∃ v1, counting 1 42 v = .ret true v1) ∧
    (∃ c1, run counting 1 [.start, .subscribe 1 0, .stop, .invoke 42] (construct 0) = some c1 ∧
      calls c1.trace = [(1, 42)] ∧
      c1.self.subscriptions_ = [1] ∧
      c1.self.stopped_ = true) := by
  have hcode : ∀ h a w, (reinvoking h a w).Calls
      (fun cl => cl.is_start = false ∧ cl.is_stop = false ∧ cl.is_subscribe = false) := by
    intro h a w
    unfold reinvoking
    split
    · exact .call w _ _ ⟨rfl, rfl, rfl⟩ (fun v => .ret true v)
    · exact .ret _ w
  exact ⟨hcode,
    ⟨_, rfl, ((delivery_ignores_the_flag reinvoking 5).1 hcode 2 started123 true).2 _ rfl⟩,
    fun _ _ _ => rfl,
    (delivery_ignores_the_flag drop_first 42).2.1 0 started12 (fun _ _ _ => rfl) true,
    fun _ => ⟨_, rfl⟩,
    (delivery_ignores_the_flag counting 42).2.2 0 1 0 0 (fun _ => ⟨_, rfl⟩)⟩

/-- C19: check, then upgrade only for a transition.  `start()` on a started
notifier and `stop()` on a stopped one execute exactly `lock_upgrade` then
`unlock_upgrade` and leave the data members as they are; `subscribe()` on a
stopped notifier executes, of the statements that name a mutex, exactly these
two among its own statements (whatever the handler does) and hands the data
members unchanged to the handler, and, for a handler that does not call back,
these two are the lock operations of the whole call and the data members are
unchanged at the end; none takes the exclusive lock.  `start()` when stopped,
`stop()` when started and `subscribe()` when started execute `lock_upgrade`,
`unlock_upgrade_and_lock`, the write, then `unlock`, and the write is
performed: the flag becomes not-stopped, respectively stopped, with the list
unchanged, respectively the handler becomes the last entry of the list with
the flag unchanged. -/
theorem check_then_maybe_upgrade
    (code : handler → Args → W → Script Args W) (h : handler) (x : Args) (c : Config Args W) :
    (c.self.stopped_ = false →
      since c (start c) = [(c.depth, .lock_upgrade), (c.depth, .unlock_upgrade)] ∧
      (start c).self = c.self) ∧
    (c.self.stopped_ = true →
      since c (stop c) = [(c.depth, .lock_upgrade), (c.depth, .unlock_upgrade)] ∧
      (stop c).self = c.self) ∧
    (c.self.stopped_ = true →
      (∀ fuel c1, subscribe (call_handler code fuel) h x c = some c1 →
        lock_ops (own c.depth (since c c1)) =
          [(c.depth, .lock_upgrade), (c.depth, .unlock_upgrade)]) ∧
      (∃ c0 : Config Args W, c0.self = c.self ∧
        since c c0 = [(c.depth, .lock_upgrade), (c.depth, .unlock_upgrade)] ∧
        ∀ fuel, subscribe (call_handler code fuel) h x c =
          (call_handler code fuel h x c0).map Prod.snd) ∧
      (∀ b w, code h x c.world = .ret b w →
        ∀ n, ∃ c1, subscribe (call_handler code (n + 1)) h x c = some c1 ∧
          lock_ops (since c c1) = [(c.depth, .lock_upgrade), (c.depth, .unlock_upgrade)] ∧
          c1.self = c.self)) ∧
    (c.self.stopped_ = true →
      since c (start c) = [(c.depth, .lock_upgrade), (c.depth, .unlock_upgrade_and_lock),
        (c.depth, .set_stopped false), (c.depth, .unlock)] ∧
      (start c).self = { stopped_ := false, subscriptions_ := c.self.subscriptions_ }) ∧
    (c.self.stopped_ = false →
      since c (stop c) = [(c.depth, .lock_upgrade), (c.depth, .unlock_upgrade_and_lock),
        (c.depth, .set_stopped true), (c.depth, .unlock)] ∧
      (stop c).self = { stopped_ := true, subscriptions_ := c.self.subscriptions_ }) ∧
    (c.self.stopped_ = false →
      ∀ inv : handler → Args → Config Args W → Option (Bool × Config Args W),
        ∃ c1, subscribe inv h x c = some c1 ∧
          since c c1 = [(c.depth, .lock_upgrade), (c.depth, .unlock_upgrade_and_lock),
            (c.depth, .emplace_back h), (c.depth, .unlock)] ∧
          c1.self =
            { stopped_ := false, subscriptions_ := c.self.subscriptions_ ++ [h] }) := by
  refine ⟨?_, ?_, ?_, ?_, ?_, ?_⟩
  · intro hs
    refine ⟨?_, ?_⟩
    · rw [since_eq c (start c) _ (start_trace c)]
      simp [hs]
    · rw [start_self, ← hs]
  · intro hs
    refine ⟨?_, ?_⟩
    · rw [since_eq c (stop c) _ (stop_trace c)]
      simp [hs]
    · rw [stop_self, ← hs]
  · intro hs
    refine ⟨?_, ?_, ?_⟩
    · intro fuel c1 hr
      obtain ⟨b, hb⟩ := subscribe_stopped_own code h x c hs fuel c1 hr
      rw [hb]
      simp [lock_ops, Event.is_lock_op]
    · refine ⟨(c.log .lock_upgrade).log .unlock_upgrade, rfl, ?_, ?_⟩
      · simp [since, Config.log]
      · intro fuel
        exact subscribe_stopped_eq (call_handler code fuel) h x c hs
    · intro b w hret n
      refine ⟨_, subscribe_stopped_ret code n h x c b w hs hret, ?_, rfl⟩
      simp [since, lock_ops, Event.is_lock_op]
  · intro hs
    refine ⟨?_, start_self c⟩
    rw [since_eq c (start c) _ (start_trace c)]
    simp [hs]
  · intro hs
    refine ⟨?_, stop_self c⟩
    rw [since_eq c (stop c) _ (stop_trace c)]
    simp [hs]
  · intro hs inv
    refine ⟨_, subscribe_started inv h x c hs, ?_, rfl⟩
    simp [since]

theorem check_then_maybe_upgrade_witness :
    started12.self.stopped_ = false ∧
    (construct () : Config Nat Unit).self.stopped_ = true ∧
    (since started12 (start started12) = [(0, .lock_upgrade), (0, .unlock_upgrade)] ∧
      (start started12).self = started12.self) ∧
    (since (construct ()) (stop (construct () : Config Nat Unit)) =
        [(0, .lock_upgrade), (0, .unlock_upgrade)] ∧
      (stop (construct () : Config Nat Unit)).self = (construct () : Config Nat Unit).self) ∧
    (∃ c1, subscribe (call_handler restarting 2) 1 7 (construct ()) = some c1 ∧
      lock_ops (own 0 (since (construct ()) c1)) =
        [(0, .lock_upgrade), (0, .unlock_upgrade)]) ∧
    (∃ c1, subscribe (call_handler drop_first 1) 1 7 (construct ()) = some c1 ∧
      lock_ops (since (construct ()) c1) = [(0, .lock_upgrade), (0, .unlock_upgrade)] ∧
      c1.self = (construct () : Config Nat Unit).self) ∧
    (since (construct ()) (start (construct () : Config Nat Unit)) =
        [(0, .lock_upgrade), (0, .unlock_upgrade_and_lock),
          (0, .set_stopped false), (0, .unlock)] ∧
      (start (construct () : Config Nat Unit)).self =
        { stopped_ := false, subscriptions_ := [] }) ∧
    (since started12 (stop started12) =
        [(0, .lock_upgrade), (0, .unlock_upgrade_and_lock),
          (0, .set_stopped true), (0, .unlock)] ∧
      (stop started12).self = { stopped_ := true, subscriptions_ := [1, 2] }) ∧
    (∃ c1, subscribe (call_handler drop_first 0) 5 7 started12 = some c1 ∧
      since started12 c1 = [(0, .lock_upgrade), (0, .unlock_upgrade_and_lock),
        (0, .emplace_back 5), (0, .unlock)] ∧
      c1.self = { stopped_ := false, subscriptions_ := [1, 2, 5] }) :=
  ⟨rfl, rfl,
    (check_then_maybe_upgrade drop_first 5 7 started12).1 rfl,
    (check_then_maybe_upgrade drop_first 1 7 (construct ())).2.1 rfl,
    ⟨_, rfl, ((check_then_maybe_upgrade restarting 1 7 (construct ())).2.2.1 rfl).1 2 _ rfl⟩,
    ((check_then_maybe_upgrade drop_first 1 7 (construct ())).2.2.1 rfl).2.2 false () rfl 0,
    (check_then_maybe_upgrade drop_first 1 7 (construct ())).2.2.2.1 rfl,
    (check_then_maybe_upgrade drop_first 5 7 started12).2.2.2.2.1 rfl,
    (check_then_maybe_upgrade drop_first 5 7 started12).2.2.2.2.2 rfl
      (call_handler drop_first 0)⟩

end claims

end libbitcoin
